import Mathlib

/-!
# Verification of the showdown list sub-parser (`src/subParsers/makehtml/list.js`)

A shallow embedding of the list-block transformer.  Text is represented as
`List Char`; every regular expression used by the source is implemented as an
explicit, faithful scanner (lazy quantifiers, alternation order and the
backtracking cases that can actually fire are reproduced).  External
collaborators (span-level rendering, the other block transforms, the opaque
block store, the hook dispatcher) are parameters, as the specification treats
them as black-box text-to-text functions.
-/

namespace ShowdownList

/-- Text fragments are lists of characters. -/
abbrev Str := List Char

/-- Convert a Lean string literal to the `Str` representation. -/
def lit (s : String) : Str := s.data

/-- Bullet marker characters `[*+-]`. -/
def isBulletChar (c : Char) : Bool := c = '*' || c = '+' || c = '-'

/-- The character class `[ \t]`. -/
def isSpaceTab (c : Char) : Bool := c = ' ' || c = '\t'

/-- JavaScript `\s` restricted to the ASCII whitespace characters that can
occur in the texts under consideration (`\S` is its negation). -/
def isJsWhitespace (c : Char) : Bool :=
  c = ' ' || c = '\t' || c = '\n' || c = '\r' || c = '\x0b' || c = '\x0c'

/-- The sentinel `¨0` appended to the working text (lines 34 and 145). -/
def sentinel : Str := ['¨', '0']

/-- The internal escape marker `¨A` (line 219). -/
def escMarker : Str := ['¨', 'A']

/-- Consume up to `n` leading spaces, returning them and the remainder
(the regex piece ` {0,n}` followed by a non-space-matching continuation). -/
def takeSpacesUpTo : Nat → Str → (Str × Str)
  | 0, s => ([], s)
  | n + 1, s =>
    match s with
    | ' ' :: r =>
      let p := takeSpacesUpTo n r
      (' ' :: p.1, p.2)
    | _ => ([], s)

/-- Matches the marker alternative `[*+-]|\d+[.]`, returning the consumed
marker text and the remainder. -/
def matchMarker : Str → Option (Str × Str)
  | [] => none
  | c :: rest =>
    if isBulletChar c then some ([c], rest)
    else if c.isDigit then
      let ds := List.takeWhile Char.isDigit (c :: rest)
      match List.dropWhile Char.isDigit (c :: rest) with
      | '.' :: r => some (ds ++ ['.'], r)
      | _ => none
    else none

/-- `(?:[*+-]|\d+[.])[ \t]+` tested at the start of `s` (the `[ \t]+` is only
tested for, not consumed). -/
def markerWs (s : Str) : Bool :=
  match matchMarker s with
  | some (_, r) =>
    match r with
    | c :: _ => isSpaceTab c
    | [] => false
  | none => false

/-- ` {0,3}(?:[*+-]|\d+[.])[ \t]+` tested at the start of `s`. -/
def markerLine3 (s : Str) : Bool := markerWs (takeSpacesUpTo 3 s).2

/-- `\d+\.[ \t]` tested at the start of `s` (body of the `olRgx` counter
patterns, line 373). -/
def olMarkerHere (s : Str) : Bool :=
  (s.takeWhile Char.isDigit ≠ []) &&
    match s.dropWhile Char.isDigit with
    | '.' :: c :: _ => isSpaceTab c
    | _ => false

/-- `[*+-][ \t]` tested at the start of `s` (body of the `ulRgx` counter
patterns, line 374). -/
def ulMarkerHere : Str → Bool
  | c :: d :: _ => isBulletChar c && isSpaceTab d
  | _ => false

/-- The counter pattern of `parseConsecutiveLists` (lines 373-375) tested at
the start of `s`: ` {0,3}` (or ` ?` with the legacy indentation option)
followed by a marker of the requested kind and one `[ \t]`. -/
def counterAt (isOl legacy : Bool) (s : Str) : Bool :=
  let s1 := (takeSpacesUpTo (if legacy then 1 else 3) s).2
  if isOl then olMarkerHere s1 else ulMarkerHere s1

/-- `String.prototype.search` for a multiline `^`-anchored pattern: index of
the first line start whose suffix satisfies `p`. -/
def searchLinesAux (p : Str → Bool) : Str → Bool → Nat → Option Nat
  | [], atStart, i => if atStart && p [] then some i else none
  | c :: r, atStart, i =>
    if atStart && p (c :: r) then some i
    else searchLinesAux p r (c = '\n') (i + 1)

/-- Index of the first line-start match of `p` in `s`. -/
def searchLines (p : Str → Bool) (s : Str) : Option Nat :=
  searchLinesAux p s true 0

/-- Remove every occurrence of the sentinel `¨0` (line 314,
`listStr.replace(/¨0/g, '')`). -/
def stripAll02 : Str → Str
  | [] => []
  | '¨' :: '0' :: r => stripAll02 r
  | c :: r => c :: stripAll02 r

/-- Remove the first occurrence of the sentinel `¨0` (line 47,
`text.replace(/¨0/, '')`). -/
def stripFirst02 : Str → Str
  | [] => []
  | '¨' :: '0' :: r => r
  | c :: r => c :: stripFirst02 r

/-- Remove the first occurrence of the escape marker `¨A` (line 297,
`item.replace('¨A', '')`). -/
def stripFirstA : Str → Str
  | [] => []
  | '¨' :: 'A' :: r => r
  | c :: r => c :: stripFirstA r

/-- Number of trailing characters satisfying `p`. -/
def countTrailing (p : Char → Bool) (s : Str) : Nat :=
  (s.reverse.takeWhile p).length

/-- `listStr.replace(/\n{2,}$/, '\n')` (line 142): collapse two or more
trailing newlines to a single one. -/
def trimTrailingNewlines (s : Str) : Str :=
  let k := countTrailing (· = '\n') s
  if 2 ≤ k then s.take (s.length - k) ++ ['\n'] else s

/-- `item.replace(/\n$/, '')` (line 283): chomp one trailing newline. -/
def chompNl (s : Str) : Str :=
  if s.getLast? = some '\n' then s.dropLast else s

/-- `listStr.replace(/\s+$/, '')` (line 319): strip trailing whitespace. -/
def trimTrailingWs (s : Str) : Str :=
  (s.reverse.dropWhile isJsWhitespace).reverse

/-- `item.replace(/^\n+/g, '')` (lines 252 and 276). -/
def dropLeadingNls (s : Str) : Str := s.dropWhile (· = '\n')

/-- `item.replace(/\n+$/g, '')` (lines 253 and 277). -/
def dropTrailingNls (s : Str) : Str :=
  (s.reverse.dropWhile (· = '\n')).reverse

/-- `item.replace(/\n\n+/g, '\n\n')` (line 287): collapse runs of newlines to
at most two.  `seen` is the number of newlines just emitted, capped at 2. -/
def collapseNlsAux : Nat → Str → Str
  | _, [] => []
  | seen, '\n' :: r =>
    if 2 ≤ seen then collapseNlsAux seen r
    else '\n' :: collapseNlsAux (seen + 1) r
  | _, c :: r => c :: collapseNlsAux 0 r

/-- Collapse double linebreaks (line 287). -/
def collapseNls (s : Str) : Str := collapseNlsAux 0 s

/-- Does any position of `s` satisfy `p`? (unanchored regex search). -/
def anyPos (p : Str → Bool) : Str → Bool
  | [] => p []
  | c :: r => p (c :: r) || anyPos p r

/-- `pat` occurs as a contiguous substring of `s`. -/
def containsSub (pat s : Str) : Bool := anyPos (fun t => pat.isPrefixOf t) s

/-- `item.search(/\n{2,}/) > -1` (line 236): the item body contains an
internal blank line. -/
def hasDoubleNl (s : Str) : Bool := containsSub (lit "\n\n") s

/-- Split on `\n` like `String.split`, producing one part per line. -/
def splitNlAux (cur : Str) : Str → List Str
  | [] => [cur.reverse]
  | '\n' :: r => cur.reverse :: splitNlAux [] r
  | c :: r => splitNlAux (c :: cur) r

/-- Split a text into its lines (separator `\n`, separators not kept). -/
def splitNl (s : Str) : List Str := splitNlAux [] s

/-- Join parts with single `\n` separators (inverse of `splitNl`). -/
def joinNl : List Str → Str
  | [] => []
  | [l] => l
  | l :: ls => l ++ '\n' :: joinNl ls

/-- `item.split(/\n{2,}/g)` (line 255): split on maximal runs of two or
more newlines.  When `skip` is set the scanner is inside a separator run
and consumes its remaining newlines. -/
def splitGrafsAux : Bool → Str → Str → List Str
  | _, cur, [] => [cur.reverse]
  | true, cur, '\n' :: r => splitGrafsAux true cur r
  | true, cur, c :: r => splitGrafsAux false (c :: cur) r
  | false, cur, '\n' :: '\n' :: r => cur.reverse :: splitGrafsAux true [] r
  | false, cur, c :: r => splitGrafsAux false (c :: cur) r

/-- Split an item into paragraph candidates (line 255). -/
def splitGrafs (s : Str) : List Str := splitGrafsAux false [] s

/-- `str.search(/¨([KG])(\d+)\1/g) >= 0` tested at one position: an opaque
HTML block placeholder starts here. -/
def htmlMarkerAt : Str → Bool
  | '¨' :: c :: r =>
    (c = 'K' || c = 'G') &&
      (r.takeWhile Char.isDigit ≠ []) &&
      ((r.dropWhile Char.isDigit).head? = some c)
  | _ => false

/-- The paragraph-candidate opaque placeholder test (line 262). -/
def hasHtmlMarker (s : Str) : Bool := anyPos htmlMarkerAt s

/-- `str.search(/\S/) >= 0` (line 267): contains a non-whitespace character. -/
def hasNonSpace (s : Str) : Bool := s.any (fun c => !(isJsWhitespace c))

/-- One position of the `isParagraphed` test `/\n[ \t]*\n(?!¨0)/` (line 148):
a newline, optional spaces and tabs, a second newline not followed by the
sentinel. -/
def paraBreakAt : Str → Bool
  | '\n' :: r =>
    match r.dropWhile isSpaceTab with
    | '\n' :: rest => !(sentinel.isPrefixOf rest)
    | _ => false
  | _ => false

/-- `(/\n[ \t]*\n(?!¨0)/).test(listStr)` (line 148). -/
def isParagraphedTest (s : Str) : Bool := anyPos paraBreakAt s

/-- The test `/^#+.+\n.+/.test(item)` (line 230): first line starts with `#`,
has at least one further dot-matching character (with backtracking of `#+`
this means length at least two and no `\r`), and the next line begins with a
dot-matching character. -/
def headingAdjTest (s : Str) : Bool :=
  let line1 := s.takeWhile (fun c => c ≠ '\n')
  (line1.head? = some '#') && (2 ≤ line1.length) && !(line1.any (· = '\r')) &&
    match s.dropWhile (fun c => c ≠ '\n') with
    | '\n' :: c :: _ => c ≠ '\n' && c ≠ '\r'
    | _ => false

/-- A whole line matching `^(#+.+)$` in multiline mode. -/
def headingLineMatch (l : Str) : Bool :=
  (l.head? = some '#') && (2 ≤ l.length) && !(l.any (· = '\r'))

/-- Append the extra `\n` of `item.replace(/^(#+.+)$/m, '$1\n')` (line 231)
to the first matching line. -/
def insertAfterFirstHeading : List Str → List Str
  | [] => []
  | l :: ls =>
    if headingLineMatch l then (l ++ ['\n']) :: ls
    else l :: insertAfterFirstHeading ls

/-- The heading-adjacency fix (line 231). -/
def headingNlFix (s : Str) : Str :=
  joinNl (insertAfterFirstHeading (splitNl s))

/-- `^([-*+]|\d\.)[ \t]+` tested at the start of the item (line 218); the
trailing `[\S\n ]*` of the regex always matches, so the replacement amounts
to prefixing the escape marker exactly when this test succeeds. -/
def escGuardTest : Str → Bool
  | c :: d :: rest =>
    if isBulletChar c then isSpaceTab d
    else if c.isDigit then
      match d, rest with
      | '.', e :: _ => isSpaceTab e
      | _, _ => false
    else false
  | _ => false

/-- Remove 1-4 leading spaces (the `[ ]{1,4}` alternative of outdent). -/
def dropSpacesUpTo : Nat → Str → Str
  | 0, s => s
  | n + 1, s =>
    match s with
    | ' ' :: r => dropSpacesUpTo n r
    | _ => s

/-- Modelled from the spec: `showdown.helper.outdent` is not under `src/`;
per the spec (§4.3) each matched item body is outdented, its leading
indentation (one tab or up to four spaces, per line) removed. -/
def outdentLine : Str → Str
  | '\t' :: r => r
  | s => if s.head? = some ' ' then dropSpacesUpTo 4 s else s

/-- Modelled from the spec: outdent an item body line by line (§4.3). -/
def outdent (s : Str) : Str := joinNl ((splitNl s).map outdentLine)

/-! ## The list-block boundary scanner (`subListRgx` / `mainListRgx`) -/

/-- The block terminator `(¨0|\n{2,}(?=\S)(?![ \t]*(?:[*+-]|\d+[.])[ \t]+))`
(lines 20-21) tested at the start of `s`; returns the consumed text and the
remainder.  The `¨0` alternative is tried first; in the second alternative
`\n{2,}` must take the whole newline run (taking fewer leaves a newline,
which fails the `(?=\S)` lookahead). -/
def blockTerm (s : Str) : Option (Str × Str) :=
  if sentinel.isPrefixOf s then some (sentinel, s.drop 2)
  else
    let nls := s.takeWhile (· = '\n')
    let rest := s.dropWhile (· = '\n')
    if 2 ≤ nls.length then
      match rest with
      | [] => none
      | c :: _ =>
        if isJsWhitespace c then none
        else if markerWs (rest.dropWhile isSpaceTab) then none
        else some (nls, rest)
    else none

/-- The lazy content `[^\r]+?` of a list block: consume at least one
non-`\r` character, then stop at the earliest position where `blockTerm`
matches.  Returns `(content, terminator, rest)`. -/
def blockContentScan (acc : Str) : Str → Option (Str × Str × Str)
  | [] => none
  | c :: r =>
    if c = '\r' then none
    else
      match blockTerm r with
      | some (t, rest) => some ((c :: acc).reverse, t, rest)
      | none => blockContentScan (c :: acc) r

/-- Backtracking of the greedy `[ \t]+` before the lazy content: try the full
whitespace run first and give characters back to the content one at a time
(this matters when the content would otherwise be empty before a `¨0`
terminator).  `wsRev` is the reversed candidate whitespace run. -/
def blockWsCand : Str → Str → Option (Str × Str × Str × Str)
  | [], tail =>
    (match blockContentScan [] tail with
     | some (c, t, r) => some (([] : Str).reverse, c, t, r)
     | none => none)
  | [w], tail =>
    (match blockContentScan [] tail with
     | some (c, t, r) => some ([w].reverse, c, t, r)
     | none => none)
  | w :: w2 :: wr, tail =>
    (match blockContentScan [] tail with
     | some (c, t, r) => some ((w :: w2 :: wr).reverse, c, t, r)
     | none => blockWsCand (w2 :: wr) (w :: tail))

/-- A matched list block: the marker-line group ` {0,3}([*+-]|\d+[.])[ \t]+`
(group 2 of `subListRgx`, group 3 of `mainListRgx`), the captured block
(the `list` argument of `parseConsecutiveLists`), and the remainder of the
text after the whole match. -/
structure BlockMatch where
  markerGroup : Str
  list : Str
  rest : Str
  deriving Repr, DecidableEq

/-- Match the body of `subListRgx`/`mainListRgx` at a line start:
` {0,3}([*+-]|\d+[.])[ \t]+[^\r]+?(¨0|\n{2,}(?=\S)(?!...))`. -/
def matchBlockHere (s : Str) : Option BlockMatch :=
  let sp := (takeSpacesUpTo 3 s).1
  let s1 := (takeSpacesUpTo 3 s).2
  match matchMarker s1 with
  | none => none
  | some (mk, s2) =>
    let wsRun := s2.takeWhile isSpaceTab
    let s3 := s2.dropWhile isSpaceTab
    if wsRun = [] then none
    else
      match blockWsCand wsRun.reverse s3 with
      | none => none
      | some (ws, content, term, rest) =>
        some { markerGroup := sp ++ mk ++ ws
               list := sp ++ mk ++ ws ++ content ++ term
               rest := rest }

/-! ## The list-item scanner (the `rgx` of `processListItems`, lines 147/155) -/

/-- The item lookahead `(?=\n*(¨0|LOOK))` where `LOOK` is
` {0,3}([*+-]|\d+[.])[ \t]+` (strict) or `\2([*+-]|\d+[.])[ \t]+` with `\2`
the current item's captured indentation (legacy option, line 155). -/
def itemLookTail (legacy : Bool) (m2 : Str) (s : Str) : Bool :=
  let r := s.dropWhile (· = '\n')
  sentinel.isPrefixOf r ||
    (if legacy then m2.isPrefixOf r && markerWs (r.drop m2.length)
     else markerLine3 r)

/-- The item terminator `(\n{1,2})(?=\n*(...))` tested at the start of `s`:
greedy `\n{1,2}` takes two newlines when available (taking one instead leads
to the identical lookahead position, so no retry is needed). -/
def itemNlTerm (legacy : Bool) (m2 : Str) (s : Str) : Option (Str × Str) :=
  match s with
  | '\n' :: r =>
    let k := if r.head? = some '\n' then 2 else 1
    if itemLookTail legacy m2 (s.drop k) then some (s.take k, s.drop k)
    else none
  | _ => none

/-- The lazy item content `[^\r]+?` followed by the newline terminator:
consume at least one non-`\r` character, stop at the earliest matching
terminator.  Returns `(content, newlines, rest)`. -/
def itemContentScan (legacy : Bool) (m2 : Str) (acc : Str) :
    Str → Option (Str × Str × Str)
  | [] => none
  | c :: r =>
    if c = '\r' then none
    else
      match itemNlTerm legacy m2 r with
      | some (nls, rest) => some ((c :: acc).reverse, nls, rest)
      | none => itemContentScan legacy m2 (c :: acc) r

/-- A matched list item: group 1 `(\n)?` as a flag, group 2 indentation,
group 3 marker, the `[ \t]+` run, group 6 `([xX ])` when the checkbox
group 5 matched, group 4 (the item body), and the remainder. -/
structure ItemMatch where
  m1 : Bool
  m2 : Str
  m3 : Str
  ws : Str
  checkedRaw : Option Char
  m4 : Str
  rest : Str
  deriving Repr, DecidableEq

/-- Group 4 body `((\[([xX ])])?[ \t]*[^\r]+?(\n{1,2}))(?=...)` matched at
`tail` (the position right after the greedy `[ \t]+`, which leaves no
space or tab at the head of `tail`): the optional checkbox group is greedy,
and falls back to plain content when the rest of the pattern cannot match
after it.  The greedy `[ \t]*` after the checkbox backtracks into the lazy
`[^\r]+?`: all terminator positions strictly after the whitespace run are
tried first (in ascending order — that is the plain content scan over the
run's remainder); when every one of them fails and the run is non-empty,
giving one whitespace character back to the content tries the terminator
right at the end of the run (earlier positions sit on a space or tab and
can never start the `\n{1,2}` terminator), with identical captures since
group 4 concatenates the run and the content. -/
def matchM4 (legacy : Bool) (m2 : Str) (tail : Str) :
    Option (Option Char × Str × Str) :=
  let noCb : Option (Option Char × Str × Str) :=
    match itemContentScan legacy m2 [] tail with
    | some (content, nls, rest) => some (none, content ++ nls, rest)
    | none => none
  match tail with
  | '[' :: c :: ']' :: t2 =>
    if c = 'x' || c = 'X' || c = ' ' then
      let sp2 := t2.takeWhile isSpaceTab
      let t3 := t2.dropWhile isSpaceTab
      match itemContentScan legacy m2 [] t3 with
      | some (content, nls, rest) =>
        some (some c, '[' :: c :: ']' :: (sp2 ++ content ++ nls), rest)
      | none =>
        if sp2 = [] then noCb
        else
          match itemNlTerm legacy m2 t3 with
          | some (nls, rest) =>
            some (some c, '[' :: c :: ']' :: (sp2 ++ nls), rest)
          | none => noCb
    else noCb
  | _ => noCb

/-- Match one list item at a line start (after group 1 has been handled by
the driver): `(^ {0,3})([*+-]|\d+[.])[ \t]+` then the group-4 body.  The
greedy `[ \t]+` backtracks into the lazy content: the full run is tried
first (that is `matchM4` at the run's remainder, which itself covers every
terminator position strictly inside that remainder); when that fails
entirely and the run has at least two characters, giving one back lets the
content be that single whitespace character and places the `\n{1,2}`
terminator directly at the remainder's head (positions further inside the
run sit on a space or tab and can never start the terminator, and the
checkbox group cannot open on the given-back whitespace character). -/
def matchItemCore (legacy : Bool) (s : Str) : Option ItemMatch :=
  let sp := (takeSpacesUpTo 3 s).1
  let s1 := (takeSpacesUpTo 3 s).2
  match matchMarker s1 with
  | none => none
  | some (mk, s2) =>
    let ws := s2.takeWhile isSpaceTab
    let s3 := s2.dropWhile isSpaceTab
    if ws = [] then none
    else
      match matchM4 legacy sp s3 with
      | some (cb, m4, rest) =>
        some { m1 := false, m2 := sp, m3 := mk, ws := ws,
               checkedRaw := cb, m4 := m4, rest := rest }
      | none =>
        if ws.length < 2 then none
        else
          match itemNlTerm legacy sp s3 with
          | some (nls, rest) =>
            some { m1 := false, m2 := sp, m3 := mk, ws := ws.dropLast,
                   checkedRaw := none,
                   m4 := ws.drop (ws.length - 1) ++ nls, rest := rest }
          | none => none

/-! ## Data model: attributes, options, globals, collaborators, hooks -/

/-- The value of one rendered attribute (spec §3, Rendered Attributes). -/
inductive AttrVal
  | str (v : Str)
  | flag (b : Bool)
  | classes (cs : List Str)
  | null
  deriving Repr, DecidableEq

/-- An ordered attribute mapping; insertion order is preserved in output. -/
abbrev Attrs := List (Str × AttrVal)

/-- Set a property JavaScript-style: update in place when the key exists,
append otherwise. -/
def setAttr (attrs : Attrs) (k : Str) (v : AttrVal) : Attrs :=
  if attrs.any (fun p => p.1 = k) then
    attrs.map (fun p => if p.1 = k then (k, v) else p)
  else attrs ++ [(k, v)]

/-- Join class names with single spaces. -/
def joinSpace : List Str → Str
  | [] => []
  | [cl] => cl
  | cl :: cs => cl ++ ' ' :: joinSpace cs

/-- Modelled from the spec: `showdown.helper._populateAttributes` is not
under `src/`; per the spec (§3) it serializes an ordered attribute mapping
into an opening tag, preserving insertion order: string values as
` name="value"`, true booleans as the bare ` name`, class lists as a single
` class="..."`, skipping false booleans and null values. -/
def emitAttr : Str × AttrVal → Str
  | (k, .str v) => ' ' :: (k ++ '=' :: '"' :: v ++ ['"'])
  | (k, .flag true) => ' ' :: k
  | (_, .flag false) => []
  | (_, .classes cs) => lit " class=\"" ++ joinSpace cs ++ ['"']
  | (_, .null) => []

/-- Modelled from the spec: serialize attributes in insertion order (§3). -/
def populateAttributes (attrs : Attrs) : Str :=
  attrs.foldl (fun acc kv => acc ++ emitAttr kv) []

/-- Marker kind of a run. -/
inductive ListType
  | ul
  | ol
  deriving Repr, DecidableEq

/-- Flip between `ul` and `ol`. -/
def flipType : ListType → ListType
  | .ul => .ol
  | .ol => .ul

/-- The tag text of a list type. -/
def typeTag : ListType → Str
  | .ul => lit "ul"
  | .ol => lit "ol"

/-- The configuration options consulted by the list sub-parser. -/
structure ListOptions where
  tasklists : Bool := false
  disableForced4SpacesIndentedSublists : Bool := false
  moreStyling : Bool := false
  deriving Repr, DecidableEq

/-- The conversion context state: the nesting-depth counter
`globals.gListLevel`, plus a ghost field recording the minimum value the
counter ever takes (updated at the only two mutation sites, so that the
"never negative during the call" invariant is observable). -/
structure Globals where
  gListLevel : Int
  minSeen : Int
  deriving Repr, DecidableEq

/-- `globals.gListLevel++` (line 139), tracking the running minimum. -/
def incLevel (g : Globals) : Globals :=
  { gListLevel := g.gListLevel + 1,
    minSeen := min g.minSeen (g.gListLevel + 1) }

/-- `globals.gListLevel--` (line 316), tracking the running minimum. -/
def decLevel (g : Globals) : Globals :=
  { gListLevel := g.gListLevel - 1,
    minSeen := min g.minSeen (g.gListLevel - 1) }

/-- The fresh conversion context. -/
def g0 : Globals := { gListLevel := 0, minSeen := 0 }

/-- The sibling block transforms and the span-level transform invoked by the
item renderer; all are external collaborators, black-box text-to-text
functions per spec §1/§6. -/
structure Collab where
  githubCodeBlock : Str → Str
  blockquote : Str → Str
  heading : Str → Str
  codeBlock : Str → Str
  table : Str → Str
  hashHTMLBlocks : Str → Str
  paragraphs : Str → Str
  spanGamut : Str → Str

/-- Collaborators that return their input unchanged (used to observe the
list transformer's own output in concrete runs). -/
def idCollab : Collab :=
  { githubCodeBlock := id, blockquote := id, heading := id, codeBlock := id,
    table := id, hashHTMLBlocks := id, paragraphs := id, spanGamut := id }

/-- The hook dispatcher (spec §4.6): the `showdown.Event`/`dispatch`
machinery is external to `src/`; each stage's dispatch is modelled as a pure
function from the intermediate state the source passes into the event to the
fields the source reads back.  Capture hooks return the (possibly null)
literal output together with the possibly mutated attributes and, for items,
the possibly mutated `matches.listItem`. -/
structure Hooks where
  onStart : Str → Str
  onEnd : Str → Str
  listOnCapture : Str → (Option Str × Attrs)
  listItemOnCapture : Bool → Str → Attrs → (Option Str × Attrs × Str)
  listItemOnHash : Bool → Str → Str
  checkboxOnCapture : Str → Str → Attrs → (Option Str × Attrs)
  checkboxOnHash : Str → Str

/-- Hooks that leave everything unchanged and supply no literal output. -/
def defHooks : Hooks :=
  { onStart := id, onEnd := id,
    listOnCapture := fun _ => (none, []),
    listItemOnCapture := fun _ item attrs => (none, attrs, item),
    listItemOnHash := fun _ s => s,
    checkboxOnCapture := fun _ _ attrs => (none, attrs),
    checkboxOnHash := fun s => s }

/-- The whole parameter pack of one conversion. -/
structure Ctx where
  opts : ListOptions
  collab : Collab
  hooks : Hooks

/-- Default context: default options, identity collaborators, no hooks. -/
def defCtx : Ctx := { opts := {}, collab := idCollab, hooks := defHooks }

/-- JavaScript truthiness check of a hook's supplied output (lines 91, 198,
367): honored only when non-null and non-empty. -/
def hookOutputUsed : Option Str → Bool
  | some (c :: r) => (c :: r : Str) ≠ []
  | _ => false

/-- `checked = (checkedRaw && checkedRaw.trim() !== '')` (line 161). -/
def checkedOf : Option Char → Bool
  | some c => !(isJsWhitespace c)
  | none => false

/-- `/^[ \t]*\[([xX ])]/` tested at the start of `s`: returns the number of
consumed characters and the captured checkbox character. -/
def checkboxHere (s : Str) : Option (Nat × Char) :=
  let sp := s.takeWhile isSpaceTab
  match s.dropWhile isSpaceTab with
  | '[' :: c :: ']' :: _ =>
    if c = 'x' || c = 'X' || c = ' ' then some (sp.length + 3, c) else none
  | _ => none

/-- Find the first line-start match of the checkbox pattern (the `m` flag of
`checkboxRgx`, line 67); returns `(before, matchedText, captured, after)`. -/
def findCheckboxAux (acc : Str) (atStart : Bool) :
    Str → Option (Str × Str × Char × Str)
  | [] => none
  | c :: r =>
    if atStart then
      match checkboxHere (c :: r) with
      | some (n, ch) =>
        some (acc.reverse, (c :: r).take n, ch, (c :: r).drop n)
      | none => findCheckboxAux (c :: acc) (c = '\n') r
    else findCheckboxAux (c :: acc) (c = '\n') r

/-- First checkbox-token match of an item body (line 67). -/
def findCheckbox (s : Str) : Option (Str × Str × Char × Str) :=
  findCheckboxAux [] true s

/-- `styleStartNumber` (lines 331-340): for an `ol` list whose text matches
`/^ *(\d+)\./` with a captured number different from the string `"1"`,
return that number. -/
def styleStartNumber (list : Str) (listType : ListType) : Option Str :=
  if listType = .ol then
    let s1 := list.dropWhile (· = ' ')
    let ds := s1.takeWhile Char.isDigit
    if ds ≠ [] && ((s1.dropWhile Char.isDigit).head? = some '.') then
      if ds ≠ ['1'] then some ds else none
    else none
  else none

/-- The attributes of the task-list checkbox input element (lines 70-75). -/
def checkboxAttrs (checked : Bool) : Attrs :=
  [(lit "type", .str (lit "checkbox")),
   (lit "disabled", .flag true),
   (lit "style",
    .str (lit "margin: 0px 0.35em 0.25em -1.6em; vertical-align: middle;")),
   (lit "checked", .flag checked)]

/-- `processTaskListItem` (lines 65-109): replace the first line-start
checkbox token of the item body by a disabled checkbox input element, with
the two checkbox-stage hooks applied; when no token matches, the body is
returned unchanged (and no event is raised). -/
def processTaskListItem (K : Ctx) (item : Str) (checked : Bool) : Str :=
  match findCheckbox item with
  | none => item
  | some (pre, wm, _craw, post) =>
    let attrs0 := checkboxAttrs checked
    let hr := K.hooks.checkboxOnCapture item wm attrs0
    let otp :=
      if hookOutputUsed hr.1 then hr.1.getD []
      else lit "<input" ++ populateAttributes hr.2 ++ [ '>' ]
    pre ++ K.hooks.checkboxOnHash otp ++ post

/-- The attributes given to a task-list `<li>` (lines 175-179). -/
def taskItemAttrs (O : ListOptions) (checked : Bool) : Attrs :=
  [(lit "classes",
    .classes (if O.moreStyling && checked then
                [lit "task-list-item", lit "task-list-item-complete"]
              else [lit "task-list-item"])),
   (lit "style", .str (lit "list-style-type: none;"))]

/-- The container markup of one run (lines 386, 395, 401):
`\n\n<tag attrs>\n` ++ items ++ `</tag>\n`. -/
def containerWrap (lt : ListType) (attrs : Attrs) (inner : Str) : Str :=
  lit "\n\n<" ++ typeTag lt ++ populateAttributes attrs ++ lit ">\n" ++
    inner ++ lit "</" ++ typeTag lt ++ lit ">\n"

/-- The list-start attribute value: the string when present, JavaScript
`null` otherwise (lines 382, 400). -/
def startAttrVal : Option Str → AttrVal
  | some s => .str s
  | none => .null

/-- Wrap rendered item content in `<li>` markup (lines 297-300) and apply
the item after-hook (lines 304-310). -/
def liWrap (K : Ctx) (isTask : Bool) (attrs : Attrs) (content : Str) : Str :=
  K.hooks.listItemOnHash isTask
    (lit "<li" ++ populateAttributes attrs ++ ['>'] ++
      stripFirstA content ++ lit "</li>\n")

/-- Kind of a captured block from its marker-line group (lines 38, 42):
`'ul'` when the group contains a bullet character, `'ol'` otherwise. -/
def kindOfGroup (grp : Str) : ListType :=
  if grp.any isBulletChar then .ul else .ol

/-- One match attempt of `mainListRgx` at the current position: first the
consumed-`\n\n` alternative, then — at line starts — `^\n?` which may
consume one newline (a block can never start with a newline, so the
zero-consumption try after a newline head always fails and is omitted). -/
def mainAttempt (atStart : Bool) (s : Str) : Option BlockMatch :=
  match s with
  | '\n' :: '\n' :: r2 =>
    match matchBlockHere r2 with
    | some bm => some bm
    | none => if atStart then matchBlockHere ('\n' :: r2) else none
  | '\n' :: r1 => if atStart then matchBlockHere r1 else none
  | s => if atStart then matchBlockHere s else none

/-- One match attempt of `subListRgx` at the current position: anchored at
line starts. -/
def subAttempt (atStart : Bool) (s : Str) : Option BlockMatch :=
  if atStart then matchBlockHere s else none

/-- One match attempt of the item pattern at the current position: group 1
`(\n)?` may consume one newline (the indentation group cannot match a
newline, so the zero-consumption try after a newline head always fails and
is omitted); otherwise the position must be a line start. -/
def itemAttempt (legacy atStart : Bool) (s : Str) : Option ItemMatch :=
  match s with
  | '\n' :: r =>
    match matchItemCore legacy r with
    | some im => some { im with m1 := true }
    | none => none
  | s => if atStart then matchItemCore legacy s else none

/-- The guard chain applied to the (possibly hook-mutated) item body before
path selection: task-list processing (lines 206-208), the escape guard
(lines 218-221), the heading-adjacency guard (lines 230-232). -/
def itemGuardsAll (K : Ctx) (itemA : Str) (checked : Bool) : Str :=
  let itemB :=
    if K.opts.tasklists then processTaskListItem K itemA checked else itemA
  let itemC := if escGuardTest itemB then escMarker ++ itemB else itemB
  if headingAdjTest itemC then headingNlFix itemC else itemC

/-- What a paragraph candidate becomes in the loose path's loop (lines
259-273): opaque placeholders pass through, non-blank candidates are
span-rendered and `<p>`-wrapped, blank candidates are dropped. -/
def grafWrap (K : Ctx) (gr : Str) : Option Str :=
  if hasHtmlMarker gr then some gr
  else if hasNonSpace gr then
    some (lit "<p>" ++ (K.collab.spanGamut gr).dropWhile isSpaceTab
            ++ lit "</p>")
  else none

/-! ## The transformer

The mutually recursive core.  `fuel` bounds the recursion depth (every call
in the mutual block decrements it); `none` means fuel exhaustion — the
JavaScript source has no corresponding failure path, and sufficient fuel is
established separately. -/

mutual

/-- `showdown.subParser('makehtml.list', ...)` (lines 16-56): apply the
start hook, append the sentinel, replace list blocks using the nested or
the top-level boundary pattern according to `gListLevel`, strip the first
sentinel occurrence and apply the end hook. -/
def listF (K : Ctx) : Nat → Str → Globals → Option (Str × Globals)
  | 0, _, _ => none
  | fuel + 1, text, g =>
    let t1 := K.hooks.onStart text
    let t2 := t1 ++ sentinel
    match (if g.gListLevel ≠ 0 then replaceSubF K fuel t2 true [] g
           else replaceMainF K fuel t2 true [] g) with
    | none => none
    | some (t3, g1) => some (K.hooks.onEnd (stripFirst02 t3), g1)

/-- The global replace of `mainListRgx` (lines 41-44): at each position try
the consumed `\n\n` alternative, then — at line starts — `^\n?`; replaced
spans are rendered by `parseConsecutiveLists` with `trimTrailing = false`.
`accRev` is the output built so far, reversed. -/
def replaceMainF (K : Ctx) :
    Nat → Str → Bool → Str → Globals → Option (Str × Globals)
  | 0, _, _, _, _ => none
  | fuel + 1, s, atStart, accRev, g =>
    match s with
    | [] => some (accRev.reverse, g)
    | c :: r =>
      match mainAttempt atStart (c :: r) with
      | some bm =>
        match parseConsecutiveListsF K fuel bm.list
                (kindOfGroup bm.markerGroup) false g with
        | none => none
        | some (rep, g1) =>
          replaceMainF K fuel bm.rest (bm.list.getLast? = some '\n')
            (rep.reverse ++ accRev) g1
      | none => replaceMainF K fuel r (c = '\n') (c :: accRev) g

/-- The global replace of `subListRgx` (lines 37-39): anchored at line
starts; replaced spans are rendered with `trimTrailing = true`. -/
def replaceSubF (K : Ctx) :
    Nat → Str → Bool → Str → Globals → Option (Str × Globals)
  | 0, _, _, _, _ => none
  | fuel + 1, s, atStart, accRev, g =>
    match s with
    | [] => some (accRev.reverse, g)
    | c :: r =>
      match subAttempt atStart (c :: r) with
      | some bm =>
        match parseConsecutiveListsF K fuel bm.list
                (kindOfGroup bm.markerGroup) true g with
        | none => none
        | some (rep, g1) =>
          replaceSubF K fuel bm.rest (bm.list.getLast? = some '\n')
            (rep.reverse ++ accRev) g1
      | none => replaceSubF K fuel r (c = '\n') (c :: accRev) g

/-- `parseConsecutiveLists` (lines 350-405): raise the run-capture hook;
when its output is not used, search for the opposite-kind counter pattern
and either split via `parseCL` or emit a single container whose `start`
attribute comes from `styleStartNumber`. -/
def parseConsecutiveListsF (K : Ctx) :
    Nat → Str → ListType → Bool → Globals → Option (Str × Globals)
  | 0, _, _, _, _ => none
  | fuel + 1, list, listType, trimTrailing, g =>
    let hr := K.hooks.listOnCapture list
    if hookOutputUsed hr.1 then some (hr.1.getD [], g)
    else
      let legacy := K.opts.disableForced4SpacesIndentedSublists
      match searchLines (counterAt (listType = .ul) legacy) list with
      | some _ => parseCLF K fuel [] hr.2 listType list list trimTrailing g
      | none =>
        let attrs := setAttr hr.2 (lit "start")
          (startAttrVal (styleStartNumber list listType))
        match processListItemsF K fuel list trimTrailing g with
        | none => none
        | some (inner, g1) => some (containerWrap listType attrs inner, g1)

/-- The inner `parseCL` recursion (lines 380-397).  `origList` is the outer
`list` variable captured by the closure: the `start` attribute is computed
from it (not from the current slice `txt`) on every iteration.  The counter
pattern is the one for the kind opposite to the current `listType`. -/
def parseCLF (K : Ctx) :
    Nat → Str → Attrs → ListType → Str → Str → Bool → Globals →
      Option (Str × Globals)
  | 0, _, _, _, _, _, _, _ => none
  | fuel + 1, acc, attrs, listType, origList, txt, trimTrailing, g =>
    let legacy := K.opts.disableForced4SpacesIndentedSublists
    let attrs1 := setAttr attrs (lit "start")
      (startAttrVal (styleStartNumber origList listType))
    match searchLines (counterAt (listType = .ul) legacy) txt with
    | some pos =>
      match processListItemsF K fuel (txt.take pos) trimTrailing g with
      | none => none
      | some (inner, g1) =>
        parseCLF K fuel (acc ++ containerWrap listType attrs1 inner) attrs1
          (flipType listType) origList (txt.drop pos) trimTrailing g1
    | none =>
      match processListItemsF K fuel txt trimTrailing g with
      | none => none
      | some (inner, g1) =>
        some (acc ++ containerWrap listType attrs1 inner, g1)

/-- `processListItems` (lines 118-323): increment the nesting counter, trim
trailing blank lines, append the sentinel, compute `isParagraphed`, replace
every item match, strip all sentinels, decrement the counter and optionally
trim trailing whitespace. -/
def processListItemsF (K : Ctx) :
    Nat → Str → Bool → Globals → Option (Str × Globals)
  | 0, _, _, _ => none
  | fuel + 1, listStr, trimTrailing, g =>
    let g1 := incLevel g
    let ls2 := trimTrailingNewlines listStr ++ sentinel
    let legacy := K.opts.disableForced4SpacesIndentedSublists
    let isPara := isParagraphedTest ls2
    match replaceItemsF K fuel legacy isPara ls2 true [] g1 with
    | none => none
    | some (ls3, g2) =>
      let ls4 := stripAll02 ls3
      let g3 := decLevel g2
      some ((if trimTrailing then trimTrailingWs ls4 else ls4), g3)

/-- The global replace of the item pattern inside `processListItems`
(line 158): at each position, a match may start by consuming one newline
(group 1) or, at a line start, directly with the indentation group. -/
def replaceItemsF (K : Ctx) :
    Nat → Bool → Bool → Str → Bool → Str → Globals → Option (Str × Globals)
  | 0, _, _, _, _, _, _ => none
  | fuel + 1, legacy, isPara, s, atStart, accRev, g =>
    match s with
    | [] => some (accRev.reverse, g)
    | c :: r =>
      match itemAttempt legacy atStart (c :: r) with
      | some im =>
        match itemCallbackF K fuel isPara im g with
        | none => none
        | some (rep, g1) =>
          replaceItemsF K fuel legacy isPara im.rest
            (im.m4.getLast? = some '\n') (rep.reverse ++ accRev) g1
      | none => replaceItemsF K fuel legacy isPara r (c = '\n') (c :: accRev) g

/-- The item replacement callback (lines 158-311): outdent, raise the
item-capture hook, optionally process the task-list token, apply the escape
guard and the heading-adjacency guard, render on the loose or the tight
path, and wrap in `<li>` markup. -/
def itemCallbackF (K : Ctx) :
    Nat → Bool → ItemMatch → Globals → Option (Str × Globals)
  | 0, _, _, _ => none
  | fuel + 1, isPara, im, g =>
    let item0 := outdent im.m4
    let checked := checkedOf im.checkedRaw
    let isTask := im.checkedRaw.isSome && K.opts.tasklists
    let attrs0 : Attrs := if isTask then taskItemAttrs K.opts checked else []
    let hr := K.hooks.listItemOnCapture isTask item0 attrs0
    if hookOutputUsed hr.1 then
      some (K.hooks.listItemOnHash isTask (hr.1.getD []), g)
    else
      let attrs := hr.2.1
      let itemD := itemGuardsAll K hr.2.2 checked
      if im.m1 || hasDoubleNl itemD then
        match looseRenderF K fuel itemD g with
        | none => none
        | some (content, g1) => some (liWrap K isTask attrs content, g1)
      else
        match tightRenderF K fuel isPara itemD g with
        | none => none
        | some (content, g1) => some (liWrap K isTask attrs content, g1)

/-- The loose (paragraph-wrapping) item path (lines 236-277): the nested
block transforms including the list self-recursion, then the paragraph
loop over blank-line-separated candidates. -/
def looseRenderF (K : Ctx) :
    Nat → Str → Globals → Option (Str × Globals)
  | 0, _, _ => none
  | fuel + 1, itemD, g =>
    match listF K fuel (K.collab.heading (K.collab.blockquote
        (K.collab.githubCodeBlock itemD))) g with
    | none => none
    | some (a2, g1) =>
      let a3 := K.collab.hashHTMLBlocks (K.collab.table
        (K.collab.codeBlock a2))
      let a4 := dropTrailingNls (dropLeadingNls a3)
      let grafsOut := (splitGrafs a4).foldl (fun acc gr =>
        if hasHtmlMarker gr then acc ++ [gr]
        else if hasNonSpace gr then
          acc ++ [lit "<p>" ++ (K.collab.spanGamut gr).dropWhile isSpaceTab
                    ++ lit "</p>"]
        else acc) []
      some (dropTrailingNls (dropLeadingNls (joinNl grafsOut)), g1)

/-- The tight item path (lines 279-294): list self-recursion, chomp, opaque
resolution, newline collapse, then paragraph transform when the run is
paragraphed, span-level transform otherwise. -/
def tightRenderF (K : Ctx) :
    Nat → Bool → Str → Globals → Option (Str × Globals)
  | 0, _, _, _ => none
  | fuel + 1, isPara, itemD, g =>
    match listF K fuel itemD g with
    | none => none
    | some (b1, g1) =>
      let b2 := collapseNls (K.collab.hashHTMLBlocks (chompNl b1))
      some ((if isPara then K.collab.paragraphs b2
             else K.collab.spanGamut b2), g1)

end

/-- The default context with the task-lists option enabled. -/
def taskCtx : Ctx := { defCtx with opts := { tasklists := true } }

/-! ## Unfolding equations of the mutual block -/

theorem listF_zero (K : Ctx) (t : Str) (g : Globals) :
    listF K 0 t g = none := rfl

theorem listF_succ (K : Ctx) (fuel : Nat) (text : Str) (g : Globals) :
    listF K (fuel + 1) text g =
      (match (if g.gListLevel ≠ 0 then
               replaceSubF K fuel (K.hooks.onStart text ++ sentinel) true [] g
             else
               replaceMainF K fuel (K.hooks.onStart text ++ sentinel) true []
                 g) with
       | none => none
       | some (t3, g1) => some (K.hooks.onEnd (stripFirst02 t3), g1)) := rfl

theorem parseConsecutiveListsF_zero (K : Ctx) (l : Str) (lt : ListType)
    (tr : Bool) (g : Globals) : parseConsecutiveListsF K 0 l lt tr g = none :=
  rfl

theorem parseConsecutiveListsF_succ (K : Ctx) (fuel : Nat) (list : Str)
    (listType : ListType) (trimTrailing : Bool) (g : Globals) :
    parseConsecutiveListsF K (fuel + 1) list listType trimTrailing g =
      (let hr := K.hooks.listOnCapture list
       if hookOutputUsed hr.1 then some (hr.1.getD [], g)
       else
         let legacy := K.opts.disableForced4SpacesIndentedSublists
         match searchLines (counterAt (listType = .ul) legacy) list with
         | some _ =>
           parseCLF K fuel [] hr.2 listType list list trimTrailing g
         | none =>
           let attrs := setAttr hr.2 (lit "start")
             (startAttrVal (styleStartNumber list listType))
           match processListItemsF K fuel list trimTrailing g with
           | none => none
           | some (inner, g1) =>
             some (containerWrap listType attrs inner, g1)) := rfl

theorem parseCLF_zero (K : Ctx) (a : Str) (b : Attrs) (c : ListType)
    (d e : Str) (f : Bool) (g : Globals) : parseCLF K 0 a b c d e f g = none :=
  rfl

theorem parseCLF_succ (K : Ctx) (fuel : Nat) (acc : Str) (attrs : Attrs)
    (lt : ListType) (orig txt : Str) (trim : Bool) (g : Globals) :
    parseCLF K (fuel + 1) acc attrs lt orig txt trim g =
      (match searchLines
          (counterAt (lt = .ul) K.opts.disableForced4SpacesIndentedSublists)
          txt with
       | some pos =>
         match processListItemsF K fuel (txt.take pos) trim g with
         | none => none
         | some (inner, g1) =>
           parseCLF K fuel
             (acc ++ containerWrap lt
               (setAttr attrs (lit "start")
                 (startAttrVal (styleStartNumber orig lt))) inner)
             (setAttr attrs (lit "start")
               (startAttrVal (styleStartNumber orig lt)))
             (flipType lt) orig (txt.drop pos) trim g1
       | none =>
         match processListItemsF K fuel txt trim g with
         | none => none
         | some (inner, g1) =>
           some (acc ++ containerWrap lt
             (setAttr attrs (lit "start")
               (startAttrVal (styleStartNumber orig lt))) inner, g1)) := rfl

theorem processListItemsF_zero (K : Ctx) (l : Str) (tr : Bool) (g : Globals) :
    processListItemsF K 0 l tr g = none := rfl

theorem processListItemsF_succ (K : Ctx) (fuel : Nat) (listStr : Str)
    (trimTrailing : Bool) (g : Globals) :
    processListItemsF K (fuel + 1) listStr trimTrailing g =
      (let g1 := incLevel g
       let ls2 := trimTrailingNewlines listStr ++ sentinel
       let legacy := K.opts.disableForced4SpacesIndentedSublists
       let isPara := isParagraphedTest ls2
       match replaceItemsF K fuel legacy isPara ls2 true [] g1 with
       | none => none
       | some (ls3, g2) =>
         let ls4 := stripAll02 ls3
         let g3 := decLevel g2
         some ((if trimTrailing then trimTrailingWs ls4 else ls4), g3)) := rfl

theorem replaceItemsF_zero (K : Ctx) (a b : Bool) (s : Str) (c : Bool)
    (d : Str) (g : Globals) : replaceItemsF K 0 a b s c d g = none := rfl

theorem replaceItemsF_succ (K : Ctx) (fuel : Nat) (legacy isPara : Bool)
    (s : Str) (atStart : Bool) (accRev : Str) (g : Globals) :
    replaceItemsF K (fuel + 1) legacy isPara s atStart accRev g =
      (match s with
       | [] => some (accRev.reverse, g)
       | c :: r =>
         match itemAttempt legacy atStart (c :: r) with
         | some im =>
           match itemCallbackF K fuel isPara im g with
           | none => none
           | some (rep, g1) =>
             replaceItemsF K fuel legacy isPara im.rest
               (im.m4.getLast? = some '\n') (rep.reverse ++ accRev) g1
         | none =>
           replaceItemsF K fuel legacy isPara r (c = '\n') (c :: accRev) g) :=
  rfl

theorem replaceMainF_zero (K : Ctx) (s : Str) (a : Bool) (b : Str)
    (g : Globals) : replaceMainF K 0 s a b g = none := rfl

theorem replaceMainF_succ (K : Ctx) (fuel : Nat) (s : Str) (atStart : Bool)
    (accRev : Str) (g : Globals) :
    replaceMainF K (fuel + 1) s atStart accRev g =
      (match s with
       | [] => some (accRev.reverse, g)
       | c :: r =>
         match mainAttempt atStart (c :: r) with
         | some bm =>
           match parseConsecutiveListsF K fuel bm.list
                   (kindOfGroup bm.markerGroup) false g with
           | none => none
           | some (rep, g1) =>
             replaceMainF K fuel bm.rest (bm.list.getLast? = some '\n')
               (rep.reverse ++ accRev) g1
         | none => replaceMainF K fuel r (c = '\n') (c :: accRev) g) := rfl

theorem replaceSubF_zero (K : Ctx) (s : Str) (a : Bool) (b : Str)
    (g : Globals) : replaceSubF K 0 s a b g = none := rfl

theorem replaceSubF_succ (K : Ctx) (fuel : Nat) (s : Str) (atStart : Bool)
    (accRev : Str) (g : Globals) :
    replaceSubF K (fuel + 1) s atStart accRev g =
      (match s with
       | [] => some (accRev.reverse, g)
       | c :: r =>
         match subAttempt atStart (c :: r) with
         | some bm =>
           match parseConsecutiveListsF K fuel bm.list
                   (kindOfGroup bm.markerGroup) true g with
           | none => none
           | some (rep, g1) =>
             replaceSubF K fuel bm.rest (bm.list.getLast? = some '\n')
               (rep.reverse ++ accRev) g1
         | none => replaceSubF K fuel r (c = '\n') (c :: accRev) g) := rfl

theorem itemCallbackF_zero (K : Ctx) (a : Bool) (im : ItemMatch)
    (g : Globals) : itemCallbackF K 0 a im g = none := rfl

theorem itemCallbackF_succ (K : Ctx) (fuel : Nat) (isPara : Bool)
    (im : ItemMatch) (g : Globals) :
    itemCallbackF K (fuel + 1) isPara im g =
      (if hookOutputUsed (K.hooks.listItemOnCapture
          (im.checkedRaw.isSome && K.opts.tasklists) (outdent im.m4)
          (if im.checkedRaw.isSome && K.opts.tasklists then
             taskItemAttrs K.opts (checkedOf im.checkedRaw)
           else [])).1 then
         some (K.hooks.listItemOnHash
           (im.checkedRaw.isSome && K.opts.tasklists)
           ((K.hooks.listItemOnCapture
              (im.checkedRaw.isSome && K.opts.tasklists) (outdent im.m4)
              (if im.checkedRaw.isSome && K.opts.tasklists then
                 taskItemAttrs K.opts (checkedOf im.checkedRaw)
               else [])).1.getD []), g)
       else
         if im.m1 || hasDoubleNl (itemGuardsAll K
             (K.hooks.listItemOnCapture
               (im.checkedRaw.isSome && K.opts.tasklists) (outdent im.m4)
               (if im.checkedRaw.isSome && K.opts.tasklists then
                  taskItemAttrs K.opts (checkedOf im.checkedRaw)
                else [])).2.2 (checkedOf im.checkedRaw)) then
           match looseRenderF K fuel (itemGuardsAll K
               (K.hooks.listItemOnCapture
                 (im.checkedRaw.isSome && K.opts.tasklists) (outdent im.m4)
                 (if im.checkedRaw.isSome && K.opts.tasklists then
                    taskItemAttrs K.opts (checkedOf im.checkedRaw)
                  else [])).2.2 (checkedOf im.checkedRaw)) g with
           | none => none
           | some (content, g1) =>
             some (liWrap K (im.checkedRaw.isSome && K.opts.tasklists)
               (K.hooks.listItemOnCapture
                 (im.checkedRaw.isSome && K.opts.tasklists) (outdent im.m4)
                 (if im.checkedRaw.isSome && K.opts.tasklists then
                    taskItemAttrs K.opts (checkedOf im.checkedRaw)
                  else [])).2.1 content, g1)
         else
           match tightRenderF K fuel isPara (itemGuardsAll K
               (K.hooks.listItemOnCapture
                 (im.checkedRaw.isSome && K.opts.tasklists) (outdent im.m4)
                 (if im.checkedRaw.isSome && K.opts.tasklists then
                    taskItemAttrs K.opts (checkedOf im.checkedRaw)
                  else [])).2.2 (checkedOf im.checkedRaw)) g with
           | none => none
           | some (content, g1) =>
             some (liWrap K (im.checkedRaw.isSome && K.opts.tasklists)
               (K.hooks.listItemOnCapture
                 (im.checkedRaw.isSome && K.opts.tasklists) (outdent im.m4)
                 (if im.checkedRaw.isSome && K.opts.tasklists then
                    taskItemAttrs K.opts (checkedOf im.checkedRaw)
                  else [])).2.1 content, g1)) := rfl

theorem looseRenderF_succ (K : Ctx) (fuel : Nat) (itemD : Str)
    (g : Globals) :
    looseRenderF K (fuel + 1) itemD g =
      (match listF K fuel (K.collab.heading (K.collab.blockquote
          (K.collab.githubCodeBlock itemD))) g with
       | none => none
       | some (a2, g1) =>
         some (dropTrailingNls (dropLeadingNls (joinNl
           ((splitGrafs (dropTrailingNls (dropLeadingNls
             (K.collab.hashHTMLBlocks (K.collab.table
               (K.collab.codeBlock a2)))))).foldl (fun acc gr =>
             if hasHtmlMarker gr then acc ++ [gr]
             else if hasNonSpace gr then
               acc ++ [lit "<p>" ++
                 (K.collab.spanGamut gr).dropWhile isSpaceTab ++ lit "</p>"]
             else acc) []))), g1)) := rfl

theorem tightRenderF_succ (K : Ctx) (fuel : Nat) (isPara : Bool)
    (itemD : Str) (g : Globals) :
    tightRenderF K (fuel + 1) isPara itemD g =
      (match listF K fuel itemD g with
       | none => none
       | some (b1, g1) =>
         some ((if isPara then
                  K.collab.paragraphs (collapseNls (K.collab.hashHTMLBlocks
                    (chompNl b1)))
                else
                  K.collab.spanGamut (collapseNls (K.collab.hashHTMLBlocks
                    (chompNl b1)))), g1)) := rfl

theorem replaceMainF_cons (K : Ctx) (fuel : Nat) (c : Char) (r : Str)
    (atStart : Bool) (accRev : Str) (g : Globals) :
    replaceMainF K (fuel + 1) (c :: r) atStart accRev g =
      (match mainAttempt atStart (c :: r) with
       | some bm =>
         match parseConsecutiveListsF K fuel bm.list
                 (kindOfGroup bm.markerGroup) false g with
         | none => none
         | some (rep, g1) =>
           replaceMainF K fuel bm.rest (bm.list.getLast? = some '\n')
             (rep.reverse ++ accRev) g1
       | none => replaceMainF K fuel r (c = '\n') (c :: accRev) g) := rfl

theorem replaceMainF_nil (K : Ctx) (fuel : Nat) (atStart : Bool)
    (accRev : Str) (g : Globals) :
    replaceMainF K (fuel + 1) [] atStart accRev g =
      some (accRev.reverse, g) := rfl

theorem replaceSubF_cons (K : Ctx) (fuel : Nat) (c : Char) (r : Str)
    (atStart : Bool) (accRev : Str) (g : Globals) :
    replaceSubF K (fuel + 1) (c :: r) atStart accRev g =
      (match subAttempt atStart (c :: r) with
       | some bm =>
         match parseConsecutiveListsF K fuel bm.list
                 (kindOfGroup bm.markerGroup) true g with
         | none => none
         | some (rep, g1) =>
           replaceSubF K fuel bm.rest (bm.list.getLast? = some '\n')
             (rep.reverse ++ accRev) g1
       | none => replaceSubF K fuel r (c = '\n') (c :: accRev) g) := rfl

theorem replaceSubF_nil (K : Ctx) (fuel : Nat) (atStart : Bool)
    (accRev : Str) (g : Globals) :
    replaceSubF K (fuel + 1) [] atStart accRev g =
      some (accRev.reverse, g) := rfl

theorem replaceItemsF_cons (K : Ctx) (fuel : Nat) (legacy isPara : Bool)
    (c : Char) (r : Str) (atStart : Bool) (accRev : Str) (g : Globals) :
    replaceItemsF K (fuel + 1) legacy isPara (c :: r) atStart accRev g =
      (match itemAttempt legacy atStart (c :: r) with
       | some im =>
         match itemCallbackF K fuel isPara im g with
         | none => none
         | some (rep, g1) =>
           replaceItemsF K fuel legacy isPara im.rest
             (im.m4.getLast? = some '\n') (rep.reverse ++ accRev) g1
       | none =>
         replaceItemsF K fuel legacy isPara r (c = '\n') (c :: accRev) g) :=
  rfl

theorem replaceItemsF_nil (K : Ctx) (fuel : Nat) (legacy isPara : Bool)
    (atStart : Bool) (accRev : Str) (g : Globals) :
    replaceItemsF K (fuel + 1) legacy isPara [] atStart accRev g =
      some (accRev.reverse, g) := rfl

/-! ## Decomposition of `parseCL` into alternating segments -/

/-- The kinds of the containers `parseCL` emits, alternating from the
initial kind. -/
def altKinds : ListType → Nat → List ListType
  | _, 0 => []
  | lt, n + 1 => lt :: altKinds (flipType lt) n

/-- One container emitted by the consecutive-list splitter: its marker kind,
its serialized attributes, and the slice of the captured block it wraps. -/
structure Seg where
  kind : ListType
  attrs : Attrs
  slice : Str

/-- `SegRender K trim g segs out g'`: `out` is the concatenation of one
container per segment, each wrapping the item-segmentation of its own slice,
threading the conversion state from `g` to `g'`. -/
inductive SegRender (K : Ctx) (trim : Bool) :
    Globals → List Seg → Str → Globals → Prop
  | nil (g : Globals) : SegRender K trim g [] [] g
  | cons {f : Nat} {g g1 g2 : Globals} {inner out : Str}
      (sg : Seg) (segs : List Seg)
      (h1 : processListItemsF K f sg.slice trim g = some (inner, g1))
      (h2 : SegRender K trim g1 segs out g2) :
      SegRender K trim g (sg :: segs)
        (containerWrap sg.kind sg.attrs inner ++ out) g2

/-- Updating the same key twice keeps only the second value. -/
theorem setAttr_setAttr (a : Attrs) (k : Str) (v w : AttrVal) :
    setAttr (setAttr a k v) k w = setAttr a k w := by
  by_cases h : a.any (fun p => decide (p.1 = k)) = true
  · have hany : (a.map (fun p => if p.1 = k then (k, v) else p)).any
        (fun p => decide (p.1 = k)) = true := by
      rcases List.any_eq_true.mp h with ⟨p, hp, hpk⟩
      refine List.any_eq_true.mpr ⟨(k, v), List.mem_map.mpr ⟨p, hp, ?_⟩, by simp⟩
      simp [of_decide_eq_true hpk]
    rw [setAttr, setAttr, if_pos h, if_pos hany, setAttr, if_pos h,
      List.map_map]
    refine List.map_congr_left ?_
    intro p _
    by_cases hpk : p.1 = k <;> simp [hpk, Function.comp]
  · have hany : ((a ++ [(k, v)]).any (fun p => decide (p.1 = k))) = true := by
      simp
    have ha : a.map (fun p => if p.1 = k then (k, w) else p) = a := by
      conv_rhs => rw [show a = a.map id from (List.map_id a).symm]
      refine List.map_congr_left ?_
      intro p hp
      have hk : ¬(p.1 = k) := by
        intro hk
        exact h (List.any_eq_true.mpr ⟨p, hp, decide_eq_true hk⟩)
      simp [hk]
    rw [setAttr, setAttr, if_neg h, if_pos hany, setAttr, if_neg h,
      List.map_append, ha]
    simp

/-- The consecutive-list splitter decomposition: a successful `parseCL` run
appends to the accumulator a concatenation of containers, one per segment;
the segments are non-empty, their kinds alternate starting from the current
kind, their slices partition the processed text, and each one's attributes
set the `start` key from `styleStartNumber` applied to the *original*
captured block at that segment's kind. -/
theorem parseCLF_segs (K : Ctx) :
    ∀ (fuel : Nat) (acc : Str) (attrs : Attrs) (lt : ListType)
      (orig txt : Str) (trim : Bool) (g : Globals) (out : Str) (g' : Globals),
      parseCLF K fuel acc attrs lt orig txt trim g = some (out, g') →
      ∃ (segs : List Seg) (r : Str),
        out = acc ++ r ∧
        SegRender K trim g segs r g' ∧
        segs ≠ [] ∧
        segs.map Seg.kind = altKinds lt segs.length ∧
        (segs.map Seg.slice).flatten = txt ∧
        ∀ sg ∈ segs, sg.attrs =
          setAttr attrs (lit "start")
            (startAttrVal (styleStartNumber orig sg.kind)) := by
  intro fuel
  induction fuel with
  | zero =>
    intro acc attrs lt orig txt trim g out g' h
    rw [parseCLF_zero] at h
    exact Option.noConfusion h
  | succ fuel ih =>
    intro acc attrs lt orig txt trim g out g' h
    rw [parseCLF_succ] at h
    split at h
    case _ pos hs =>
      split at h
      case _ hp => exact Option.noConfusion h
      case _ inner g1 hp =>
        obtain ⟨segs', r', hout, hrender, hne, hkinds, hflat, hattrs⟩ :=
          ih _ _ _ orig _ trim g1 out g' h
        refine ⟨⟨lt, setAttr attrs (lit "start")
            (startAttrVal (styleStartNumber orig lt)), txt.take pos⟩ :: segs',
          containerWrap lt (setAttr attrs (lit "start")
            (startAttrVal (styleStartNumber orig lt))) inner ++ r',
          by rw [hout, List.append_assoc],
          SegRender.cons _ segs' hp hrender,
          by simp, ?_, ?_, ?_⟩
        · simp only [List.map_cons, List.length_cons, altKinds]
          rw [hkinds]
        · simp only [List.map_cons, List.flatten_cons, hflat]
          exact List.take_append_drop pos txt
        · intro sg hsg
          rcases List.mem_cons.mp hsg with hsg | hsg
          · subst hsg; rfl
          · rw [hattrs sg hsg, setAttr_setAttr]
    case _ hs =>
      split at h
      case _ hp => exact Option.noConfusion h
      case _ inner g1 hp =>
        injection h with h
        injection h with hout hg
        subst hg
        refine ⟨[⟨lt, setAttr attrs (lit "start")
          (startAttrVal (styleStartNumber orig lt)), txt⟩],
          containerWrap lt (setAttr attrs (lit "start")
            (startAttrVal (styleStartNumber orig lt))) inner, hout.symm, ?_,
          by simp, by simp [altKinds], by simp, ?_⟩
        · have := SegRender.cons
            ⟨lt, setAttr attrs (lit "start")
              (startAttrVal (styleStartNumber orig lt)), txt⟩ [] hp
            (SegRender.nil g1)
          rwa [List.append_nil] at this
        · intro sg hsg
          simp only [List.mem_singleton] at hsg
          subst hsg
          rfl

/-! ## Texts without marker lines are left unchanged -/

/-- The claim's marker-line test on the suffix after the up-to-three
leading spaces: a bullet character, or digits followed by `.` and a space
or tab. -/
def claimMarkerBody : Str → Bool
  | [] => false
  | c :: rest =>
    isBulletChar c ||
      (c.isDigit &&
        (match (c :: rest).dropWhile Char.isDigit with
         | '.' :: d :: _ => isSpaceTab d
         | _ => false))

/-- The claim's marker-line test at a line-start suffix: within three
leading spaces, the first non-blank content is a bullet character, or
digits followed by `.` and a space or tab. -/
def claimMarkerAt (t : Str) : Bool := claimMarkerBody (takeSpacesUpTo 3 t).2

/-- No line-start suffix of `s` passes `claimMarkerAt`; `atStart` tells
whether the current position is a line start. -/
def cleanTail : Bool → Str → Bool
  | _, [] => true
  | atStart, c :: r =>
    (!(atStart && claimMarkerAt (c :: r))) && cleanTail (c = '\n') r

/-- Unfolding equation of `matchMarker` on a non-empty list. -/
theorem matchMarker_cons (c : Char) (rest : Str) :
    matchMarker (c :: rest) =
      (if isBulletChar c then some ([c], rest)
       else if c.isDigit then
         match (c :: rest).dropWhile Char.isDigit with
         | '.' :: r => some ((c :: rest).takeWhile Char.isDigit ++ ['.'], r)
         | _ => none
       else none) := rfl

/-- A suffix passing the marker-with-whitespace test also passes the
claim's marker test. -/
theorem claimMarkerBody_of_markerWs (s : Str) (h : markerWs s = true) :
    claimMarkerBody s = true := by
  rcases s with _ | ⟨c, rest⟩
  · simp [markerWs, matchMarker] at h
  · by_cases hb : isBulletChar c = true
    · simp [claimMarkerBody, hb]
    · by_cases hd : c.isDigit = true
      · rw [markerWs, matchMarker_cons, if_neg (by simp [hb]),
          if_pos hd] at h
        rcases hdrop : List.dropWhile Char.isDigit (c :: rest)
          with _ | ⟨e, rest2⟩
        · rw [hdrop] at h
          simp at h
        · rw [hdrop] at h
          by_cases he : e = '.'
          · subst he
            simp only [] at h
            rcases rest2 with _ | ⟨d, rest3⟩
            · simp at h
            · simp only [] at h
              rw [claimMarkerBody, hdrop]
              simp [hb, hd, h]
          · have hnone : (match e :: rest2 with
                | '.' :: r => some ((c :: rest).takeWhile Char.isDigit
                    ++ ['.'], r)
                | _ => none) = (none : Option (Str × Str)) := by
              split
              · rename_i r heq
                injection heq with h1 _
                exact absurd h1 he
              · rfl
            rw [hnone] at h
            simp at h
      · rw [markerWs, matchMarker_cons, if_neg (by simp [hb]),
          if_neg (by simp [hd])] at h
        simp at h

/-- A suffix passing the three-space marker-line test also passes the
claim's marker-line test. -/
theorem claimMarkerAt_of_markerLine3 (t : Str) (h : markerLine3 t = true) :
    claimMarkerAt t = true :=
  claimMarkerBody_of_markerWs _ h

/-- When the marker-line test fails, the block scanner cannot match. -/
theorem matchBlockHere_none (s : Str) (h : markerLine3 s = false) :
    matchBlockHere s = none := by
  unfold markerLine3 markerWs at h
  rcases hm : matchMarker (takeSpacesUpTo 3 s).2 with _ | ⟨mk, s2⟩
  · simp [matchBlockHere, hm]
  · rw [hm] at h
    rcases s2 with _ | ⟨c, s3⟩
    · simp [matchBlockHere, hm, List.takeWhile]
    · simp only [] at h
      simp [matchBlockHere, hm, List.takeWhile, h]

/-- `dropWhile` over an append when the first part leaves a remainder. -/
theorem dropWhile_append_cons (p : Char → Bool) :
    ∀ (a : Str) (e : Char) (r x : Str),
      a.dropWhile p = e :: r → (a ++ x).dropWhile p = e :: (r ++ x) := by
  intro a
  induction a with
  | nil => intro e r x h; exact absurd h (by simp)
  | cons b a ih =>
    intro e r x h
    by_cases hb : p b = true
    · rw [List.dropWhile_cons_of_pos hb] at h
      rw [List.cons_append, List.dropWhile_cons_of_pos hb]
      exact ih e r x h
    · rw [List.dropWhile_cons_of_neg hb] at h
      injection h with h1 h2
      subst h1; subst h2
      rw [List.cons_append,
        List.dropWhile_cons_of_neg hb]

/-- `dropWhile` over an append when the first part is consumed entirely. -/
theorem dropWhile_append_nil (p : Char → Bool) :
    ∀ (a x : Str), a.dropWhile p = [] →
      (a ++ x).dropWhile p = x.dropWhile p := by
  intro a
  induction a with
  | nil => intro x _; rfl
  | cons b a ih =>
    intro x h
    by_cases hb : p b = true
    · rw [List.dropWhile_cons_of_pos hb] at h
      rw [List.cons_append, List.dropWhile_cons_of_pos hb]
      exact ih x h
    · rw [List.dropWhile_cons_of_neg hb] at h
      exact absurd h (by simp)

/-- `takeSpacesUpTo` on a leading space. -/
theorem takeSpacesUpTo_succ_space (n : Nat) (r : Str) :
    takeSpacesUpTo (n + 1) (' ' :: r) =
      (' ' :: (takeSpacesUpTo n r).1, (takeSpacesUpTo n r).2) := rfl

/-- `takeSpacesUpTo` on a non-space head. -/
theorem takeSpacesUpTo_succ_other (n : Nat) (a : Char) (r : Str)
    (h : a ≠ ' ') : takeSpacesUpTo (n + 1) (a :: r) = ([], a :: r) := by
  unfold takeSpacesUpTo
  split
  · rename_i heq
    injection heq with h1 _
    exact absurd h1 h
  · rfl

/-- The suffix after the spaces, over an append, when it is non-empty. -/
theorem takeSpacesUpTo_snd_append (n : Nat) :
    ∀ (t : Str) (c : Char) (rest x : Str),
      (takeSpacesUpTo n t).2 = c :: rest →
      (takeSpacesUpTo n (t ++ x)).2 = c :: (rest ++ x) := by
  induction n with
  | zero =>
    intro t c rest x h
    simp only [takeSpacesUpTo] at h ⊢
    rw [h, List.cons_append]
  | succ n ih =>
    intro t c rest x h
    rcases t with _ | ⟨a, r⟩
    · exact absurd h (by simp [takeSpacesUpTo])
    · by_cases ha : a = ' '
      · subst ha
        rw [takeSpacesUpTo_succ_space] at h
        rw [List.cons_append, takeSpacesUpTo_succ_space]
        exact ih r c rest x h
      · rw [takeSpacesUpTo_succ_other n a r ha] at h
        injection h with h1 h2
        subst h1; subst h2
        rw [List.cons_append, takeSpacesUpTo_succ_other n _ _ ha]

/-- The suffix after the spaces, over an append, when the whole text is
consumed as spaces: the sentinel is left intact. -/
theorem takeSpacesUpTo_snd_append_sentinel (n : Nat) :
    ∀ (t : Str), (takeSpacesUpTo n t).2 = [] →
      (takeSpacesUpTo n (t ++ sentinel)).2 = sentinel := by
  induction n with
  | zero =>
    intro t h
    simp only [takeSpacesUpTo] at h ⊢
    rw [h]
    rfl
  | succ n ih =>
    intro t h
    rcases t with _ | ⟨a, r⟩
    · rfl
    · by_cases ha : a = ' '
      · subst ha
        rw [takeSpacesUpTo_succ_space] at h
        rw [List.cons_append, takeSpacesUpTo_succ_space]
        exact ih r h
      · rw [takeSpacesUpTo_succ_other n a r ha] at h
        exact absurd h (by simp)

/-- Appending the sentinel cannot make a clean line marker-like. -/
theorem claimMarkerAt_append (t : Str) (h : claimMarkerAt t = false) :
    claimMarkerAt (t ++ sentinel) = false := by
  unfold claimMarkerAt at h ⊢
  rcases hs : (takeSpacesUpTo 3 t).2 with _ | ⟨c, rest⟩
  · rw [takeSpacesUpTo_snd_append_sentinel 3 t hs]
    decide
  · rw [hs] at h
    rw [takeSpacesUpTo_snd_append 3 t c rest sentinel hs]
    by_cases hb : isBulletChar c = true
    · rw [claimMarkerBody, hb] at h
      simp at h
    · by_cases hd : c.isDigit = true
      · rw [claimMarkerBody] at h ⊢
        simp only [hb, Bool.false_or, hd, Bool.true_and] at h ⊢
        rcases hdrop : List.dropWhile Char.isDigit (c :: rest)
          with _ | ⟨e, rest2⟩
        · rw [show (c :: (rest ++ sentinel)) = (c :: rest) ++ sentinel from
            rfl, dropWhile_append_nil _ _ _ hdrop]
          decide
        · rw [hdrop] at h
          rw [show (c :: (rest ++ sentinel)) = (c :: rest) ++ sentinel from
            rfl, dropWhile_append_cons _ _ _ _ _ hdrop]
          by_cases he : e = '.'
          · subst he
            rcases rest2 with _ | ⟨d, rest3⟩
            · decide
            · simp only [List.cons_append]
              simpa using h
          · split
            · rename_i heq
              injection heq with h1 _
              exact absurd h1 he
            · rfl
      · rw [claimMarkerBody] at h ⊢
        simp [hb, hd]

/-- Appending the sentinel preserves cleanliness of every line. -/
theorem cleanTail_append :
    ∀ (t : Str) (b : Bool), cleanTail b t = true →
      cleanTail b (t ++ sentinel) = true := by
  intro t
  induction t with
  | nil =>
    intro b _
    rcases b <;> decide
  | cons c r ih =>
    intro b h
    rw [cleanTail] at h
    rw [List.cons_append, cleanTail]
    simp only [Bool.and_eq_true] at h
    rcases h with ⟨h1, h2⟩
    simp only [Bool.and_eq_true]
    refine ⟨?_, ih _ h2⟩
    rcases b with _ | _
    · simp
    · simp only [Bool.true_and, Bool.not_eq_true'] at h1 ⊢
      exact claimMarkerAt_append (c :: r) h1

/-- A marker line cannot begin with a character that is not a space, a
bullet or a digit. -/
theorem markerLine3_cons_other (c : Char) (x : Str) (h1 : c ≠ ' ')
    (h2 : isBulletChar c = false) (h3 : c.isDigit = false) :
    markerLine3 (c :: x) = false := by
  unfold markerLine3
  have hts : takeSpacesUpTo 3 (c :: x) = ([], c :: x) :=
    takeSpacesUpTo_succ_other 2 c x h1
  rw [hts]
  unfold markerWs
  rw [matchMarker_cons, if_neg (by simp [h2]), if_neg (by simp [h3])]

/-- On a clean suffix the block scanner cannot match. -/
theorem matchBlockHere_none_of_clean (s : Str)
    (h : cleanTail true s = true) : matchBlockHere s = none := by
  rcases s with _ | ⟨c, r⟩
  · rfl
  · rw [cleanTail] at h
    simp only [Bool.and_eq_true, Bool.true_and, Bool.not_eq_true'] at h
    refine matchBlockHere_none _ ?_
    by_contra hm
    rw [Bool.not_eq_false] at hm
    rw [claimMarkerAt_of_markerLine3 _ hm] at h
    exact absurd h.1 (by simp)

/-- On a clean suffix no `mainListRgx` attempt matches. -/
theorem mainAttempt_none (atStart : Bool) (s : Str)
    (h : cleanTail atStart s = true) : mainAttempt atStart s = none := by
  unfold mainAttempt
  split
  · rename_i r2
    have hr2 : cleanTail true r2 = true := by
      rw [cleanTail] at h
      simp only [Bool.and_eq_true] at h
      have h2 := h.2
      rw [cleanTail] at h2
      simp only [Bool.and_eq_true] at h2
      exact h2.2
    rw [matchBlockHere_none_of_clean r2 hr2]
    rcases atStart with _ | _
    · rfl
    · rw [if_pos rfl,
        matchBlockHere_none _ (markerLine3_cons_other '\n' r2
          (by decide) (by decide) (by decide))]
  · rename_i r1 hnot
    rcases atStart with _ | _
    · rfl
    · rw [if_pos rfl]
      rw [cleanTail] at h
      simp only [Bool.and_eq_true] at h
      exact matchBlockHere_none_of_clean r1 h.2
  · rename_i hnot1 hnot2
    rcases atStart with _ | _
    · rfl
    · rw [if_pos rfl]
      exact matchBlockHere_none_of_clean _ h

/-- On a clean suffix no `subListRgx` attempt matches. -/
theorem subAttempt_none (atStart : Bool) (s : Str)
    (h : cleanTail atStart s = true) : subAttempt atStart s = none := by
  unfold subAttempt
  rcases atStart with _ | _
  · rfl
  · rw [if_pos rfl]
    exact matchBlockHere_none_of_clean _ h

/-- The tail component of cleanliness. -/
theorem cleanTail_tail (b : Bool) (c : Char) (r : Str)
    (h : cleanTail b (c :: r) = true) : cleanTail (c = '\n') r = true := by
  rw [cleanTail] at h
  simp only [Bool.and_eq_true] at h
  exact h.2

/-- On clean input the `mainListRgx` replace pass is the identity. -/
theorem replaceMainF_clean (K : Ctx) :
    ∀ (fuel : Nat) (s : Str) (atStart : Bool) (accRev : Str) (g : Globals),
      cleanTail atStart s = true → s.length < fuel →
      replaceMainF K fuel s atStart accRev g =
        some (accRev.reverse ++ s, g) := by
  intro fuel
  induction fuel with
  | zero => intro s a acc g _ hl; omega
  | succ fuel ih =>
    intro s atStart accRev g hclean hlen
    rcases s with _ | ⟨c, r⟩
    · rw [replaceMainF_nil]
      simp
    · rw [replaceMainF_cons]
      simp only [mainAttempt_none atStart (c :: r) hclean]
      rw [ih r (c = '\n') (c :: accRev) g (cleanTail_tail _ _ _ hclean)
        (by simp at hlen ⊢; omega)]
      simp

/-- On clean input the `subListRgx` replace pass is the identity. -/
theorem replaceSubF_clean (K : Ctx) :
    ∀ (fuel : Nat) (s : Str) (atStart : Bool) (accRev : Str) (g : Globals),
      cleanTail atStart s = true → s.length < fuel →
      replaceSubF K fuel s atStart accRev g =
        some (accRev.reverse ++ s, g) := by
  intro fuel
  induction fuel with
  | zero => intro s a acc g _ hl; omega
  | succ fuel ih =>
    intro s atStart accRev g hclean hlen
    rcases s with _ | ⟨c, r⟩
    · rw [replaceSubF_nil]
      simp
    · rw [replaceSubF_cons]
      simp only [subAttempt_none atStart (c :: r) hclean]
      rw [ih r (c = '\n') (c :: accRev) g (cleanTail_tail _ _ _ hclean)
        (by simp at hlen ⊢; omega)]
      simp

/-- Stepping `stripFirst02` past a head that does not start the sentinel. -/
theorem stripFirst02_cons (c d : Char) (x : Str)
    (h : ¬(c = '¨' ∧ d = '0')) :
    stripFirst02 (c :: d :: x) = c :: stripFirst02 (d :: x) := by
  rw [stripFirst02.eq_def]
  split
  · rename_i heq
    exact List.noConfusion heq
  · rename_i r heq
    injection heq with h1 h2
    injection h2 with h2 _
    exact absurd ⟨h1, h2⟩ h
  · rename_i c2 r2 heq
    injection heq with h1 h2
    subst h1
    rw [h2]

/-- Stripping the first sentinel occurrence from a sentinel-free text with
the sentinel appended returns the text. -/
theorem stripFirst02_append :
    ∀ (t : Str), containsSub sentinel t = false →
      stripFirst02 (t ++ sentinel) = t := by
  intro t
  induction t with
  | nil => intro _; rfl
  | cons c r ih =>
    intro h
    rw [containsSub, anyPos] at h
    simp only [Bool.or_eq_false_iff] at h
    have hr : containsSub sentinel r = false := h.2
    have hnp : ¬(sentinel.isPrefixOf (c :: r) = true) := by
      rw [h.1]
      simp
    rcases r with _ | ⟨d, r2⟩
    · by_cases hc : c = '¨'
      · subst hc
        rfl
      · show stripFirst02 (c :: '¨' :: '0' :: []) = [c]
        rw [stripFirst02_cons c '¨' _ (by intro hx; exact hc hx.1)]
        rfl
    · have hcd : ¬(c = '¨' ∧ d = '0') := by
        intro ⟨h1, h2⟩
        subst h1; subst h2
        exact hnp (by rw [sentinel]; simp [List.isPrefixOf])
      rw [show (c :: d :: r2) ++ sentinel = c :: d :: (r2 ++ sentinel)
        from by simp]
      rw [stripFirst02_cons c d (r2 ++ sentinel) hcd]
      rw [show d :: (r2 ++ sentinel) = (d :: r2) ++ sentinel from by simp]
      rw [ih hr]

/-- The paragraph loop of the loose path is a `filterMap` of `grafWrap`. -/
theorem grafs_foldl (K : Ctx) :
    ∀ (l : List Str) (acc : List Str),
      l.foldl (fun acc gr =>
        if hasHtmlMarker gr then acc ++ [gr]
        else if hasNonSpace gr then
          acc ++ [lit "<p>" ++ (K.collab.spanGamut gr).dropWhile isSpaceTab
                    ++ lit "</p>"]
        else acc) acc = acc ++ l.filterMap (grafWrap K) := by
  intro l
  induction l with
  | nil => intro acc; simp
  | cons gr l ih =>
    intro acc
    rw [List.foldl_cons, List.filterMap_cons]
    by_cases h1 : hasHtmlMarker gr = true
    · rw [if_pos h1, ih]
      simp [grafWrap, h1]
    · rw [if_neg h1]
      by_cases h2 : hasNonSpace gr = true
      · rw [if_pos h2, ih]
        simp only [Bool.not_eq_true] at h1
        simp [grafWrap, h1, h2]
      · rw [if_neg h2, ih]
        simp only [Bool.not_eq_true] at h1 h2
        simp [grafWrap, h1, h2]

/-- Decomposition of a checkbox-pattern match at one position. -/
theorem checkboxHere_decomp (s : Str) (n : Nat) (ch : Char)
    (h : checkboxHere s = some (n, ch)) :
    ∃ t, s.dropWhile isSpaceTab = '[' :: ch :: ']' :: t ∧
      n = (s.takeWhile isSpaceTab).length + 3 := by
  unfold checkboxHere at h
  split at h
  · rename_i c t heq
    split at h
    · injection h with h
      injection h with h1 h2
      subst h1
      subst h2
      exact ⟨t, heq, rfl⟩
    · exact Option.noConfusion h
  · exact Option.noConfusion h

/-- Taking past a whole first part of an append. -/
theorem take_len_add_append (a b : Str) (k : Nat) :
    (a ++ b).take (a.length + k) = a ++ b.take k := by
  induction a with
  | nil => simp
  | cons c a ih => simp [List.length_cons, Nat.succ_add, ih]

/-- Dropping past a whole first part of an append. -/
theorem drop_len_add_append (a b : Str) (k : Nat) :
    (a ++ b).drop (a.length + k) = b.drop k := by
  induction a with
  | nil => simp
  | cons c a ih => simp [List.length_cons, Nat.succ_add, ih]

/-- Decomposition of the first checkbox-token match: the pieces rebuild the
item, the matched text is non-empty, and it starts with `[` or with a space
or tab. -/
theorem findCheckboxAux_decomp :
    ∀ (s acc : Str) (atStart : Bool) (pre wm : Str) (craw : Char)
      (post : Str),
      findCheckboxAux acc atStart s = some (pre, wm, craw, post) →
      acc.reverse ++ s = pre ++ wm ++ post ∧ wm ≠ [] ∧
      (wm.head? = some '[' ∨
        ∃ c, wm.head? = some c ∧ isSpaceTab c = true) := by
  intro s
  induction s with
  | nil =>
    intro acc atStart pre wm craw post h
    exact Option.noConfusion h
  | cons c r ih =>
    intro acc atStart pre wm craw post h
    rw [findCheckboxAux] at h
    by_cases ha : atStart = true
    · rw [ha, if_pos rfl] at h
      rcases hc : checkboxHere (c :: r) with _ | ⟨n, ch⟩
      · rw [hc] at h
        have := ih (c :: acc) (c = '\n') pre wm craw post h
        rwa [List.reverse_cons, List.append_assoc, List.singleton_append]
          at this
      · rw [hc] at h
        injection h with h
        injection h with h1 h
        injection h with h2 h
        injection h with h3 h4
        subst h1
        subst h2
        subst h3
        subst h4
        obtain ⟨t, hdrop, hn⟩ := checkboxHere_decomp _ _ _ hc
        set sp := (c :: r).takeWhile isSpaceTab with hsp
        have hsplit : c :: r = sp ++ '[' :: ch :: ']' :: t := by
          conv_lhs => rw [← List.takeWhile_append_dropWhile
            (p := isSpaceTab) (l := c :: r)]
          rw [hdrop]
        refine ⟨?_, ?_, ?_⟩
        · rw [List.append_assoc, List.take_append_drop]
        · rw [hn, hsplit, take_len_add_append]
          simp
        · rw [hn, hsplit, take_len_add_append]
          rw [show List.take 3 ('[' :: ch :: ']' :: t) = ['[', ch, ']']
            from rfl]
          rcases htw : sp with _ | ⟨d, sp2⟩
          · left
            simp
          · right
            refine ⟨d, by simp, ?_⟩
            have hd : d ∈ sp := by
              rw [htw]
              exact List.mem_cons_self d sp2
            rw [hsp] at hd
            exact List.mem_takeWhile_imp hd
    · rw [if_neg ha] at h
      have := ih (c :: acc) (c = '\n') pre wm craw post h
      rwa [List.reverse_cons, List.append_assoc, List.singleton_append]
        at this

/-- `processTaskListItem` leaves the body unchanged when no line starts
with a checkbox token. -/
theorem processTaskListItem_none (K : Ctx) (item : Str) (checked : Bool)
    (h : findCheckbox item = none) :
    processTaskListItem K item checked = item := by
  unfold processTaskListItem
  rw [h]

/-- `processTaskListItem` with default hooks replaces the first line-start
checkbox token with the input element built from the `checked` argument. -/
theorem processTaskListItem_some (K : Ctx) (item : Str) (checked : Bool)
    (pre wm : Str) (craw : Char) (post : Str) (hk : K.hooks = defHooks)
    (h : findCheckbox item = some (pre, wm, craw, post)) :
    processTaskListItem K item checked =
      pre ++ (lit "<input" ++ populateAttributes (checkboxAttrs checked)
        ++ ['>']) ++ post := by
  unfold processTaskListItem
  rw [h, hk]
  rfl

/-- The rewritten body differs from the original: the input element starts
with `<` where the matched token starts with `[`, a space or a tab. -/
theorem checkbox_rewrite_ne (pre wm post : Str) (checked : Bool)
    (hwm : wm ≠ [])
    (hhead : wm.head? = some '[' ∨
      ∃ c, wm.head? = some c ∧ isSpaceTab c = true) :
    pre ++ (lit "<input" ++ populateAttributes (checkboxAttrs checked)
      ++ ['>']) ++ post ≠ pre ++ wm ++ post := by
  intro heq
  have h3 := heq
  simp only [List.append_assoc] at h3
  have h2 := List.append_cancel_left h3
  have hl : (lit "<input" ++ (populateAttributes (checkboxAttrs checked)
      ++ (['>'] ++ post))).head? = some '<' := rfl
  rw [h2] at hl
  rcases wm with _ | ⟨w, wm'⟩
  · exact hwm rfl
  · rw [List.cons_append, List.head?_cons] at hl
    injection hl with hl
    subst hl
    rcases hhead with hhead | ⟨c, hc, hsp⟩
    · rw [List.head?_cons] at hhead
      injection hhead with hhead
      exact absurd hhead (by decide)
    · rw [List.head?_cons] at hc
      injection hc with hc
      subst hc
      exact absurd hsp (by decide)

/-! ## Claim theorems -/

/-- **C10.** For every input text that contains no marker line (no line
whose first non-blank content within three leading spaces is a bullet
`*`/`+`/`-` or digits followed by `.` and a space or tab — the `cleanTail`
hypothesis) and no occurrence of the sentinel sequence `¨0`, and with hooks
that do not alter the text, the transform returns the input unchanged: the
appended sentinel is stripped before return and neither boundary pattern
fires (at top level or nested, whatever the current nesting level). -/
theorem noListText_unchanged (opts : ListOptions) (collab : Collab)
    (fuel : Nat) (text : Str) (g : Globals)
    (hclean : cleanTail true text = true)
    (hsent : containsSub sentinel text = false)
    (hfuel : text.length + 4 ≤ fuel) :
    listF ⟨opts, collab, defHooks⟩ fuel text g = some (text, g) := by
  rcases fuel with _ | fuel
  · omega
  · rw [listF_succ]
    have hstart : (⟨opts, collab, defHooks⟩ : Ctx).hooks.onStart text = text :=
      rfl
    rw [hstart]
    have hcl2 : cleanTail true (text ++ sentinel) = true :=
      cleanTail_append text true hclean
    have hlen : (text ++ sentinel).length < fuel := by
      simp only [List.length_append, sentinel, List.length_cons,
        List.length_nil]
      omega
    by_cases hg : g.gListLevel ≠ 0
    · rw [if_pos hg]
      rw [replaceSubF_clean _ fuel (text ++ sentinel) true [] g hcl2 hlen]
      simp only [List.reverse_nil, List.nil_append]
      rw [stripFirst02_append text hsent]
      rfl
    · rw [if_neg hg]
      rw [replaceMainF_clean _ fuel (text ++ sentinel) true [] g hcl2 hlen]
      simp only [List.reverse_nil, List.nil_append]
      rw [stripFirst02_append text hsent]
      rfl

/-- Witness for the C10 theorem at a concrete marker-free text. -/
theorem noListText_unchanged_witness :
    listF ⟨{}, idCollab, defHooks⟩ 20 (lit "hello\nworld\n") g0 =
      some (lit "hello\nworld\n", g0) :=
  noListText_unchanged {} idCollab 20 (lit "hello\nworld\n") g0 (by decide)
    (by decide) (by decide)


/-- **C6.** The input line `- - - a` renders as a single `<ul>` with exactly
one `<li>` whose content is literally `- - a`: the escape marker `¨A`
prefixed to the item body's leading marker token prevents the nested-list
recursion from consuming it, and the marker is removed before the `<li>`
wrapping, so no escape marker appears in the output. -/
theorem listTransform_escapes_leading_marker_run :
    listF defCtx 50 (lit "- - - a\n") g0 =
      some (lit "\n\n<ul>\n<li>- - a</li>\n</ul>\n", g0) ∧
    containsSub escMarker (lit "\n\n<ul>\n<li>- - a</li>\n</ul>\n") = false := by
  constructor
  · rfl
  · decide

set_option maxRecDepth 40000 in
/-- **C4.** With the task-lists option enabled, `- [x] done` renders as a
list item containing a checkbox input element with `type="checkbox"`,
`disabled`, the default inline style and the `checked` state reflecting the
token, followed by the remaining text ` done`; with the option disabled the
literal `[x]` text passes through to the item content unmodified.  (The
serializer `_populateAttributes` and `outdent` live outside `src/` and are
modelled from the spec.) -/
theorem taskList_checkbox_rendering :
    listF taskCtx 300 (lit "- [x] done\n") g0 =
      some (lit "\n\n<ul>\n<li class=\"task-list-item\" style=\"list-style-type: none;\"><input type=\"checkbox\" disabled style=\"margin: 0px 0.35em 0.25em -1.6em; vertical-align: middle;\" checked> done</li>\n</ul>\n", g0) ∧
    listF defCtx 300 (lit "- [x] done\n") g0 =
      some (lit "\n\n<ul>\n<li>[x] done</li>\n</ul>\n", g0) := by
  constructor
  · decide
  · decide

/-- **C1.** For every captured list block in which a bulleted run is
immediately followed by an ordinal run, the transform emits two sibling
containers in order — `<ul>` wrapping only the bulleted run's items, then
`<ol>` wrapping only the ordinal run's items (concrete conjunct) — and in
general the splitter emits one container per segment, flipping the kind and
recursing on the remainder until no opposite marker is found: the segments
are non-empty, their kinds alternate from the initial kind, their slices
partition the captured block, and each container wraps exactly the
item-rendering of its own slice (general conjunct). -/
theorem consecutiveLists_split_alternating :
    (listF defCtx 60 (lit "- a\n1. b\n") g0 =
      some (lit "\n\n<ul>\n<li>a</li>\n</ul>\n\n\n<ol>\n<li>b</li>\n</ol>\n",
        g0)) ∧
    (∀ (K : Ctx) (fuel : Nat) (acc : Str) (attrs : Attrs) (lt : ListType)
       (orig txt : Str) (trim : Bool) (g : Globals) (out : Str)
       (g' : Globals),
       parseCLF K fuel acc attrs lt orig txt trim g = some (out, g') →
       ∃ (segs : List Seg) (r : Str),
         out = acc ++ r ∧
         SegRender K trim g segs r g' ∧
         segs ≠ [] ∧
         segs.map Seg.kind = altKinds lt segs.length ∧
         (segs.map Seg.slice).flatten = txt ∧
         ∀ sg ∈ segs, sg.attrs =
           setAttr attrs (lit "start")
             (startAttrVal (styleStartNumber orig sg.kind))) :=
  ⟨by decide, fun K => parseCLF_segs K⟩

/-- Witness for the general conjunct of the C1 theorem, at the block
captured from `- a\n1. b\n`. -/
theorem consecutiveLists_split_alternating_witness :
    ∃ (segs : List Seg) (r : Str),
      (lit "\n\n<ul>\n<li>a</li>\n</ul>\n\n\n<ol>\n<li>b</li>\n</ol>\n") =
        [] ++ r ∧
      SegRender defCtx false g0 segs r g0 ∧
      segs ≠ [] ∧
      segs.map Seg.kind = altKinds .ul segs.length ∧
      (segs.map Seg.slice).flatten = lit "- a\n1. b\n¨0" ∧
      ∀ sg ∈ segs, sg.attrs =
        setAttr [] (lit "start")
          (startAttrVal (styleStartNumber (lit "- a\n1. b\n¨0") sg.kind)) :=
  consecutiveLists_split_alternating.2 defCtx 40 [] [] .ul
    (lit "- a\n1. b\n¨0") (lit "- a\n1. b\n¨0") false g0
    (lit "\n\n<ul>\n<li>a</li>\n</ul>\n\n\n<ol>\n<li>b</li>\n</ol>\n") g0
    (by decide)

/-- **C3 counterexample.** In the block captured from `- a\n5. b\n` the
consecutive-list splitter emits an ordinal run whose own slice is
`5. b\n¨0` — its first item literal number is `5`, as the third conjunct
shows — yet the emitted `<ol>` carries no `start` attribute at all (the
output contains no occurrence of the string `start`), refuting the claim
that every emitted ordinal run carries `start="N"` exactly when its own
first item literal number `N` is not 1. -/
theorem splitOrdinalRun_startAttribute_counterexample :
    listF defCtx 60 (lit "- a\n5. b\n") g0 =
      some (lit "\n\n<ul>\n<li>a</li>\n</ul>\n\n\n<ol>\n<li>b</li>\n</ol>\n",
        g0) ∧
    containsSub (lit "start")
      (lit "\n\n<ul>\n<li>a</li>\n</ul>\n\n\n<ol>\n<li>b</li>\n</ol>\n") =
      false ∧
    styleStartNumber (lit "5. b\n¨0") .ol = some (lit "5") :=
  ⟨by decide, by decide, by decide⟩

/-- **C3 amended.** The `start` attribute of every emitted ordinal container
is computed by `styleStartNumber` from the *original captured block*, not
from the run's own slice: for a single-run block (no opposite marker found)
this coincides with the claim — `start="N"` exactly when the block's first
item literal number `N` is not the string `1` (first conjunct, with the
run-capture hook left at its default); for split runs every segment's
attributes set `start` from the original block at that segment's kind
(second conjunct); concretely, a single ordinal run starting at `5.` yields
`start="5"` (third conjunct). -/
theorem startAttribute_from_originalBlock :
    (∀ (K : Ctx) (fuel : Nat) (list : Str) (lt : ListType) (trim : Bool)
       (g : Globals) (out : Str) (g' : Globals),
       K.hooks = defHooks →
       searchLines (counterAt (lt = .ul)
         K.opts.disableForced4SpacesIndentedSublists) list = none →
       parseConsecutiveListsF K (fuel + 1) list lt trim g = some (out, g') →
       ∃ inner g1,
         processListItemsF K fuel list trim g = some (inner, g1) ∧
         g' = g1 ∧
         out = containerWrap lt
           (setAttr [] (lit "start")
             (startAttrVal (styleStartNumber list lt))) inner) ∧
    (∀ (K : Ctx) (fuel : Nat) (acc : Str) (attrs : Attrs) (lt : ListType)
       (orig txt : Str) (trim : Bool) (g : Globals) (out : Str)
       (g' : Globals),
       parseCLF K fuel acc attrs lt orig txt trim g = some (out, g') →
       ∃ segs r, out = acc ++ r ∧ SegRender K trim g segs r g' ∧
         ∀ sg ∈ segs, sg.attrs =
           setAttr attrs (lit "start")
             (startAttrVal (styleStartNumber orig sg.kind))) ∧
    (listF defCtx 60 (lit "5. a\n") g0 =
      some (lit "\n\n<ol start=\"5\">\n<li>a</li>\n</ol>\n", g0)) := by
  refine ⟨?_, ?_, by decide⟩
  · intro K fuel list lt trim g out g' hk hs h
    rw [parseConsecutiveListsF_succ, hk] at h
    simp only [defHooks, hookOutputUsed] at h
    rw [hs] at h
    rcases hp : processListItemsF K fuel list trim g with _ | ⟨inner, g1⟩
    · rw [hp] at h
      exact Option.noConfusion h
    · rw [hp] at h
      injection h with h
      injection h with hout hg
      exact ⟨inner, g1, rfl, hg.symm, hout.symm⟩
  · intro K fuel acc attrs lt orig txt trim g out g' h
    obtain ⟨segs, r, h1, h2, _, _, _, h6⟩ :=
      parseCLF_segs K fuel acc attrs lt orig txt trim g out g' h
    exact ⟨segs, r, h1, h2, h6⟩

/-- Witness for the C3 amended theorem: the single-run conjunct evaluated on
the block captured from `5. a\n`. -/
theorem startAttribute_from_originalBlock_witness :
    ∃ inner g1,
      processListItemsF defCtx 30 (lit "5. a\n¨0") false g0 =
        some (inner, g1) ∧
      g0 = g1 ∧
      (lit "\n\n<ol start=\"5\">\n<li>a</li>\n</ol>\n") = containerWrap .ol
        (setAttr [] (lit "start")
          (startAttrVal (styleStartNumber (lit "5. a\n¨0") .ol))) inner :=
  startAttribute_from_originalBlock.1 defCtx 30 (lit "5. a\n¨0") .ol false g0
    (lit "\n\n<ol start=\"5\">\n<li>a</li>\n</ol>\n") g0 rfl (by decide)
    (by decide)

set_option maxRecDepth 100000 in
/-- **C7.** An item is rendered on the loose (paragraph-wrapping) path
exactly when its match began with a captured newline (group 1) or its
guarded body contains an internal blank line (first conjunct, hooks at
their defaults); every candidate the loose paragraph loop emits is either
an opaque placeholder passed through unchanged or a non-blank candidate
wrapped as `<p>` + span-rendering + `</p>` (second conjunct); on the tight
path of a non-paragraphed run the content goes through the span-level
transform only (third conjunct); concretely, a loose run wraps item text in
`<p>` while a tight run's output contains no `<p>` at all (fourth
conjunct). -/
theorem looseTight_classification :
    (∀ (K : Ctx) (fuel : Nat) (isPara : Bool) (im : ItemMatch)
       (g : Globals), K.hooks = defHooks →
       itemCallbackF K (fuel + 1) isPara im g =
         (if im.m1 || hasDoubleNl (itemGuardsAll K (outdent im.m4)
             (checkedOf im.checkedRaw)) then
            match looseRenderF K fuel (itemGuardsAll K (outdent im.m4)
                (checkedOf im.checkedRaw)) g with
            | none => none
            | some (content, g1) =>
              some (liWrap K (im.checkedRaw.isSome && K.opts.tasklists)
                (if im.checkedRaw.isSome && K.opts.tasklists then
                   taskItemAttrs K.opts (checkedOf im.checkedRaw)
                 else []) content, g1)
          else
            match tightRenderF K fuel isPara (itemGuardsAll K (outdent im.m4)
                (checkedOf im.checkedRaw)) g with
            | none => none
            | some (content, g1) =>
              some (liWrap K (im.checkedRaw.isSome && K.opts.tasklists)
                (if im.checkedRaw.isSome && K.opts.tasklists then
                   taskItemAttrs K.opts (checkedOf im.checkedRaw)
                 else []) content, g1))) ∧
    (∀ (K : Ctx) (l : List Str) (gr' : Str),
       gr' ∈ l.filterMap (grafWrap K) →
       (hasHtmlMarker gr' = true ∧ gr' ∈ l) ∨
       (∃ src ∈ l, hasHtmlMarker src = false ∧ hasNonSpace src = true ∧
         gr' = lit "<p>" ++ (K.collab.spanGamut src).dropWhile isSpaceTab
                 ++ lit "</p>")) ∧
    (∀ (K : Ctx) (fuel : Nat) (itemD : Str) (g : Globals) (b1 : Str)
       (g1 : Globals), listF K fuel itemD g = some (b1, g1) →
       tightRenderF K (fuel + 1) false itemD g =
         some (K.collab.spanGamut (collapseNls (K.collab.hashHTMLBlocks
           (chompNl b1))), g1)) ∧
    (listF defCtx 100 (lit "- a\n\n- b\n") g0 =
       some (lit "\n\n<ul>\n<li><p>a</p></li>\n<li>b</li>\n</ul>\n", g0) ∧
     listF defCtx 100 (lit "- a\n- b\n") g0 =
       some (lit "\n\n<ul>\n<li>a</li>\n<li>b</li>\n</ul>\n", g0) ∧
     containsSub (lit "<p>")
       (lit "\n\n<ul>\n<li>a</li>\n<li>b</li>\n</ul>\n") = false) := by
  refine ⟨?_, ?_, ?_, by decide, by decide, by decide⟩
  · intro K fuel isPara im g hk
    rw [itemCallbackF_succ, hk]
    rfl
  · intro K l gr' hmem
    rw [List.mem_filterMap] at hmem
    obtain ⟨src, hsrc, hwrap⟩ := hmem
    unfold grafWrap at hwrap
    by_cases h1 : hasHtmlMarker src = true
    · rw [if_pos h1] at hwrap
      injection hwrap with hwrap
      subst hwrap
      exact Or.inl ⟨h1, hsrc⟩
    · rw [if_neg h1] at hwrap
      by_cases h2 : hasNonSpace src = true
      · rw [if_pos h2] at hwrap
        injection hwrap with hwrap
        refine Or.inr ⟨src, hsrc, ?_, h2, hwrap.symm⟩
        simpa using h1
      · rw [if_neg h2] at hwrap
        exact Option.noConfusion hwrap
  · intro K fuel itemD g b1 g1 hl
    rw [tightRenderF_succ, hl]
    simp

/-- Witness for the C7 theorem: the tight-path span-only conjunct evaluated
on a one-line item body. -/
theorem looseTight_classification_witness :
    tightRenderF defCtx 11 false (lit "a") g0 =
      some (defCtx.collab.spanGamut (collapseNls (defCtx.collab.hashHTMLBlocks
        (chompNl (lit "a")))), g0) :=
  looseTight_classification.2.2.1 defCtx 10 (lit "a") g0 (lit "a") g0
    (by decide)

set_option maxRecDepth 100000 in
/-- **C5 counterexample.** With task lists enabled, an item whose body does
not begin with a checkbox token (first conjunct) is nevertheless modified
by the checkbox processor when a later line of the body starts with one
(second conjunct: the `m` flag of `checkboxRgx` matches at any line start);
the full pipeline on `- done\n[x] later` rewrites the mid-body `[x]` into
an input element (third conjunct), refuting the claim that such bodies are
left unmodified. -/
theorem checkbox_midBody_counterexample :
    checkboxHere (lit "done\n[x] later\n") = none ∧
    processTaskListItem taskCtx (lit "done\n[x] later\n") false ≠
      lit "done\n[x] later\n" ∧
    listF taskCtx 300 (lit "- done\n[x] later\n") g0 =
      some (lit "\n\n<ul>\n<li>done\n<input type=\"checkbox\" disabled style=\"margin: 0px 0.35em 0.25em -1.6em; vertical-align: middle;\"> later</li>\n</ul>\n", g0) :=
  ⟨by decide, by decide, by decide⟩

/-- **C5 amended.** With task lists enabled the checkbox processor rewrites
the *first* checkbox token found at the start of *any line* of the item
body (the pattern carries the `m` flag): the body is left unmodified
exactly when no line starts with `[ ]`, `[x]` or `[X]` after optional
spaces and tabs (first conjunct); when a match is found the matched token
is replaced by an input element whose `checked` attribute comes from the
`checked` argument — the item's leading capture — not from the matched
token's own character (second conjunct); concretely a body starting with
`[X]` but passed `checked = false` renders an unchecked box (third
conjunct). -/
theorem checkbox_rewrite_any_line :
    (∀ (K : Ctx) (item : Str) (checked : Bool), K.hooks = defHooks →
       (findCheckbox item = none ↔
         processTaskListItem K item checked = item)) ∧
    (∀ (K : Ctx) (item : Str) (checked : Bool) (pre wm : Str) (craw : Char)
       (post : Str), K.hooks = defHooks →
       findCheckbox item = some (pre, wm, craw, post) →
       item = pre ++ wm ++ post ∧
       processTaskListItem K item checked =
         pre ++ (lit "<input" ++ populateAttributes (checkboxAttrs checked)
           ++ ['>']) ++ post) ∧
    (processTaskListItem taskCtx (lit "[X] a\n") false =
      lit "<input type=\"checkbox\" disabled style=\"margin: 0px 0.35em 0.25em -1.6em; vertical-align: middle;\"> a\n") := by
  refine ⟨?_, ?_, by decide⟩
  · intro K item checked hk
    constructor
    · intro h
      exact processTaskListItem_none K item checked h
    · intro h
      by_contra hne
      rcases hfc : findCheckbox item with _ | ⟨pre, wm, craw, post⟩
      · exact hne hfc
      · obtain ⟨hitem, hwm, hhead⟩ :=
          findCheckboxAux_decomp item [] true pre wm craw post hfc
        simp only [List.reverse_nil, List.nil_append] at hitem
        have hres :=
          processTaskListItem_some K item checked pre wm craw post hk hfc
        rw [h, hitem] at hres
        exact checkbox_rewrite_ne pre wm post checked hwm hhead hres.symm
  · intro K item checked pre wm craw post hk hfc
    obtain ⟨hitem, _, _⟩ :=
      findCheckboxAux_decomp item [] true pre wm craw post hfc
    simp only [List.reverse_nil, List.nil_append] at hitem
    exact ⟨hitem,
      processTaskListItem_some K item checked pre wm craw post hk hfc⟩

/-- Witness for the C5 amended theorem: the rewrite conjunct at a body
whose single line starts with `[X]` but whose leading capture is
unchecked. -/
theorem checkbox_rewrite_any_line_witness :
    (lit "[X] a\n") = [] ++ lit "[X]" ++ lit " a\n" ∧
    processTaskListItem taskCtx (lit "[X] a\n") false =
      [] ++ (lit "<input" ++ populateAttributes (checkboxAttrs false)
        ++ ['>']) ++ lit " a\n" :=
  checkbox_rewrite_any_line.2.1 taskCtx (lit "[X] a\n") false []
    (lit "[X]") 'X' (lit " a\n") rfl (by decide)

/-- A context whose run-capture hook supplies literal output. -/
def hookDemoCtx : Ctx :=
  { defCtx with hooks :=
      { defHooks with listOnCapture := fun _ => (some (lit "HOOKED"), []) } }

/-- A non-empty supplied output passes the truthiness guard. -/
theorem hookOutputUsed_some (o : Str) (h : o ≠ []) :
    hookOutputUsed (some o) = true := by
  rcases o with _ | ⟨c, r⟩
  · exact absurd rfl h
  · rfl

/-- **C8.** At each of the three hook stages a hook-supplied literal output
replaces default rendering exactly when it is non-empty: a `null` output
and the empty string both fail the guard (first conjunct); at the run
stage a non-empty output becomes the whole stage result with the state
untouched (second conjunct) while a failing guard runs the default logic
on the hook's possibly mutated attributes (third conjunct); the same holds
at the item stage (fourth and — via the C7-style path equation consuming
`hr.2.1`/`hr.2.2` — implicitly the default side) and at the checkbox stage,
where the failing-guard default builds the input element from the hook's
mutated attributes (fifth and sixth conjuncts). -/
theorem hookOutput_guard :
    (hookOutputUsed none = false ∧ hookOutputUsed (some []) = false) ∧
    (∀ (K : Ctx) (fuel : Nat) (list : Str) (lt : ListType) (trim : Bool)
       (g : Globals) (o : Str),
       (K.hooks.listOnCapture list).1 = some o → o ≠ [] →
       parseConsecutiveListsF K (fuel + 1) list lt trim g = some (o, g)) ∧
    (∀ (K : Ctx) (fuel : Nat) (list : Str) (lt : ListType) (trim : Bool)
       (g : Globals),
       hookOutputUsed (K.hooks.listOnCapture list).1 = false →
       parseConsecutiveListsF K (fuel + 1) list lt trim g =
         (match searchLines (counterAt (lt = .ul)
             K.opts.disableForced4SpacesIndentedSublists) list with
          | some _ =>
            parseCLF K fuel [] (K.hooks.listOnCapture list).2 lt list list
              trim g
          | none =>
            match processListItemsF K fuel list trim g with
            | none => none
            | some (inner, g1) =>
              some (containerWrap lt
                (setAttr (K.hooks.listOnCapture list).2 (lit "start")
                  (startAttrVal (styleStartNumber list lt))) inner, g1))) ∧
    (∀ (K : Ctx) (fuel : Nat) (isPara : Bool) (im : ItemMatch) (g : Globals)
       (o : Str),
       (K.hooks.listItemOnCapture (im.checkedRaw.isSome && K.opts.tasklists)
         (outdent im.m4)
         (if im.checkedRaw.isSome && K.opts.tasklists then
            taskItemAttrs K.opts (checkedOf im.checkedRaw)
          else [])).1 = some o → o ≠ [] →
       itemCallbackF K (fuel + 1) isPara im g =
         some (K.hooks.listItemOnHash
           (im.checkedRaw.isSome && K.opts.tasklists) o, g)) ∧
    (∀ (K : Ctx) (item : Str) (checked : Bool) (pre wm : Str) (craw : Char)
       (post : Str) (o : Str),
       findCheckbox item = some (pre, wm, craw, post) →
       (K.hooks.checkboxOnCapture item wm (checkboxAttrs checked)).1 =
         some o → o ≠ [] →
       processTaskListItem K item checked =
         pre ++ K.hooks.checkboxOnHash o ++ post) ∧
    (∀ (K : Ctx) (item : Str) (checked : Bool) (pre wm : Str) (craw : Char)
       (post : Str),
       findCheckbox item = some (pre, wm, craw, post) →
       hookOutputUsed
         (K.hooks.checkboxOnCapture item wm (checkboxAttrs checked)).1 =
         false →
       processTaskListItem K item checked =
         pre ++ K.hooks.checkboxOnHash (lit "<input" ++
           populateAttributes
             (K.hooks.checkboxOnCapture item wm (checkboxAttrs checked)).2
           ++ ['>']) ++ post) := by
  refine ⟨⟨rfl, rfl⟩, ?_, ?_, ?_, ?_, ?_⟩
  · intro K fuel list lt trim g o h1 h2
    rw [parseConsecutiveListsF_succ]
    simp only []
    rw [show (K.hooks.listOnCapture list).1 = some o from h1]
    rw [hookOutputUsed_some o h2]
    simp
  · intro K fuel list lt trim g h
    rw [parseConsecutiveListsF_succ]
    simp only []
    rw [h]
    simp only [Bool.false_eq_true, if_false]
  · intro K fuel isPara im g o h1 h2
    rw [itemCallbackF_succ, h1, hookOutputUsed_some o h2]
    simp
  · intro K item checked pre wm craw post o hfc h1 h2
    unfold processTaskListItem
    rw [hfc]
    simp only []
    rw [h1, hookOutputUsed_some o h2]
    simp
  · intro K item checked pre wm craw post hfc h
    unfold processTaskListItem
    rw [hfc]
    simp only []
    rw [h]
    simp only [Bool.false_eq_true, if_false]

/-- Witness for the C8 theorem: a run-capture hook supplying `HOOKED`
short-circuits the stage. -/
theorem hookOutput_guard_witness :
    parseConsecutiveListsF hookDemoCtx 5 (lit "- a\n¨0") .ul false g0 =
      some (lit "HOOKED", g0) :=
  hookOutput_guard.2.1 hookDemoCtx 4 (lit "- a\n¨0") .ul false g0
    (lit "HOOKED") rfl (by decide)

/-! ## Balance of the nesting-depth counter -/

/-- The conversion-state contract of every function in the transformer: the
nesting counter returns to its entry value, and the minimum value it ever
took during the call never drops below the minimum of its history and the
entry level. -/
def Bal (g g' : Globals) : Prop :=
  g'.gListLevel = g.gListLevel ∧ min g.minSeen g.gListLevel ≤ g'.minSeen

theorem Bal.refl (g : Globals) : Bal g g :=
  ⟨rfl, min_le_left _ _⟩

theorem Bal.trans {g1 g2 g3 : Globals} (h1 : Bal g1 g2) (h2 : Bal g2 g3) :
    Bal g1 g3 := by
  obtain ⟨ha, hb⟩ := h1
  obtain ⟨hc, hd⟩ := h2
  refine ⟨hc.trans ha, ?_⟩
  rw [ha] at hd
  have : min g1.minSeen g1.gListLevel ≤ min g2.minSeen g1.gListLevel := by
    exact le_min (le_trans (min_le_min_right _ (le_refl _)) hb)
      (min_le_right _ _)
  exact le_trans this hd

/-- Entering and leaving item segmentation restores the contract: an
increment, a balanced body, then a decrement. -/
theorem Bal.inc_dec {g g2 : Globals} (h : Bal (incLevel g) g2) :
    Bal g (decLevel g2) := by
  obtain ⟨ha, hb⟩ := h
  dsimp only [Bal, incLevel, decLevel] at ha hb ⊢
  exact ⟨by omega, by omega⟩

/-- Every function of the transformer satisfies the state contract `Bal`
on success, at every fuel. -/
theorem levels_balanced (K : Ctx) : ∀ (fuel : Nat),
    (∀ t g r g', listF K fuel t g = some (r, g') → Bal g g') ∧
    (∀ s a acc g r g', replaceMainF K fuel s a acc g = some (r, g') →
      Bal g g') ∧
    (∀ s a acc g r g', replaceSubF K fuel s a acc g = some (r, g') →
      Bal g g') ∧
    (∀ l lt tr g r g',
      parseConsecutiveListsF K fuel l lt tr g = some (r, g') → Bal g g') ∧
    (∀ acc attrs lt orig txt tr g r g',
      parseCLF K fuel acc attrs lt orig txt tr g = some (r, g') →
      Bal g g') ∧
    (∀ l tr g r g', processListItemsF K fuel l tr g = some (r, g') →
      Bal g g') ∧
    (∀ leg ip s a acc g r g',
      replaceItemsF K fuel leg ip s a acc g = some (r, g') → Bal g g') ∧
    (∀ ip im g r g', itemCallbackF K fuel ip im g = some (r, g') →
      Bal g g') ∧
    (∀ d g r g', looseRenderF K fuel d g = some (r, g') → Bal g g') ∧
    (∀ ip d g r g', tightRenderF K fuel ip d g = some (r, g') →
      Bal g g') := by
  intro fuel
  induction fuel with
  | zero =>
    refine ⟨?_, ?_, ?_, ?_, ?_, ?_, ?_, ?_, ?_, ?_⟩
    · intro t g r g' h
      exact Option.noConfusion h
    · intro s a acc g r g' h
      exact Option.noConfusion h
    · intro s a acc g r g' h
      exact Option.noConfusion h
    · intro l lt tr g r g' h
      exact Option.noConfusion h
    · intro acc attrs lt orig txt tr g r g' h
      exact Option.noConfusion h
    · intro l tr g r g' h
      exact Option.noConfusion h
    · intro leg ip s a acc g r g' h
      exact Option.noConfusion h
    · intro ip im g r g' h
      exact Option.noConfusion h
    · intro d g r g' h
      exact Option.noConfusion h
    · intro ip d g r g' h
      exact Option.noConfusion h
  | succ fuel ih =>
    obtain ⟨ihList, ihMain, ihSub, ihPCL, ihCL, ihPLI, ihItems, ihCb,
      ihLoose, ihTight⟩ := ih
    refine ⟨?_, ?_, ?_, ?_, ?_, ?_, ?_, ?_, ?_, ?_⟩
    · -- listF
      intro t g r g' h
      rw [listF_succ] at h
      split at h
      · exact Option.noConfusion h
      · rename_i p heq
        injection h with h
        injection h with _ hg
        subst hg
        by_cases hz : g.gListLevel ≠ 0
        · rw [if_pos hz] at heq
          exact ihSub _ _ _ _ _ _ heq
        · rw [if_neg hz] at heq
          exact ihMain _ _ _ _ _ _ heq
    · -- replaceMainF
      intro s a acc g r g' h
      rcases s with _ | ⟨c, rs⟩
      · rw [replaceMainF_nil] at h
        injection h with h
        injection h with _ hg
        subst hg
        exact Bal.refl g
      · rw [replaceMainF_cons] at h
        split at h
        · rename_i bm heq
          split at h
          · exact Option.noConfusion h
          · rename_i rep g1 heq2
            exact (ihPCL _ _ _ _ _ _ heq2).trans (ihMain _ _ _ _ _ _ h)
        · exact ihMain _ _ _ _ _ _ h
    · -- replaceSubF
      intro s a acc g r g' h
      rcases s with _ | ⟨c, rs⟩
      · rw [replaceSubF_nil] at h
        injection h with h
        injection h with _ hg
        subst hg
        exact Bal.refl g
      · rw [replaceSubF_cons] at h
        split at h
        · rename_i bm heq
          split at h
          · exact Option.noConfusion h
          · rename_i rep g1 heq2
            exact (ihPCL _ _ _ _ _ _ heq2).trans (ihSub _ _ _ _ _ _ h)
        · exact ihSub _ _ _ _ _ _ h
    · -- parseConsecutiveListsF
      intro l lt tr g r g' h
      rw [parseConsecutiveListsF_succ] at h
      simp only [] at h
      split at h
      · injection h with h
        injection h with _ hg
        subst hg
        exact Bal.refl g
      · split at h
        · exact ihCL _ _ _ _ _ _ _ _ _ h
        · split at h
          · exact Option.noConfusion h
          · rename_i inner g1 heq
            injection h with h
            injection h with _ hg
            subst hg
            exact ihPLI _ _ _ _ _ heq
    · -- parseCLF
      intro acc attrs lt orig txt tr g r g' h
      rw [parseCLF_succ] at h
      split at h
      · split at h
        · exact Option.noConfusion h
        · rename_i inner g1 heq
          exact (ihPLI _ _ _ _ _ heq).trans (ihCL _ _ _ _ _ _ _ _ _ h)
      · split at h
        · exact Option.noConfusion h
        · rename_i inner g1 heq
          injection h with h
          injection h with _ hg
          subst hg
          exact ihPLI _ _ _ _ _ heq
    · -- processListItemsF
      intro l tr g r g' h
      rw [processListItemsF_succ] at h
      simp only [] at h
      split at h
      · exact Option.noConfusion h
      · rename_i ls3 g2 heq
        injection h with h
        injection h with _ hg
        subst hg
        exact Bal.inc_dec (ihItems _ _ _ _ _ _ _ _ heq)
    · -- replaceItemsF
      intro leg ip s a acc g r g' h
      rcases s with _ | ⟨c, rs⟩
      · rw [replaceItemsF_nil] at h
        injection h with h
        injection h with _ hg
        subst hg
        exact Bal.refl g
      · rw [replaceItemsF_cons] at h
        split at h
        · rename_i im heq
          split at h
          · exact Option.noConfusion h
          · rename_i rep g1 heq2
            exact (ihCb _ _ _ _ _ heq2).trans (ihItems _ _ _ _ _ _ _ _ h)
        · exact ihItems _ _ _ _ _ _ _ _ h
    · -- itemCallbackF
      intro ip im g r g' h
      rw [itemCallbackF_succ] at h
      generalize (if im.checkedRaw.isSome && K.opts.tasklists then
          taskItemAttrs K.opts (checkedOf im.checkedRaw) else []) = A at h
      split at h
      · injection h with h
        injection h with _ hg
        subst hg
        exact Bal.refl g
      · split at h
        · split at h
          · exact Option.noConfusion h
          · rename_i content g1 heq
            injection h with h
            injection h with _ hg
            subst hg
            exact ihLoose _ _ _ _ heq
        · split at h
          · exact Option.noConfusion h
          · rename_i content g1 heq
            injection h with h
            injection h with _ hg
            subst hg
            exact ihTight _ _ _ _ _ heq
    · -- looseRenderF
      intro d g r g' h
      rw [looseRenderF_succ] at h
      split at h
      · exact Option.noConfusion h
      · rename_i a2 g1 heq
        injection h with h
        injection h with _ hg
        subst hg
        exact ihList _ _ _ _ heq
    · -- tightRenderF
      intro ip d g r g' h
      rw [tightRenderF_succ] at h
      split at h
      · exact Option.noConfusion h
      · rename_i b1 g1 heq
        injection h with h
        injection h with _ hg
        subst hg
        exact ihList _ _ _ _ heq

/-- **C2.** The nesting-depth counter is incremented exactly once on entry
into item segmentation and decremented exactly once on exit on every
successful path: after any invocation of the list transformer the counter
equals its pre-call value, starting from the top level it never goes
negative during the call (the running minimum over the only two mutation
sites stays non-negative), and item segmentation decomposes as increment,
balanced body at the bumped level, decrement. -/
theorem gListLevel_balance :
    (∀ (K : Ctx) (fuel : Nat) (t : Str) (g : Globals) (r : Str)
        (g' : Globals), listF K fuel t g = some (r, g') →
      g'.gListLevel = g.gListLevel ∧
        min g.minSeen g.gListLevel ≤ g'.minSeen) ∧
    (∀ (K : Ctx) (fuel : Nat) (t r : Str) (g' : Globals),
      listF K fuel t g0 = some (r, g') →
      g'.gListLevel = 0 ∧ 0 ≤ g'.minSeen) ∧
    (∀ (K : Ctx) (fuel : Nat) (l : Str) (tr : Bool) (g : Globals)
        (out : Str) (g' : Globals),
      processListItemsF K (fuel + 1) l tr g = some (out, g') →
      ∃ mid gmid,
        replaceItemsF K fuel K.opts.disableForced4SpacesIndentedSublists
            (isParagraphedTest (trimTrailingNewlines l ++ sentinel))
            (trimTrailingNewlines l ++ sentinel) true [] (incLevel g) =
          some (mid, gmid) ∧
        g' = decLevel gmid ∧ gmid.gListLevel = g.gListLevel + 1) := by
  refine ⟨?_, ?_, ?_⟩
  · intro K fuel t g r g' h
    exact (levels_balanced K fuel).1 t g r g' h
  · intro K fuel t r g' h
    obtain ⟨h1, h2⟩ := (levels_balanced K fuel).1 t g0 r g' h
    refine ⟨h1, ?_⟩
    simpa [g0] using h2
  · intro K fuel l tr g out g' h
    rw [processListItemsF_succ] at h
    simp only [] at h
    split at h
    · exact Option.noConfusion h
    · rename_i ls3 g2 heq
      injection h with h
      injection h with _ hg
      refine ⟨ls3, g2, heq, hg.symm, ?_⟩
      have hb := (levels_balanced K fuel).2.2.2.2.2.2.1 _ _ _ _ _ _ _ _ heq
      rw [hb.1]
      rfl

theorem gListLevel_balance_witness :
    listF defCtx 50 (lit "- a\n") g0 =
      some (lit "\n\n<ul>\n<li>a</li>\n</ul>\n", g0) ∧
    Globals.gListLevel g0 = 0 ∧ (0 : Int) ≤ Globals.minSeen g0 := by
  have h : listF defCtx 50 (lit "- a\n") g0 =
      some (lit "\n\n<ul>\n<li>a</li>\n</ul>\n", g0) := by rfl
  exact ⟨h, gListLevel_balance.2.1 defCtx 50 (lit "- a\n")
    (lit "\n\n<ul>\n<li>a</li>\n</ul>\n") g0 h⟩

/-! ## Fuel monotonicity

`none` only ever means fuel exhaustion, so a result obtained at some fuel
is preserved by any larger fuel. -/

/-- Every function of the transformer is monotone in its fuel argument. -/
theorem fuel_mono (K : Ctx) : ∀ (f1 : Nat),
    (∀ f2, f1 ≤ f2 → ∀ t g r g', listF K f1 t g = some (r, g') →
      listF K f2 t g = some (r, g')) ∧
    (∀ f2, f1 ≤ f2 → ∀ s a acc g r g',
      replaceMainF K f1 s a acc g = some (r, g') →
      replaceMainF K f2 s a acc g = some (r, g')) ∧
    (∀ f2, f1 ≤ f2 → ∀ s a acc g r g',
      replaceSubF K f1 s a acc g = some (r, g') →
      replaceSubF K f2 s a acc g = some (r, g')) ∧
    (∀ f2, f1 ≤ f2 → ∀ l lt tr g r g',
      parseConsecutiveListsF K f1 l lt tr g = some (r, g') →
      parseConsecutiveListsF K f2 l lt tr g = some (r, g')) ∧
    (∀ f2, f1 ≤ f2 → ∀ acc attrs lt orig txt tr g r g',
      parseCLF K f1 acc attrs lt orig txt tr g = some (r, g') →
      parseCLF K f2 acc attrs lt orig txt tr g = some (r, g')) ∧
    (∀ f2, f1 ≤ f2 → ∀ l tr g r g',
      processListItemsF K f1 l tr g = some (r, g') →
      processListItemsF K f2 l tr g = some (r, g')) ∧
    (∀ f2, f1 ≤ f2 → ∀ leg ip s a acc g r g',
      replaceItemsF K f1 leg ip s a acc g = some (r, g') →
      replaceItemsF K f2 leg ip s a acc g = some (r, g')) ∧
    (∀ f2, f1 ≤ f2 → ∀ ip im g r g',
      itemCallbackF K f1 ip im g = some (r, g') →
      itemCallbackF K f2 ip im g = some (r, g')) ∧
    (∀ f2, f1 ≤ f2 → ∀ d g r g',
      looseRenderF K f1 d g = some (r, g') →
      looseRenderF K f2 d g = some (r, g')) ∧
    (∀ f2, f1 ≤ f2 → ∀ ip d g r g',
      tightRenderF K f1 ip d g = some (r, g') →
      tightRenderF K f2 ip d g = some (r, g')) := by
  intro f1
  induction f1 with
  | zero =>
    refine ⟨?_, ?_, ?_, ?_, ?_, ?_, ?_, ?_, ?_, ?_⟩
    · intro f2 _ t g r g' h
      exact Option.noConfusion h
    · intro f2 _ s a acc g r g' h
      exact Option.noConfusion h
    · intro f2 _ s a acc g r g' h
      exact Option.noConfusion h
    · intro f2 _ l lt tr g r g' h
      exact Option.noConfusion h
    · intro f2 _ acc attrs lt orig txt tr g r g' h
      exact Option.noConfusion h
    · intro f2 _ l tr g r g' h
      exact Option.noConfusion h
    · intro f2 _ leg ip s a acc g r g' h
      exact Option.noConfusion h
    · intro f2 _ ip im g r g' h
      exact Option.noConfusion h
    · intro f2 _ d g r g' h
      exact Option.noConfusion h
    · intro f2 _ ip d g r g' h
      exact Option.noConfusion h
  | succ f1 ih =>
    obtain ⟨ihList, ihMain, ihSub, ihPCL, ihCL, ihPLI, ihItems, ihCb,
      ihLoose, ihTight⟩ := ih
    refine ⟨?_, ?_, ?_, ?_, ?_, ?_, ?_, ?_, ?_, ?_⟩
    · -- listF
      intro f2 hle t g r g' h
      obtain ⟨f2', rfl⟩ : ∃ k, f2 = k + 1 := ⟨f2 - 1, by omega⟩
      have hle' : f1 ≤ f2' := by omega
      rw [listF_succ] at h
      split at h
      · exact Option.noConfusion h
      · rename_i t3 g1 heq
        rw [listF_succ]
        by_cases hz : g.gListLevel ≠ 0
        · rw [if_pos hz] at heq
          rw [if_pos hz, ihSub f2' hle' _ _ _ _ _ _ heq]
          exact h
        · rw [if_neg hz] at heq
          rw [if_neg hz, ihMain f2' hle' _ _ _ _ _ _ heq]
          exact h
    · -- replaceMainF
      intro f2 hle s a acc g r g' h
      obtain ⟨f2', rfl⟩ : ∃ k, f2 = k + 1 := ⟨f2 - 1, by omega⟩
      have hle' : f1 ≤ f2' := by omega
      rcases s with _ | ⟨c, rs⟩
      · rw [replaceMainF_nil] at h
        rw [replaceMainF_nil]
        exact h
      · rw [replaceMainF_cons] at h
        rw [replaceMainF_cons]
        rcases hma : mainAttempt a (c :: rs) with _ | bm
        · simp only [hma] at h ⊢
          exact ihMain f2' hle' _ _ _ _ _ _ h
        · simp only [hma] at h ⊢
          rcases hp : parseConsecutiveListsF K f1 bm.list
              (kindOfGroup bm.markerGroup) false g with _ | ⟨rep, g1⟩
          · simp only [hp] at h
            exact Option.noConfusion h
          · simp only [hp] at h
            simp only [ihPCL f2' hle' _ _ _ _ _ _ hp]
            exact ihMain f2' hle' _ _ _ _ _ _ h
    · -- replaceSubF
      intro f2 hle s a acc g r g' h
      obtain ⟨f2', rfl⟩ : ∃ k, f2 = k + 1 := ⟨f2 - 1, by omega⟩
      have hle' : f1 ≤ f2' := by omega
      rcases s with _ | ⟨c, rs⟩
      · rw [replaceSubF_nil] at h
        rw [replaceSubF_nil]
        exact h
      · rw [replaceSubF_cons] at h
        rw [replaceSubF_cons]
        rcases hma : subAttempt a (c :: rs) with _ | bm
        · simp only [hma] at h ⊢
          exact ihSub f2' hle' _ _ _ _ _ _ h
        · simp only [hma] at h ⊢
          rcases hp : parseConsecutiveListsF K f1 bm.list
              (kindOfGroup bm.markerGroup) true g with _ | ⟨rep, g1⟩
          · simp only [hp] at h
            exact Option.noConfusion h
          · simp only [hp] at h
            simp only [ihPCL f2' hle' _ _ _ _ _ _ hp]
            exact ihSub f2' hle' _ _ _ _ _ _ h
    · -- parseConsecutiveListsF
      intro f2 hle l lt tr g r g' h
      obtain ⟨f2', rfl⟩ : ∃ k, f2 = k + 1 := ⟨f2 - 1, by omega⟩
      have hle' : f1 ≤ f2' := by omega
      rw [parseConsecutiveListsF_succ] at h
      rw [parseConsecutiveListsF_succ]
      simp only [] at h ⊢
      split at h
      · rename_i hcond
        rw [if_pos hcond]
        exact h
      · rename_i hcond
        rw [if_neg hcond]
        rcases hs : searchLines
            (counterAt (lt = .ul) K.opts.disableForced4SpacesIndentedSublists)
            l with _ | pos
        · simp only [hs] at h ⊢
          rcases hp : processListItemsF K f1 l tr g with _ | ⟨inner, g1⟩
          · simp only [hp] at h
            exact Option.noConfusion h
          · simp only [hp] at h
            simp only [ihPLI f2' hle' _ _ _ _ _ hp]
            exact h
        · simp only [hs] at h ⊢
          exact ihCL f2' hle' _ _ _ _ _ _ _ _ _ h
    · -- parseCLF
      intro f2 hle acc attrs lt orig txt tr g r g' h
      obtain ⟨f2', rfl⟩ : ∃ k, f2 = k + 1 := ⟨f2 - 1, by omega⟩
      have hle' : f1 ≤ f2' := by omega
      rw [parseCLF_succ] at h
      rw [parseCLF_succ]
      split at h
      · rename_i pos heq
        split at h
        · exact Option.noConfusion h
        · rename_i inner g1 heq2
          simp only [heq, ihPLI f2' hle' _ _ _ _ _ heq2]
          exact ihCL f2' hle' _ _ _ _ _ _ _ _ _ h
      · rename_i heq
        split at h
        · exact Option.noConfusion h
        · rename_i inner g1 heq2
          simp only [heq, ihPLI f2' hle' _ _ _ _ _ heq2]
          exact h
    · -- processListItemsF
      intro f2 hle l tr g r g' h
      obtain ⟨f2', rfl⟩ : ∃ k, f2 = k + 1 := ⟨f2 - 1, by omega⟩
      have hle' : f1 ≤ f2' := by omega
      rw [processListItemsF_succ] at h
      rw [processListItemsF_succ]
      simp only [] at h ⊢
      split at h
      · exact Option.noConfusion h
      · rename_i ls3 g2 heq
        simp only [ihItems f2' hle' _ _ _ _ _ _ _ _ heq]
        exact h
    · -- replaceItemsF
      intro f2 hle leg ip s a acc g r g' h
      obtain ⟨f2', rfl⟩ : ∃ k, f2 = k + 1 := ⟨f2 - 1, by omega⟩
      have hle' : f1 ≤ f2' := by omega
      rcases s with _ | ⟨c, rs⟩
      · rw [replaceItemsF_nil] at h
        rw [replaceItemsF_nil]
        exact h
      · rw [replaceItemsF_cons] at h
        rw [replaceItemsF_cons]
        rcases hma : itemAttempt leg a (c :: rs) with _ | im
        · simp only [hma] at h ⊢
          exact ihItems f2' hle' _ _ _ _ _ _ _ _ h
        · simp only [hma] at h ⊢
          rcases hp : itemCallbackF K f1 ip im g with _ | ⟨rep, g1⟩
          · simp only [hp] at h
            exact Option.noConfusion h
          · simp only [hp] at h
            simp only [ihCb f2' hle' _ _ _ _ _ hp]
            exact ihItems f2' hle' _ _ _ _ _ _ _ _ h
    · -- itemCallbackF
      intro f2 hle ip im g r g' h
      obtain ⟨f2', rfl⟩ : ∃ k, f2 = k + 1 := ⟨f2 - 1, by omega⟩
      have hle' : f1 ≤ f2' := by omega
      rw [itemCallbackF_succ] at h
      rw [itemCallbackF_succ]
      generalize (if im.checkedRaw.isSome && K.opts.tasklists then
          taskItemAttrs K.opts (checkedOf im.checkedRaw) else []) = A at h ⊢
      split at h
      · rename_i hcond
        rw [if_pos hcond]
        exact h
      · rename_i hcond
        rw [if_neg hcond]
        split at h
        · rename_i hcond2
          rw [if_pos hcond2]
          split at h
          · exact Option.noConfusion h
          · rename_i content g1 heq
            simp only [ihLoose f2' hle' _ _ _ _ heq]
            exact h
        · rename_i hcond2
          rw [if_neg hcond2]
          split at h
          · exact Option.noConfusion h
          · rename_i content g1 heq
            simp only [ihTight f2' hle' _ _ _ _ _ heq]
            exact h
    · -- looseRenderF
      intro f2 hle d g r g' h
      obtain ⟨f2', rfl⟩ : ∃ k, f2 = k + 1 := ⟨f2 - 1, by omega⟩
      have hle' : f1 ≤ f2' := by omega
      rw [looseRenderF_succ] at h
      rw [looseRenderF_succ]
      split at h
      · exact Option.noConfusion h
      · rename_i a2 g1 heq
        simp only [ihList f2' hle' _ _ _ _ heq]
        exact h
    · -- tightRenderF
      intro f2 hle ip d g r g' h
      obtain ⟨f2', rfl⟩ : ∃ k, f2 = k + 1 := ⟨f2 - 1, by omega⟩
      have hle' : f1 ≤ f2' := by omega
      rw [tightRenderF_succ] at h
      rw [tightRenderF_succ]
      split at h
      · exact Option.noConfusion h
      · rename_i b1 g1 heq
        simp only [ihList f2' hle' _ _ _ _ heq]
        exact h

/-! ## A substring library for the totality development -/

theorem anyPos_iff (p : Str → Bool) (s : Str) :
    anyPos p s = true ↔ ∃ a b, s = a ++ b ∧ p b = true := by
  induction s with
  | nil =>
    constructor
    · intro h
      exact ⟨[], [], rfl, h⟩
    · rintro ⟨a, b, hab, hp⟩
      obtain ⟨h1, h2⟩ := List.append_eq_nil.mp hab.symm
      subst h2
      exact hp
  | cons c r ih =>
    simp only [anyPos, Bool.or_eq_true, ih]
    constructor
    · rintro (hp | ⟨a, b, rfl, hp⟩)
      · exact ⟨[], c :: r, rfl, hp⟩
      · exact ⟨c :: a, b, rfl, hp⟩
    · rintro ⟨a, b, hab, hp⟩
      rcases a with _ | ⟨a0, a1⟩
      · left
        rw [List.nil_append] at hab
        rw [hab]
        exact hp
      · right
        injection hab with h1 h2
        exact ⟨a1, b, h2, hp⟩

theorem containsSub_iff (pat s : Str) :
    containsSub pat s = true ↔ ∃ a b, s = a ++ (pat ++ b) := by
  unfold containsSub
  rw [anyPos_iff]
  constructor
  · rintro ⟨a, b, rfl, hp⟩
    obtain ⟨t, rfl⟩ := List.isPrefixOf_iff_prefix.mp hp
    exact ⟨a, t, rfl⟩
  · rintro ⟨a, b, rfl⟩
    exact ⟨a, pat ++ b, rfl, List.isPrefixOf_iff_prefix.mpr ⟨b, rfl⟩⟩

/-- No occurrence of the sentinel `¨0` anywhere in `s`. -/
def NoSent (s : Str) : Prop := containsSub sentinel s = false

theorem noSent_iff (s : Str) :
    NoSent s ↔ ∀ a b, s ≠ a ++ (sentinel ++ b) := by
  unfold NoSent
  rw [← Bool.not_eq_true, containsSub_iff]
  push_neg
  exact Iff.rfl

theorem NoSent.within {s t : Str} (h : NoSent s) (hi : t <:+: s) : NoSent t := by
  rw [noSent_iff] at h ⊢
  intro a b hab
  obtain ⟨u, v, huv⟩ := hi
  exact h (u ++ a) (b ++ v) (by rw [← huv, hab]; simp)

theorem noSent_nil : NoSent [] := by
  unfold NoSent containsSub anyPos
  rfl

theorem noSent_append_left {x y : Str} (h : NoSent (x ++ y)) : NoSent x :=
  h.within ⟨[], y, by simp⟩

theorem noSent_append_right {x y : Str} (h : NoSent (x ++ y)) : NoSent y :=
  h.within ⟨x, [], by simp⟩

theorem NoSent.tail {c : Char} {s : Str} (h : NoSent (c :: s)) : NoSent s :=
  h.within ⟨[c], [], by simp⟩

/-- Transport a sentinel occurrence across the removal of one inserted
character that is neither `¨` nor `0`. -/
theorem sent_insert_aux : ∀ (a x y b : Str) (c : Char), c ≠ '¨' → c ≠ '0' →
    x ++ c :: y = a ++ (sentinel ++ b) →
    ∃ a2 b2, x ++ y = a2 ++ (sentinel ++ b2)
  | [], x, y, b, c, h1, h2, h => by
    rw [List.nil_append] at h
    rcases x with _ | ⟨x0, x'⟩
    · rw [List.nil_append] at h
      injection h with hc _
      exact absurd hc h1
    · injection h with hx0 h
      rcases x' with _ | ⟨x1, x''⟩
      · simp only [List.append_eq, List.nil_append] at h
        injection h with hc _
        exact absurd hc h2
      · injection h with hx1 h
        refine ⟨[], x'' ++ y, ?_⟩
        rw [List.nil_append]
        show (x0 :: x1 :: x'') ++ y = sentinel ++ (x'' ++ y)
        rw [hx0, hx1]
        rfl
  | a0 :: a', x, y, b, c, h1, h2, h => by
    rcases x with _ | ⟨x0, x''⟩
    · rw [List.nil_append] at h
      injection h with hc h
      exact ⟨a', b, by simp only [List.nil_append, h, List.append_eq]⟩
    · injection h with hx0 h
      obtain ⟨a2, b2, h'⟩ := sent_insert_aux a' x'' y b c h1 h2 h
      exact ⟨x0 :: a2, b2, by rw [List.cons_append, h', List.cons_append]⟩

/-- Inserting a character that is neither `¨` nor `0` cannot create a
sentinel occurrence. -/
theorem noSent_insert {x y : Str} (c : Char) (h1 : c ≠ '¨') (h2 : c ≠ '0')
    (h : NoSent (x ++ y)) : NoSent (x ++ c :: y) := by
  rw [noSent_iff] at h ⊢
  intro a b hab
  obtain ⟨a2, b2, h'⟩ := sent_insert_aux a x y b c h1 h2 hab
  exact h a2 b2 h'

/-- Prefixing the escape marker `¨A` cannot create a sentinel occurrence. -/
theorem noSent_esc {t : Str} (h : NoSent t) : NoSent (escMarker ++ t) := by
  rw [noSent_iff] at h ⊢
  intro a b hab
  rcases a with _ | ⟨a0, a1⟩
  · rw [List.nil_append] at hab
    injection hab with h1 hab
    injection hab with h2 _
    exact absurd h2 (by decide)
  · injection hab with h1 hab
    rcases a1 with _ | ⟨a2, a3⟩
    · simp only [List.append_eq, List.nil_append] at hab
      injection hab with h2 _
      exact absurd h2 (by decide)
    · injection hab with h2 hab
      exact h a3 b hab

/-- The sentinel occurs in `u ++ sentinel` (with `u` sentinel-free) only as
the final two characters. -/
theorem sent_unique : ∀ (x u y : Str), NoSent u →
    x ++ (sentinel ++ y) = u ++ sentinel → x = u ∧ y = []
  | [], u, y, hu, h => by
    rw [List.nil_append] at h
    rcases u with _ | ⟨u0, u'⟩
    · rw [List.nil_append] at h
      have := List.append_cancel_left (h.trans (List.append_nil sentinel).symm)
      exact ⟨rfl, this⟩
    · injection h with h0 h
      rcases u' with _ | ⟨u1, u''⟩
      · simp only [List.append_eq, List.nil_append] at h
        injection h with h1 _
        exact absurd h1 (by decide)
      · injection h with h1 h
        exfalso
        rw [noSent_iff] at hu
        refine hu [] u'' ?_
        rw [List.nil_append]
        show u0 :: u1 :: u'' = sentinel ++ u''
        rw [← h0, ← h1]
        rfl
  | x0 :: x', u, y, hu, h => by
    rcases u with _ | ⟨u0, u'⟩
    · rw [List.nil_append] at h
      exfalso
      have hl := congrArg List.length h
      simp [sentinel] at hl
      omega
    · injection h with h0 h
      obtain ⟨hx, hy⟩ := sent_unique x' u' y hu.tail h
      exact ⟨by rw [h0, hx], hy⟩

/-! ## The recursion measure and the guard chain -/

/-- The recursion measure: string length, discounting a leading escape
marker (the escape guard blocks the first line from matching again, so the
two marker characters do not enlarge the reachable recursion). -/
def mu (s : Str) : Nat :=
  if escMarker.isPrefixOf s then s.length - 2 else s.length

theorem mu_le (s : Str) : mu s ≤ s.length := by
  unfold mu
  split <;> omega

theorem mu_esc (t : Str) : mu (escMarker ++ t) = t.length := by
  unfold mu
  rw [if_pos (List.isPrefixOf_iff_prefix.mpr ⟨t, rfl⟩)]
  simp [escMarker]

theorem splitNlAux_nl (cur r : Str) :
    splitNlAux cur ('\n' :: r) = cur.reverse :: splitNlAux [] r := rfl

theorem splitNlAux_cons (cur : Str) (c : Char) (r : Str) (hc : c ≠ '\n') :
    splitNlAux cur (c :: r) = splitNlAux (c :: cur) r := by
  rw [splitNlAux.eq_def]
  split
  · rename_i heq
    exact absurd heq (by simp)
  · rename_i r2 heq
    injection heq with h1 _
    exact absurd h1 hc
  · rename_i c2 r2 hne heq
    injection heq with h1 h2
    rw [h1, h2]

theorem splitNlAux_ne_nil : ∀ (s cur : Str), splitNlAux cur s ≠ []
  | [], cur => by
    unfold splitNlAux
    simp
  | c :: r, cur => by
    by_cases hc : c = '\n'
    · subst hc
      rw [splitNlAux_nl]
      simp
    · rw [splitNlAux_cons cur c r hc]
      exact splitNlAux_ne_nil r (c :: cur)

theorem splitNl_ne_nil (s : Str) : splitNl s ≠ [] := splitNlAux_ne_nil s []

theorem joinNl_cons (l : Str) (ls : List Str) (h : ls ≠ []) :
    joinNl (l :: ls) = l ++ '\n' :: joinNl ls := by
  cases ls with
  | nil => exact absurd rfl h
  | cons l2 ls2 => rfl

theorem joinNl_splitNlAux : ∀ (s cur : Str),
    joinNl (splitNlAux cur s) = cur.reverse ++ s
  | [], cur => by
    unfold splitNlAux joinNl
    simp
  | c :: r, cur => by
    by_cases hc : c = '\n'
    · subst hc
      rw [splitNlAux_nl, joinNl_cons _ _ (splitNlAux_ne_nil r []),
        joinNl_splitNlAux r []]
      simp
    · rw [splitNlAux_cons cur c r hc, joinNl_splitNlAux r (c :: cur)]
      simp

theorem joinNl_splitNl (s : Str) : joinNl (splitNl s) = s := by
  unfold splitNl
  rw [joinNl_splitNlAux]
  rfl

/-- A sentinel occurrence in `x ++ c :: y` with `c` neither `¨` nor `0`
lies entirely inside `x` or inside `y`. -/
theorem sent_glue_aux : ∀ (a x y b : Str) (c : Char), c ≠ '¨' → c ≠ '0' →
    x ++ c :: y = a ++ (sentinel ++ b) →
    (∃ a2 b2, x = a2 ++ (sentinel ++ b2)) ∨
      (∃ a2 b2, y = a2 ++ (sentinel ++ b2))
  | [], x, y, b, c, h1, h2, h => by
    rw [List.nil_append] at h
    rcases x with _ | ⟨x0, x'⟩
    · rw [List.nil_append] at h
      injection h with hc _
      exact absurd hc h1
    · injection h with hx0 h
      rcases x' with _ | ⟨x1, x''⟩
      · simp only [List.append_eq, List.nil_append] at h
        injection h with hc _
        exact absurd hc h2
      · injection h with hx1 _
        left
        exact ⟨[], x'', by rw [List.nil_append, hx0, hx1]; rfl⟩
  | a0 :: a', x, y, b, c, h1, h2, h => by
    rcases x with _ | ⟨x0, x''⟩
    · rw [List.nil_append] at h
      injection h with hc h
      right
      exact ⟨a', b, by simp only [h, List.append_eq]⟩
    · injection h with hx0 h
      rcases sent_glue_aux a' x'' y b c h1 h2 h with ⟨a2, b2, h'⟩ | hr
      · left
        exact ⟨x0 :: a2, b2, by rw [h', List.cons_append]⟩
      · right
        exact hr

/-- Joining two sentinel-free strings with a separator that is neither `¨`
nor `0` stays sentinel-free. -/
theorem noSent_glue {x y : Str} (c : Char) (h1 : c ≠ '¨') (h2 : c ≠ '0')
    (hx : NoSent x) (hy : NoSent y) : NoSent (x ++ c :: y) := by
  rw [noSent_iff] at hx hy ⊢
  intro a b hab
  rcases sent_glue_aux a x y b c h1 h2 hab with ⟨a2, b2, h'⟩ | ⟨a2, b2, h'⟩
  · exact hx a2 b2 h'
  · exact hy a2 b2 h'

/-- Per-line suffix maps shorten the joined text and preserve
sentinel-freeness. -/
theorem joinNl_map_suffix (f : Str → Str) (hf : ∀ l, f l <:+ l) :
    ∀ ls : List Str, (joinNl (ls.map f)).length ≤ (joinNl ls).length ∧
      (NoSent (joinNl ls) → NoSent (joinNl (ls.map f)))
  | [] => by
    simp only [List.map_nil]
    exact ⟨le_refl _, fun h => h⟩
  | [l] => by
    simp only [List.map_cons, List.map_nil]
    rw [show joinNl [f l] = f l from rfl, show joinNl [l] = l from rfl]
    exact ⟨(hf l).length_le, fun h => h.within (hf l).isInfix⟩
  | l :: l2 :: ls => by
    have ih := joinNl_map_suffix f hf (l2 :: ls)
    simp only [List.map_cons] at ih ⊢
    rw [joinNl_cons (f l) _ (by simp), joinNl_cons l _ (by simp)]
    constructor
    · have := (hf l).length_le
      simp only [List.length_append, List.length_cons]
      omega
    · intro h
      have hl : NoSent l := noSent_append_left h
      have hr : NoSent (joinNl (l2 :: ls)) := (noSent_append_right h).tail
      exact noSent_glue '\n' (by decide) (by decide)
        (hl.within (hf l).isInfix) (ih.2 hr)

theorem dropSpacesUpTo_suffix : ∀ (n : Nat) (s : Str),
    dropSpacesUpTo n s <:+ s
  | 0, s => List.suffix_refl s
  | n + 1, s => by
    have hdef : dropSpacesUpTo (n + 1) s =
        match s with
        | ' ' :: r => dropSpacesUpTo n r
        | _ => s := rfl
    rw [hdef]
    split
    · rename_i r
      exact (dropSpacesUpTo_suffix n r).trans ⟨[' '], rfl⟩
    · exact List.suffix_refl _

theorem outdentLine_suffix (l : Str) : outdentLine l <:+ l := by
  rw [outdentLine.eq_def]
  split
  · exact ⟨['\t'], rfl⟩
  · split
    · exact dropSpacesUpTo_suffix 4 _
    · exact List.suffix_refl _

theorem outdent_length (s : Str) : (outdent s).length ≤ s.length := by
  have := (joinNl_map_suffix outdentLine outdentLine_suffix (splitNl s)).1
  rw [joinNl_splitNl] at this
  exact this

theorem outdent_noSent {s : Str} (h : NoSent s) : NoSent (outdent s) := by
  have := (joinNl_map_suffix outdentLine outdentLine_suffix (splitNl s)).2
  rw [joinNl_splitNl] at this
  exact this h

theorem mem_takeWhile_holds (p : Char → Bool) :
    ∀ (l : Str) (c : Char), c ∈ l.takeWhile p → p c = true
  | [], c, h => by simp [List.takeWhile] at h
  | d :: r, c, h => by
    rw [List.takeWhile_cons] at h
    by_cases hd : p d = true
    · rw [if_pos hd] at h
      rcases List.mem_cons.mp h with rfl | h2
      · exact hd
      · exact mem_takeWhile_holds p r c h2
    · rw [if_neg hd] at h
      exact absurd h (List.not_mem_nil c)

theorem splitNlAux_break : ∀ (a cur y : Str), (∀ c ∈ a, c ≠ '\n') →
    splitNlAux cur (a ++ '\n' :: y) = (cur.reverse ++ a) :: splitNlAux [] y
  | [], cur, y, _ => by
    rw [List.nil_append, splitNlAux_nl]
    simp
  | c :: a', cur, y, h => by
    rw [List.cons_append, splitNlAux_cons _ c _ (h c (by simp)),
      splitNlAux_break a' (c :: cur) y (fun d hd => h d (by simp [hd]))]
    simp

theorem splitNl_break (a y : Str) (h : ∀ c ∈ a, c ≠ '\n') :
    splitNl (a ++ '\n' :: y) = a :: splitNl y := by
  unfold splitNl
  rw [splitNlAux_break a [] y h]
  simp

/-- The heading-adjacency test always fails on an escape-guarded body. -/
theorem headingAdjTest_esc (t : Str) :
    headingAdjTest (escMarker ++ t) = false := by
  show headingAdjTest ('¨' :: 'A' :: t) = false
  simp [headingAdjTest, List.takeWhile_cons]

/-- When the heading-adjacency guard fires, it inserts a single newline
after the first line. -/
theorem headingNlFix_decomp {s : Str} (h : headingAdjTest s = true) :
    ∃ a b, s = a ++ b ∧ headingNlFix s = a ++ '\n' :: b ∧
      a.head? = some '#' := by
  simp only [headingAdjTest, Bool.and_eq_true, Bool.not_eq_true',
    decide_eq_true_eq] at h
  obtain ⟨⟨⟨h1, h2⟩, h3⟩, hm⟩ := h
  rcases hd : s.dropWhile (fun c => c ≠ '\n') with _ | ⟨d0, d1⟩
  · rw [hd] at hm
    exact absurd hm (by decide)
  · rw [hd] at hm
    have hmem : ∀ c ∈ s.takeWhile (fun c => c ≠ '\n'), c ≠ '\n' := by
      intro c hc
      have := mem_takeWhile_holds _ _ c hc
      simpa using this
    split at hm
    · rename_i c rest heq
      injection heq with hd0 hd1
      refine ⟨s.takeWhile (fun c => c ≠ '\n'), '\n' :: c :: rest, ?_, ?_, h1⟩
      · have hdd : s.dropWhile (fun c => c ≠ '\n') = '\n' :: c :: rest := by
          rw [hd, hd0, hd1]
        rw [← hdd]
        exact (List.takeWhile_append_dropWhile _ _).symm
      · unfold headingNlFix
        have hsplit : splitNl s =
            (s.takeWhile (fun c => c ≠ '\n')) :: splitNl (c :: rest) := by
          conv_lhs => rw [← List.takeWhile_append_dropWhile
            (p := fun c => decide (c ≠ '\n')) (l := s)]
          rw [hd, hd0, hd1]
          exact splitNl_break _ _ hmem
        rw [hsplit]
        unfold insertAfterFirstHeading
        rw [if_pos (by
          simp only [headingLineMatch, Bool.and_eq_true, Bool.not_eq_true',
            decide_eq_true_eq]
          exact ⟨⟨h1, h2⟩, h3⟩)]
        rw [joinNl_cons _ _ (splitNl_ne_nil _), joinNl_splitNl]
        simp
    · exact absurd hm (by decide)

/-- Reduction of the guard chain in the default context (no task lists). -/
theorem itemGuardsAll_defCtx (itemA : Str) (ch : Bool) :
    itemGuardsAll defCtx itemA ch =
      (if headingAdjTest
          (if escGuardTest itemA then escMarker ++ itemA else itemA) then
        headingNlFix
          (if escGuardTest itemA then escMarker ++ itemA else itemA)
       else (if escGuardTest itemA then escMarker ++ itemA else itemA)) :=
  rfl

/-- The guard chain preserves sentinel-freeness and adds at most one to
the measure. -/
theorem itemGuardsAll_bound (itemA : Str) (ch : Bool) (h : NoSent itemA) :
    NoSent (itemGuardsAll defCtx itemA ch) ∧
      mu (itemGuardsAll defCtx itemA ch) ≤ itemA.length + 1 := by
  rw [itemGuardsAll_defCtx]
  by_cases he : escGuardTest itemA = true
  · rw [if_pos he, if_neg (by simp [headingAdjTest_esc])]
    refine ⟨noSent_esc h, ?_⟩
    rw [mu_esc]
    omega
  · rw [if_neg he]
    by_cases hh : headingAdjTest itemA = true
    · rw [if_pos hh]
      obtain ⟨a, b, hs, hfix, _⟩ := headingNlFix_decomp hh
      rw [hfix]
      constructor
      · rw [hs] at h
        exact noSent_insert '\n' (by decide) (by decide) h
      · have := mu_le (a ++ '\n' :: b)
        have hlen : (a ++ '\n' :: b).length = itemA.length + 1 := by
          rw [hs]
          simp only [List.length_append, List.length_cons]
          omega
        omega
    · rw [if_neg hh]
      exact ⟨h, by have := mu_le itemA; omega⟩

/-! ## Decomposition of the block scanner -/

/-- The shape of a matched marker: one bullet, or digits followed by a
dot. -/
def mkShape (mk : Str) : Prop :=
  (∃ c, mk = [c] ∧ isBulletChar c = true) ∨
    (∃ ds, mk = ds ++ ['.'] ∧ ds ≠ [] ∧ ∀ c ∈ ds, c.isDigit = true)

/-- The terminator shape returned by the block scanner. -/
def termShape (t rest : Str) : Prop :=
  t = sentinel ∨ (2 ≤ t.length ∧ (∀ c ∈ t, c = '\n') ∧ rest ≠ [])

theorem takeSpacesUpTo_decomp : ∀ (n : Nat) (s : Str),
    (takeSpacesUpTo n s).1 ++ (takeSpacesUpTo n s).2 = s ∧
      (∀ c ∈ (takeSpacesUpTo n s).1, c = ' ') ∧
      (takeSpacesUpTo n s).1.length ≤ n
  | 0, s => by
    simp [takeSpacesUpTo]
  | n + 1, s => by
    have hdef : takeSpacesUpTo (n + 1) s =
        (match s with
         | ' ' :: r => (' ' :: (takeSpacesUpTo n r).1, (takeSpacesUpTo n r).2)
         | _ => ([], s)) := rfl
    rw [hdef]
    split
    · rename_i r
      have ih := takeSpacesUpTo_decomp n r
      refine ⟨by simp [ih.1], ?_, ?_⟩
      · intro c hc
        rcases List.mem_cons.mp hc with rfl | h2
        · rfl
        · exact ih.2.1 c h2
      · simp only [List.length_cons]
        have := ih.2.2
        omega
    · simp

theorem matchMarker_decomp {s mk r : Str} (h : matchMarker s = some (mk, r)) :
    s = mk ++ r ∧ 1 ≤ mk.length ∧ mkShape mk := by
  rcases s with _ | ⟨c, rest⟩
  · exact Option.noConfusion h
  · unfold matchMarker at h
    simp only [] at h
    by_cases hb : isBulletChar c = true
    · rw [if_pos hb] at h
      injection h with h
      injection h with h1 h2
      subst h2
      rw [← h1]
      exact ⟨rfl, by simp, Or.inl ⟨c, rfl, hb⟩⟩
    · rw [if_neg hb] at h
      by_cases hd : c.isDigit = true
      · rw [if_pos hd] at h
        split at h
        · rename_i r2 heq
          injection h with h
          injection h with h1 h2
          subst h2
          have hds : (c :: rest).takeWhile Char.isDigit ≠ [] := by
            rw [List.takeWhile_cons, if_pos hd]
            simp
          refine ⟨?_, ?_, Or.inr ⟨(c :: rest).takeWhile Char.isDigit, h1.symm,
            hds, fun d hd2 => mem_takeWhile_holds _ _ d hd2⟩⟩
          · rw [← h1]
            have := List.takeWhile_append_dropWhile Char.isDigit (c :: rest)
            rw [heq] at this
            rw [List.append_assoc]
            exact this.symm
          · rw [← h1]
            simp
        · exact Option.noConfusion h
      · rw [if_neg hd] at h
        exact Option.noConfusion h

theorem blockTerm_decomp {s t rest : Str}
    (h : blockTerm s = some (t, rest)) :
    s = t ++ rest ∧ termShape t rest := by
  unfold blockTerm at h
  by_cases hp : sentinel.isPrefixOf s = true
  · rw [if_pos hp] at h
    injection h with h
    injection h with h1 h2
    obtain ⟨u, hu⟩ := List.isPrefixOf_iff_prefix.mp hp
    subst h1 h2
    constructor
    · rw [← hu]
      have : (sentinel ++ u).drop 2 = u := List.drop_left sentinel u
      rw [this]
    · exact Or.inl rfl
  · rw [if_neg hp] at h
    simp only [] at h
    by_cases h2 : 2 ≤ (s.takeWhile (· = '\n')).length
    · rw [if_pos h2] at h
      split at h
      · exact Option.noConfusion h
      · rename_i c cc heq
        split at h
        · exact Option.noConfusion h
        · split at h
          · exact Option.noConfusion h
          · injection h with h
            injection h with ht hr
            subst ht hr
            constructor
            · exact (List.takeWhile_append_dropWhile _ _).symm
            · refine Or.inr ⟨h2, ?_, ?_⟩
              · intro d hd
                have := mem_takeWhile_holds _ _ d hd
                simpa using this
              · rw [heq]
                simp
    · rw [if_neg h2] at h
      exact Option.noConfusion h

theorem blockContentScan_decomp : ∀ (s acc content t rest : Str),
    blockContentScan acc s = some (content, t, rest) →
    ∃ cs, content = acc.reverse ++ cs ∧ s = cs ++ (t ++ rest) ∧
      1 ≤ cs.length ∧ termShape t rest
  | [], acc, content, t, rest, h => Option.noConfusion h
  | c :: r, acc, content, t, rest, h => by
    have hdef : blockContentScan acc (c :: r) =
        (if c = '\r' then none
         else match blockTerm r with
           | some (t2, rest2) => some ((c :: acc).reverse, t2, rest2)
           | none => blockContentScan (c :: acc) r) := rfl
    rw [hdef] at h
    by_cases hc : c = '\r'
    · rw [if_pos hc] at h
      exact Option.noConfusion h
    · rw [if_neg hc] at h
      rcases hb : blockTerm r with _ | ⟨t2, rest2⟩
      · simp only [hb] at h
        obtain ⟨cs, h1, h2, h3, h4⟩ :=
          blockContentScan_decomp r (c :: acc) content t rest h
        refine ⟨c :: cs, ?_, ?_, by simp, h4⟩
        · rw [h1]
          simp
        · rw [List.cons_append, h2]
      · simp only [hb] at h
        injection h with h
        injection h with h1 h2
        injection h2 with h2 h3
        subst h2 h3
        obtain ⟨hr, hts⟩ := blockTerm_decomp hb
        refine ⟨[c], ?_, ?_, by simp, hts⟩
        · rw [← h1]
          simp
        · rw [List.singleton_append, hr]

theorem blockWsCand_decomp : ∀ (wsRev tail ws c t r : Str),
    wsRev ≠ [] → (∀ d ∈ wsRev, isSpaceTab d = true) →
    blockWsCand wsRev tail = some (ws, c, t, r) →
    ws ++ (c ++ (t ++ r)) = wsRev.reverse ++ tail ∧ ws ≠ [] ∧
      (∀ d ∈ ws, isSpaceTab d = true) ∧ 1 ≤ c.length ∧ termShape t r
  | wsRev, tail, ws, c, t, r, hne, hsp, h => by
    rcases wsRev with _ | ⟨w, wr⟩
    · exact absurd rfl hne
    · rcases wr with _ | ⟨w2, wr2⟩
      · have hdef : blockWsCand [w] tail =
            (match blockContentScan [] tail with
             | some (c2, t2, r2) => some ([w].reverse, c2, t2, r2)
             | none => none) := rfl
        rw [hdef] at h
        rcases hbc : blockContentScan [] tail with _ | ⟨c2, t2, r2⟩
        · simp only [hbc] at h
          exact Option.noConfusion h
        · simp only [hbc, Option.some.injEq, Prod.mk.injEq] at h
          obtain ⟨h1, h2, h3, h4⟩ := h
          subst h2 h3 h4
          obtain ⟨cs, hc1, hc2, hc3, hc4⟩ :=
            blockContentScan_decomp tail [] c2 t2 r2 hbc
          rw [List.reverse_nil, List.nil_append] at hc1
          subst hc1
          refine ⟨?_, ?_, ?_, hc3, hc4⟩
          · rw [← h1, hc2]
          · rw [← h1]
            simp
          · intro d hd
            rw [← h1] at hd
            exact hsp d (List.mem_reverse.mp hd)
      · have hdef : blockWsCand (w :: w2 :: wr2) tail =
            (match blockContentScan [] tail with
             | some (c2, t2, r2) =>
               some ((w :: w2 :: wr2).reverse, c2, t2, r2)
             | none => blockWsCand (w2 :: wr2) (w :: tail)) := rfl
        rw [hdef] at h
        rcases hbc : blockContentScan [] tail with _ | ⟨c2, t2, r2⟩
        · simp only [hbc] at h
          obtain ⟨h1, h2, h3, h4, h5⟩ :=
            blockWsCand_decomp (w2 :: wr2) (w :: tail) ws c t r (by simp)
              (fun d hd => hsp d (List.mem_cons_of_mem w hd)) h
          refine ⟨?_, h2, h3, h4, h5⟩
          rw [h1]
          simp
        · simp only [hbc, Option.some.injEq, Prod.mk.injEq] at h
          obtain ⟨h1, h2, h3, h4⟩ := h
          subst h2 h3 h4
          obtain ⟨cs, hc1, hc2, hc3, hc4⟩ :=
            blockContentScan_decomp tail [] c2 t2 r2 hbc
          rw [List.reverse_nil, List.nil_append] at hc1
          subst hc1
          refine ⟨?_, ?_, ?_, hc3, hc4⟩
          · rw [← h1, hc2]
          · rw [← h1]
            simp
          · intro d hd
            rw [← h1] at hd
            exact hsp d (List.mem_reverse.mp hd)

/-- Full decomposition of a block match at a line start. -/
theorem matchBlockHere_decomp {s : Str} {bm : BlockMatch}
    (h : matchBlockHere s = some bm) :
    s = bm.list ++ bm.rest ∧
    ∃ sp mk ws content term,
      bm.markerGroup = sp ++ mk ++ ws ∧
      bm.list = sp ++ (mk ++ (ws ++ (content ++ term))) ∧
      (∀ c ∈ sp, c = ' ') ∧ sp.length ≤ 3 ∧ mkShape mk ∧
      ws ≠ [] ∧ (∀ c ∈ ws, isSpaceTab c = true) ∧
      1 ≤ content.length ∧ termShape term bm.rest := by
  unfold matchBlockHere at h
  simp only [] at h
  split at h
  · exact Option.noConfusion h
  · rename_i mk s2 heqmk
    split at h
    · exact Option.noConfusion h
    · rename_i hws
      split at h
      · exact Option.noConfusion h
      · rename_i ws content term rest2 heqws
        injection h with h
        subst h
        simp only []
        obtain ⟨hsp1, hsp2, hsp3⟩ := takeSpacesUpTo_decomp 3 s
        obtain ⟨hmk1, hmk2, hmk3⟩ := matchMarker_decomp heqmk
        have hwsrun : ∀ d ∈ (s2.takeWhile isSpaceTab).reverse,
            isSpaceTab d = true := by
          intro d hd
          exact mem_takeWhile_holds _ _ d (List.mem_reverse.mp hd)
        obtain ⟨hw1, hw2, hw3, hw4, hw5⟩ :=
          blockWsCand_decomp (s2.takeWhile isSpaceTab).reverse
            (s2.dropWhile isSpaceTab) ws content term rest2
            (by simpa using hws) hwsrun heqws
        rw [List.reverse_reverse] at hw1
        have hs2 : ws ++ (content ++ (term ++ rest2)) = s2 := by
          rw [hw1, List.takeWhile_append_dropWhile]
        refine ⟨?_, (takeSpacesUpTo 3 s).1, mk, ws, content, term,
          ?_, ?_, hsp2, hsp3, hmk3, hw2, hw3, hw4, hw5⟩
        · calc s = (takeSpacesUpTo 3 s).1 ++ (takeSpacesUpTo 3 s).2 :=
              hsp1.symm
            _ = (takeSpacesUpTo 3 s).1 ++ (mk ++ s2) := by rw [hmk1]
            _ = (takeSpacesUpTo 3 s).1 ++
                (mk ++ (ws ++ (content ++ (term ++ rest2)))) := by rw [hs2]
            _ = ((takeSpacesUpTo 3 s).1 ++ mk ++ ws ++ content ++ term) ++
                rest2 := by simp [List.append_assoc]
        · simp [List.append_assoc]
        · simp [List.append_assoc]

/-! ## Decomposition of the item scanner -/

theorem markerWs_len {t : Str} (h : markerWs t = true) : 2 ≤ t.length := by
  unfold markerWs at h
  split at h
  · rename_i mk r heq
    split at h
    · rename_i hcc
      obtain ⟨ht, hmk, _⟩ := matchMarker_decomp heq
      rw [ht]
      simp only [List.length_append, List.length_cons]
      omega
    · exact Bool.noConfusion h
  · exact Bool.noConfusion h

theorem itemLookTail_len {legacy : Bool} {m2 s : Str}
    (h : itemLookTail legacy m2 s = true) : 2 ≤ s.length := by
  unfold itemLookTail at h
  simp only [Bool.or_eq_true] at h
  have hdw : (s.dropWhile (· = '\n')).length ≤ s.length :=
    (List.dropWhile_sublist _).length_le
  rcases h with h | h
  · obtain ⟨u, hu⟩ := List.isPrefixOf_iff_prefix.mp h
    have := congrArg List.length hu
    simp [sentinel] at this
    omega
  · split at h
    · simp only [Bool.and_eq_true] at h
      have h2 := markerWs_len h.2
      have := List.length_drop (m2.length) (s.dropWhile (· = '\n'))
      omega
    · unfold markerLine3 at h
      have h2 := markerWs_len h
      obtain ⟨hd, _, _⟩ := takeSpacesUpTo_decomp 3 (s.dropWhile (· = '\n'))
      have := congrArg List.length hd
      simp only [List.length_append] at this
      omega

theorem itemNlTerm_decomp {legacy : Bool} {m2 s nls rest : Str}
    (h : itemNlTerm legacy m2 s = some (nls, rest)) :
    s = nls ++ rest ∧ 1 ≤ nls.length ∧ (∀ c ∈ nls, c = '\n') ∧
      2 ≤ rest.length ∧ nls.getLast? = some '\n' := by
  unfold itemNlTerm at h
  split at h
  · rename_i r
    simp only [] at h
    split at h
    · rename_i hh
      split at h
      · rename_i hlk
        simp only [Option.some.injEq, Prod.mk.injEq] at h
        obtain ⟨h1, h2⟩ := h
        subst h1 h2
        rcases r with _ | ⟨r0, rr⟩
        · simp at hh
        · simp only [List.head?_cons, Option.some.injEq] at hh
          subst hh
          refine ⟨by simp, by simp, ?_, itemLookTail_len hlk, by simp⟩
          intro c hc
          simp at hc
          rcases hc with rfl | rfl
          all_goals rfl
      · exact Option.noConfusion h
    · rename_i hh
      split at h
      · rename_i hlk
        simp only [Option.some.injEq, Prod.mk.injEq] at h
        obtain ⟨h1, h2⟩ := h
        subst h1 h2
        refine ⟨by simp, by simp, ?_, itemLookTail_len hlk, by simp⟩
        intro c hc
        simp at hc
        subst hc
        rfl
      · exact Option.noConfusion h
  · exact Option.noConfusion h

theorem itemContentScan_decomp : ∀ (s : Str) (legacy : Bool)
    (m2 acc content nls rest : Str),
    itemContentScan legacy m2 acc s = some (content, nls, rest) →
    ∃ cs, content = acc.reverse ++ cs ∧ s = cs ++ (nls ++ rest) ∧
      1 ≤ cs.length ∧ 1 ≤ nls.length ∧ (∀ c ∈ nls, c = '\n') ∧
      2 ≤ rest.length ∧ nls.getLast? = some '\n'
  | [], _, _, _, _, _, _, h => Option.noConfusion h
  | c :: r, legacy, m2, acc, content, nls, rest, h => by
    have hdef : itemContentScan legacy m2 acc (c :: r) =
        (if c = '\r' then none
         else match itemNlTerm legacy m2 r with
           | some (n2, r2) => some ((c :: acc).reverse, n2, r2)
           | none => itemContentScan legacy m2 (c :: acc) r) := rfl
    rw [hdef] at h
    by_cases hc : c = '\r'
    · rw [if_pos hc] at h
      exact Option.noConfusion h
    · rw [if_neg hc] at h
      rcases hb : itemNlTerm legacy m2 r with _ | ⟨n2, r2⟩
      · simp only [hb] at h
        obtain ⟨cs, h1, h2, h3, h4, h5, h6, h7⟩ :=
          itemContentScan_decomp r legacy m2 (c :: acc) content nls rest h
        refine ⟨c :: cs, ?_, ?_, by simp, h4, h5, h6, h7⟩
        · rw [h1]
          simp
        · rw [List.cons_append, h2]
      · simp only [hb, Option.some.injEq, Prod.mk.injEq] at h
        obtain ⟨h1, h2, h3⟩ := h
        subst h2 h3
        obtain ⟨hr, hn1, hn2, hn3, hn4⟩ := itemNlTerm_decomp hb
        refine ⟨[c], ?_, ?_, by simp, hn1, hn2, hn3, hn4⟩
        · rw [← h1]
          simp
        · rw [List.singleton_append, hr]

theorem getLast?_append_right (x : Str) {y : Str} (hy : y ≠ []) :
    (x ++ y).getLast? = y.getLast? :=
  List.getLast?_append_of_ne_nil x hy

theorem matchM4_decomp {legacy : Bool} {m2 tail : Str}
    {cb : Option Char} {m4 rest : Str}
    (h : matchM4 legacy m2 tail = some (cb, m4, rest)) :
    tail = m4 ++ rest ∧ 1 ≤ m4.length ∧ m4.getLast? = some '\n' ∧
      2 ≤ rest.length := by
  unfold matchM4 at h
  simp only [] at h
  have noCbCase : ∀ (hh : (match itemContentScan legacy m2 [] tail with
      | some (content, nls, r2) => some ((none : Option Char),
          content ++ nls, r2)
      | none => none) = some (cb, m4, rest)),
      tail = m4 ++ rest ∧ 1 ≤ m4.length ∧ m4.getLast? = some '\n' ∧
        2 ≤ rest.length := by
    intro hh
    rcases hs : itemContentScan legacy m2 [] tail with _ | ⟨content, nls, r2⟩
    · simp only [hs] at hh
      exact Option.noConfusion hh
    · simp only [hs, Option.some.injEq, Prod.mk.injEq] at hh
      obtain ⟨h1, h2, h3⟩ := hh
      obtain ⟨cs, hc1, hc2, hc3, hc4, hc5, hc6, hc7⟩ :=
        itemContentScan_decomp tail legacy m2 [] content nls r2 hs
      rw [List.reverse_nil, List.nil_append] at hc1
      subst hc1
      have hlast : (content ++ nls).getLast? = some '\n' := by
        rw [getLast?_append_right content (by
          intro hn
          rw [hn] at hc4
          simp at hc4)]
        exact hc7
      refine ⟨?_, ?_, ?_, ?_⟩
      · rw [← h2, ← h3, hc2, List.append_assoc]
      · rw [← h2]
        simp only [List.length_append]
        omega
      · rw [← h2]
        exact hlast
      · rw [← h3]
        exact hc6
  split at h
  · rename_i c t2
    split at h
    · rcases hs2 : itemContentScan legacy m2 []
          (t2.dropWhile isSpaceTab) with _ | ⟨content, nls, r2⟩
      · simp only [hs2] at h
        split at h
        · exact noCbCase h
        · rcases hnt : itemNlTerm legacy m2 (t2.dropWhile isSpaceTab) with
            _ | ⟨nls, r2⟩
          · simp only [hnt] at h
            exact noCbCase h
          · simp only [hnt, Option.some.injEq, Prod.mk.injEq] at h
            obtain ⟨h1, h2, h3⟩ := h
            obtain ⟨ht1, ht2, ht3, ht4, ht5⟩ := itemNlTerm_decomp hnt
            have ht2' : t2 = t2.takeWhile isSpaceTab ++ (nls ++ r2) := by
              rw [← ht1, List.takeWhile_append_dropWhile]
            have hlast : ('[' :: c :: ']' ::
                (t2.takeWhile isSpaceTab ++ nls)).getLast? = some '\n' := by
              have hsh : '[' :: c :: ']' ::
                  (t2.takeWhile isSpaceTab ++ nls) =
                  ('[' :: c :: ']' :: t2.takeWhile isSpaceTab) ++ nls := by
                simp
              rw [hsh, getLast?_append_right _ (by
                intro hn
                rw [hn] at ht2
                simp at ht2)]
              exact ht5
            refine ⟨?_, ?_, ?_, ?_⟩
            · rw [← h2, ← h3]
              conv_lhs => rw [ht2']
              simp [List.append_assoc]
            · rw [← h2]
              simp
            · rw [← h2]
              exact hlast
            · rw [← h3]
              exact ht4
      · simp only [hs2, Option.some.injEq, Prod.mk.injEq] at h
        obtain ⟨h1, h2, h3⟩ := h
        obtain ⟨cs, hc1, hc2, hc3, hc4, hc5, hc6, hc7⟩ :=
          itemContentScan_decomp (t2.dropWhile isSpaceTab) legacy m2 []
            content nls r2 hs2
        rw [List.reverse_nil, List.nil_append] at hc1
        subst hc1
        have ht2 : t2 =
            t2.takeWhile isSpaceTab ++ (content ++ (nls ++ r2)) := by
          rw [← hc2, List.takeWhile_append_dropWhile]
        have hlast : ('[' :: c :: ']' ::
            (t2.takeWhile isSpaceTab ++ content ++ nls)).getLast? =
            some '\n' := by
          have hsh : '[' :: c :: ']' ::
              (t2.takeWhile isSpaceTab ++ content ++ nls) =
              ('[' :: c :: ']' :: (t2.takeWhile isSpaceTab ++ content)) ++
                nls := by
            simp [List.append_assoc]
          rw [hsh, getLast?_append_right _ (by
            intro hn
            rw [hn] at hc4
            simp at hc4)]
          exact hc7
        refine ⟨?_, ?_, ?_, ?_⟩
        · rw [← h2, ← h3]
          conv_lhs => rw [ht2]
          simp [List.append_assoc]
        · rw [← h2]
          simp
        · rw [← h2]
          exact hlast
        · rw [← h3]
          exact hc6
    · exact noCbCase h
  · exact noCbCase h

theorem matchItemCore_decomp {legacy : Bool} {s : Str} {im : ItemMatch}
    (h : matchItemCore legacy s = some im) :
    ∃ pre, s = pre ++ (im.m4 ++ im.rest) ∧ 2 ≤ pre.length ∧
      1 ≤ im.m4.length ∧ im.m4.getLast? = some '\n' ∧
      2 ≤ im.rest.length := by
  unfold matchItemCore at h
  simp only [] at h
  split at h
  · exact Option.noConfusion h
  · rename_i mk s2 heq
    split at h
    · exact Option.noConfusion h
    · rename_i hws
      split at h
      · rename_i cb m4v restv heq2
        have h' := Option.some.inj h
        subst h'
        simp only []
        obtain ⟨hsp1, _, _⟩ := takeSpacesUpTo_decomp 3 s
        obtain ⟨hmk1, hmk2, _⟩ := matchMarker_decomp heq
        obtain ⟨hm1, hm2, hm3, hm4⟩ := matchM4_decomp heq2
        refine ⟨(takeSpacesUpTo 3 s).1 ++ (mk ++ s2.takeWhile isSpaceTab),
          ?_, ?_, hm2, hm3, hm4⟩
        · calc s = (takeSpacesUpTo 3 s).1 ++ (takeSpacesUpTo 3 s).2 :=
              hsp1.symm
            _ = (takeSpacesUpTo 3 s).1 ++ (mk ++ s2) := by rw [hmk1]
            _ = (takeSpacesUpTo 3 s).1 ++ (mk ++ (s2.takeWhile isSpaceTab ++
                  s2.dropWhile isSpaceTab)) := by
                rw [List.takeWhile_append_dropWhile]
            _ = (takeSpacesUpTo 3 s).1 ++ (mk ++ (s2.takeWhile isSpaceTab ++
                  (m4v ++ restv))) := by rw [← hm1]
            _ = ((takeSpacesUpTo 3 s).1 ++ (mk ++ s2.takeWhile isSpaceTab)) ++
                (m4v ++ restv) := by simp [List.append_assoc]
        · simp only [List.length_append]
          have : 1 ≤ (s2.takeWhile isSpaceTab).length := by
            rcases hcase : s2.takeWhile isSpaceTab with _ | ⟨d, dd⟩
            · exact absurd hcase hws
            · simp
          omega
      · split at h
        · exact Option.noConfusion h
        · rename_i hws2
          split at h
          · rename_i nls restv heq3
            have h' := Option.some.inj h
            subst h'
            simp only []
            obtain ⟨hsp1, _, _⟩ := takeSpacesUpTo_decomp 3 s
            obtain ⟨hmk1, hmk2, _⟩ := matchMarker_decomp heq
            obtain ⟨ht1, ht2, ht3, ht4, ht5⟩ := itemNlTerm_decomp heq3
            have hwl : 2 ≤ (s2.takeWhile isSpaceTab).length := by omega
            have hnn : nls ≠ [] := by
              intro hn
              rw [hn] at ht2
              simp at ht2
            refine ⟨(takeSpacesUpTo 3 s).1 ++ (mk ++
              (s2.takeWhile isSpaceTab).take
                ((s2.takeWhile isSpaceTab).length - 1)), ?_, ?_, ?_, ?_, ht4⟩
            · calc s = (takeSpacesUpTo 3 s).1 ++ (takeSpacesUpTo 3 s).2 :=
                  hsp1.symm
                _ = (takeSpacesUpTo 3 s).1 ++ (mk ++ s2) := by rw [hmk1]
                _ = (takeSpacesUpTo 3 s).1 ++ (mk ++
                      (s2.takeWhile isSpaceTab ++
                        s2.dropWhile isSpaceTab)) := by
                    rw [List.takeWhile_append_dropWhile]
                _ = (takeSpacesUpTo 3 s).1 ++ (mk ++
                      (s2.takeWhile isSpaceTab ++ (nls ++ restv))) := by
                    rw [← ht1]
                _ = (takeSpacesUpTo 3 s).1 ++ (mk ++
                      (((s2.takeWhile isSpaceTab).take
                          ((s2.takeWhile isSpaceTab).length - 1) ++
                        (s2.takeWhile isSpaceTab).drop
                          ((s2.takeWhile isSpaceTab).length - 1)) ++
                        (nls ++ restv))) := by
                    rw [List.take_append_drop]
                _ = ((takeSpacesUpTo 3 s).1 ++ (mk ++
                      (s2.takeWhile isSpaceTab).take
                        ((s2.takeWhile isSpaceTab).length - 1))) ++
                    (((s2.takeWhile isSpaceTab).drop
                        ((s2.takeWhile isSpaceTab).length - 1) ++ nls) ++
                      restv) := by simp only [List.append_assoc]
            · simp only [List.length_append, List.length_take]
              omega
            · simp only [List.length_append, List.length_drop]
              omega
            · rw [getLast?_append_right _ hnn]
              exact ht5
          · exact Option.noConfusion h

theorem itemAttempt_decomp {legacy atStart : Bool} {s : Str} {im : ItemMatch}
    (h : itemAttempt legacy atStart s = some im) :
    ∃ pre, s = pre ++ (im.m4 ++ im.rest) ∧ 2 ≤ pre.length ∧
      1 ≤ im.m4.length ∧ im.m4.getLast? = some '\n' ∧
      2 ≤ im.rest.length := by
  unfold itemAttempt at h
  split at h
  · rename_i r
    split at h
    · rename_i im2 heq
      have h' := Option.some.inj h
      subst h'
      obtain ⟨pre, h1, h2, h3, h4, h5⟩ := matchItemCore_decomp heq
      refine ⟨'\n' :: pre, ?_, ?_, h3, h4, h5⟩
      · show '\n' :: r = ('\n' :: pre) ++ (im2.m4 ++ im2.rest)
        rw [List.cons_append, h1]
      · simp only [List.length_cons]
        omega
    · exact Option.noConfusion h
  · split at h
    · exact matchItemCore_decomp h
    · exact Option.noConfusion h

theorem getLast?_decomp : ∀ {l : Str} {c : Char}, l.getLast? = some c →
    ∃ l', l = l' ++ [c]
  | [], c, h => Option.noConfusion h
  | [d], c, h => by
    simp only [List.getLast?_singleton, Option.some.injEq] at h
    exact ⟨[], by rw [h, List.nil_append]⟩
  | d :: e :: r, c, h => by
    rw [List.getLast?_cons_cons] at h
    obtain ⟨l', hl⟩ := getLast?_decomp h
    exact ⟨d :: l', by rw [List.cons_append, ← hl]⟩

/-- Inside a scan string of the form `u ++ z` (`u` sentinel-free, `z` one
or two sentinels), a matched item body lies entirely inside `u`. -/
theorem m4_loc {u z s : Str} {im : ItemMatch} {legacy atStart : Bool}
    (hz : z = sentinel ∨ z = sentinel ++ sentinel)
    (hu : NoSent u) (hs : s = u ++ z)
    (h : itemAttempt legacy atStart s = some im) :
    NoSent im.m4 ∧ im.m4.length + 2 ≤ u.length ∧
      (∃ q, s = q ++ im.rest ∧ 1 ≤ q.length) := by
  obtain ⟨pre, h1, h2, h3, h4, h5⟩ := itemAttempt_decomp h
  obtain ⟨m4', hm4⟩ := getLast?_decomp h4
  have hx : (pre ++ m4') ++ '\n' :: im.rest = u ++ z := by
    rw [← hs, h1, hm4]
    simp [List.append_assoc]
  have hml : im.m4.length = m4'.length + 1 := by
    rw [hm4]
    simp
  have hkey : pre.length + im.m4.length ≤ u.length := by
    rcases hz with rfl | rfl
    · rcases List.append_eq_append_iff.mp hx with ⟨w, hw1, hw2⟩ |
        ⟨w, hw1, hw2⟩
      · rcases w with _ | ⟨w0, w1⟩
        · rw [List.nil_append] at hw2
          injection hw2 with hh _
          exact absurd hh (by decide)
        · have hl := congrArg List.length hw1
          simp only [List.length_append, List.length_cons] at hl
          omega
      · exfalso
        rcases w with _ | ⟨w0, w1⟩
        · rw [List.nil_append] at hw2
          injection hw2 with hh _
          exact absurd hh (by decide)
        · injection hw2 with hh hw2
          rcases w1 with _ | ⟨w2, w3⟩
          · simp only [List.append_eq, List.nil_append] at hw2
            injection hw2 with hh2 _
            exact absurd hh2 (by decide)
          · injection hw2 with hh2 hw2
            have := congrArg List.length hw2
            simp at this
            omega
    · rcases List.append_eq_append_iff.mp hx with ⟨w, hw1, hw2⟩ |
        ⟨w, hw1, hw2⟩
      · rcases w with _ | ⟨w0, w1⟩
        · rw [List.nil_append] at hw2
          injection hw2 with hh _
          exact absurd hh (by decide)
        · have hl := congrArg List.length hw1
          simp only [List.length_append, List.length_cons] at hl
          omega
      · exfalso
        have hz4 : sentinel ++ sentinel = '¨' :: '0' :: '¨' :: '0' :: [] :=
          rfl
        rw [hz4] at hw2
        rcases w with _ | ⟨w0, w1⟩
        · rw [List.nil_append] at hw2
          injection hw2 with hh _
          exact absurd hh (by decide)
        · injection hw2 with hh hw2
          rcases w1 with _ | ⟨w2, w3⟩
          · simp only [List.append_eq, List.nil_append] at hw2
            injection hw2 with hh2 _
            exact absurd hh2 (by decide)
          · injection hw2 with hh2 hw2
            rcases w3 with _ | ⟨w4, w5⟩
            · simp only [List.append_eq, List.nil_append] at hw2
              injection hw2 with hh3 _
              exact absurd hh3 (by decide)
            · injection hw2 with hh3 hw2
              rcases w5 with _ | ⟨w6, w7⟩
              · simp only [List.append_eq, List.nil_append] at hw2
                injection hw2 with hh4 _
                exact absurd hh4 (by decide)
              · injection hw2 with hh4 hw2
                have := congrArg List.length hw2
                simp at this
                omega
  have hinfix : im.m4 <:+: u := by
    have h6 : pre ++ (im.m4 ++ im.rest) = u ++ z := by
      rw [← hs, ← h1]
    have h7 : u.take (pre.length + im.m4.length) = pre ++ im.m4 := by
      have h8 : (u ++ z).take (pre.length + im.m4.length) =
          u.take (pre.length + im.m4.length) :=
        List.take_append_of_le_length hkey
      rw [← h8, ← h6, take_len_add_append, List.take_left]
    have h9 := List.take_append_drop (pre.length + im.m4.length) u
    rw [h7] at h9
    exact ⟨pre, u.drop (pre.length + im.m4.length), by
      simpa [List.append_assoc] using h9⟩
  refine ⟨hu.within hinfix, by omega, pre ++ im.m4, ?_, ?_⟩
  · rw [h1, List.append_assoc]
  · simp only [List.length_append]
    omega

/-! ## Scan-string invariants -/

/-- The invariant of a driver scan string: a sentinel-free prefix bounded
by `B` followed by one or two sentinels, or a tiny tail of the sentinel
zone. -/
def WInv (B : Nat) (s : Str) : Prop :=
  (∃ u zl, s = u ++ zl ∧ NoSent u ∧ u.length ≤ B ∧
    (zl = sentinel ∨ zl = sentinel ++ sentinel)) ∨
  s = '0' :: sentinel ∨ s = ['0'] ∨ s = []

/-- The invariant of a captured list string handed to
`parseConsecutiveLists`, `parseCL` and `processListItems`. -/
def LOK (B : Nat) (l : Str) : Prop :=
  (NoSent l ∧ l.length ≤ B) ∨
    (∃ v, l = v ++ sentinel ∧ NoSent v ∧ v.length ≤ B)

theorem suffix_of_concrete : ∀ (z t w : Str), w ++ t = z →
    ∃ k, k ≤ z.length ∧ t = z.drop k := by
  intro z t w hw
  refine ⟨w.length, ?_, ?_⟩
  · have := congrArg List.length hw
    simp only [List.length_append] at this
    omega
  · rw [← hw, List.drop_left]

theorem WInv_suffix {B : Nat} {s t : Str} (h : WInv B s) (hsuf : t <:+ s) :
    WInv B t := by
  obtain ⟨w, hw⟩ := hsuf
  rcases h with ⟨u, zl, rfl, hu, hb, hz⟩ | h | h | h
  · rcases List.append_eq_append_iff.mp hw with ⟨w2, hw1, hw2⟩ |
      ⟨w2, hw1, hw2⟩
    · refine Or.inl ⟨w2, zl, hw2, ?_, ?_, hz⟩
      · exact hu.within ⟨w, [], by rw [List.append_nil, hw1]⟩
      · have := congrArg List.length hw1
        simp only [List.length_append] at this
        omega
    · obtain ⟨k, hk, rfl⟩ := suffix_of_concrete zl t w2 hw2.symm
      rcases hz with rfl | rfl
      · have hlen2 : sentinel.length = 2 := rfl
        rw [hlen2] at hk
        interval_cases k
        · exact Or.inl ⟨[], sentinel, by simp, noSent_nil, by simp,
            Or.inl rfl⟩
        · right; right; left
          rfl
        · right; right; right
          rfl
      · have hlen : (sentinel ++ sentinel).length = 4 := rfl
        rw [hlen] at hk
        interval_cases k
        · exact Or.inl ⟨[], sentinel ++ sentinel, by simp, noSent_nil,
            by simp, Or.inr rfl⟩
        · right; left
          rfl
        · exact Or.inl ⟨[], sentinel, by rfl, noSent_nil, by simp,
            Or.inl rfl⟩
        · right; right; left
          rfl
        · right; right; right
          rfl
  · subst h
    obtain ⟨k, hk, rfl⟩ := suffix_of_concrete _ t w hw
    simp only [List.length_cons] at hk
    have hk3 : k ≤ 3 := by
      have : sentinel.length = 2 := rfl
      omega
    interval_cases k
    · right; left
      rfl
    · exact Or.inl ⟨[], sentinel, by rfl, noSent_nil, by simp, Or.inl rfl⟩
    · right; right; left
      rfl
    · right; right; right
      rfl
  · subst h
    obtain ⟨k, hk, rfl⟩ := suffix_of_concrete _ t w hw
    simp only [List.length_cons, List.length_nil] at hk
    interval_cases k
    · right; right; left
      rfl
    · right; right; right
      rfl
  · subst h
    obtain ⟨h1, h2⟩ := List.append_eq_nil.mp hw
    right; right; right
    exact h2

theorem countTrailing_le (p : Char → Bool) (s : Str) :
    countTrailing p s ≤ s.length := by
  unfold countTrailing
  calc (s.reverse.takeWhile p).length ≤ s.reverse.length :=
        (List.takeWhile_sublist _).length_le
    _ = s.length := List.length_reverse s

theorem trimTrailingNewlines_len (s : Str) :
    (trimTrailingNewlines s).length ≤ s.length := by
  unfold trimTrailingNewlines
  simp only []
  split
  · rename_i hk
    have h1 := countTrailing_le (· = '\n') s
    simp only [List.length_append, List.length_take, List.length_cons,
      List.length_nil]
    omega
  · exact le_refl _

theorem trimTrailingNewlines_noSent {s : Str} (h : NoSent s) :
    NoSent (trimTrailingNewlines s) := by
  unfold trimTrailingNewlines
  simp only []
  split
  · have htake : NoSent (s.take (s.length - countTrailing (· = '\n') s)) :=
      h.within (List.take_prefix _ _).isInfix
    have := noSent_insert (x := s.take (s.length - countTrailing
      (· = '\n') s)) (y := []) '\n' (by decide) (by decide)
      (by rw [List.append_nil]; exact htake)
    exact this
  · exact h

theorem trimTrailingNewlines_sent (v : Str) :
    trimTrailingNewlines (v ++ sentinel) = v ++ sentinel := by
  unfold trimTrailingNewlines
  simp only []
  have hzero : countTrailing (· = '\n') (v ++ sentinel) = 0 := by
    unfold countTrailing
    have : (v ++ sentinel).reverse = '0' :: '¨' :: v.reverse := by
      simp [sentinel]
    rw [this, List.takeWhile_cons]
    simp
  rw [hzero]
  simp

/-- The scan string of `replaceItemsF` built from an `LOK` list satisfies
the item-driver invariant. -/
theorem ls2_winv {B : Nat} {l : Str} (h : LOK B l) :
    WInv B (trimTrailingNewlines l ++ sentinel) := by
  rcases h with ⟨hn, hb⟩ | ⟨v, rfl, hv, hb⟩
  · exact Or.inl ⟨trimTrailingNewlines l, sentinel, rfl,
      trimTrailingNewlines_noSent hn,
      le_trans (trimTrailingNewlines_len l) hb, Or.inl rfl⟩
  · rw [trimTrailingNewlines_sent]
    exact Or.inl ⟨v, sentinel ++ sentinel, by simp, hv, hb, Or.inr rfl⟩

/-! ## Marker-kind disjointness and search positions -/

theorem bullet_not_digit {c : Char} (h : isBulletChar c = true) :
    c.isDigit = false := by
  unfold isBulletChar at h
  simp only [Bool.or_eq_true, decide_eq_true_eq] at h
  rcases h with (rfl | rfl) | rfl <;> decide

theorem digit_not_bullet {c : Char} (h : c.isDigit = true) :
    isBulletChar c = false := by
  by_cases hb : isBulletChar c = true
  · rw [bullet_not_digit hb] at h
    exact Bool.noConfusion h
  · exact Bool.not_eq_true _ ▸ Bool.eq_false_iff.mpr hb

theorem bullet_ne_space {c : Char} (h : isBulletChar c = true) : c ≠ ' ' := by
  unfold isBulletChar at h
  simp only [Bool.or_eq_true, decide_eq_true_eq] at h
  rcases h with (rfl | rfl) | rfl <;> decide

theorem digit_ne_space {c : Char} (h : c.isDigit = true) : c ≠ ' ' := by
  intro hc
  rw [hc] at h
  exact absurd h (by decide)

theorem spaceTab_not_bullet {c : Char} (h : isSpaceTab c = true) :
    isBulletChar c = false := by
  unfold isSpaceTab at h
  simp only [Bool.or_eq_true, decide_eq_true_eq] at h
  rcases h with rfl | rfl <;> decide

theorem takeSpacesUpTo_succ (n : Nat) (r : Str) :
    takeSpacesUpTo (n + 1) r =
      (match r with
       | ' ' :: r2 =>
         (' ' :: (takeSpacesUpTo n r2).1, (takeSpacesUpTo n r2).2)
       | _ => ([], r)) := rfl

theorem takeSpacesUpTo_no_space : ∀ (n : Nat) {r : Str},
    r.head? ≠ some ' ' → takeSpacesUpTo n r = ([], r)
  | 0, r, _ => rfl
  | n + 1, r, h => by
    rw [takeSpacesUpTo_succ]
    split
    · rename_i r2
      exact absurd rfl h
    · rfl

theorem takeSpacesUpTo_skip : ∀ (sp : Str) (n : Nat) (r : Str),
    (∀ c ∈ sp, c = ' ') → sp.length ≤ n → r.head? ≠ some ' ' →
    takeSpacesUpTo n (sp ++ r) = (sp, r)
  | [], n, r, _, _, hr => by
    rw [List.nil_append]
    exact takeSpacesUpTo_no_space n hr
  | c :: sp', n, r, hsp, hlen, hr => by
    have hc : c = ' ' := hsp c (by simp)
    subst hc
    rcases n with _ | n'
    · simp at hlen
    · have hdef : takeSpacesUpTo (n' + 1) (' ' :: (sp' ++ r)) =
          (' ' :: (takeSpacesUpTo n' (sp' ++ r)).1,
            (takeSpacesUpTo n' (sp' ++ r)).2) := rfl
      rw [List.cons_append, hdef,
        takeSpacesUpTo_skip sp' n' r (fun d hd => hsp d (by simp [hd]))
          (by simp at hlen; omega) hr]

theorem ul_ol_disjoint {s1 : Str} (h : ulMarkerHere s1 = true) :
    olMarkerHere s1 = false := by
  unfold ulMarkerHere at h
  split at h
  · rename_i c d rest
    simp only [Bool.and_eq_true] at h
    unfold olMarkerHere
    rw [List.takeWhile_cons, if_neg (by rw [bullet_not_digit h.1]; simp)]
    simp
  · exact Bool.noConfusion h

theorem ol_ul_disjoint {s1 : Str} (h : olMarkerHere s1 = true) :
    ulMarkerHere s1 = false := by
  unfold olMarkerHere at h
  simp only [Bool.and_eq_true] at h
  obtain ⟨h1, h2⟩ := h
  rcases s1 with _ | ⟨d, tl⟩
  · simp at h1
  · rw [List.takeWhile_cons] at h1
    by_cases hd : d.isDigit = true
    · rcases tl with _ | ⟨e, tl2⟩
      · rfl
      · show (isBulletChar d && isSpaceTab e) = false
        rw [digit_not_bullet hd]
        simp
    · rw [if_neg (by simpa using hd)] at h1
      simp at h1

theorem counterAt_disjoint {b legacy : Bool} {s : Str}
    (h : counterAt b legacy s = true) : counterAt (!b) legacy s = false := by
  unfold counterAt at h ⊢
  simp only [] at h ⊢
  cases b
  · simp only [Bool.false_eq_true, if_false] at h
    simp only [Bool.not_false]
    rw [if_pos trivial]
    exact ul_ol_disjoint h
  · rw [if_pos (show true = true from rfl)] at h
    simp only [Bool.not_true, Bool.false_eq_true, if_false]
    exact ol_ul_disjoint h

theorem counterAt_small (b : Bool) :
    counterAt b false sentinel = false ∧ counterAt b false ['0'] = false ∧
      counterAt b false [] = false ∧
      counterAt b false ('0' :: sentinel) = false := by
  cases b <;> exact ⟨rfl, rfl, rfl, rfl⟩

theorem searchLinesAux_ge : ∀ (s : Str) (p : Str → Bool) (a : Bool)
    (i pos : Nat), searchLinesAux p s a i = some pos → i ≤ pos
  | [], p, a, i, pos, h => by
    unfold searchLinesAux at h
    split at h
    · injection h with h
      omega
    · exact Option.noConfusion h
  | c :: r, p, a, i, pos, h => by
    unfold searchLinesAux at h
    split at h
    · injection h with h
      omega
    · have := searchLinesAux_ge r p (c = '\n') (i + 1) pos h
      omega

theorem searchLinesAux_found : ∀ (s : Str) (p : Str → Bool) (a : Bool)
    (i pos : Nat), searchLinesAux p s a i = some pos →
    p (s.drop (pos - i)) = true ∧ pos - i ≤ s.length
  | [], p, a, i, pos, h => by
    unfold searchLinesAux at h
    split at h
    · rename_i hc
      injection h with h
      subst h
      simp only [Bool.and_eq_true] at hc
      simpa using hc.2
    · exact Option.noConfusion h
  | c :: r, p, a, i, pos, h => by
    unfold searchLinesAux at h
    split at h
    · rename_i hc
      injection h with h
      subst h
      simp only [Bool.and_eq_true] at hc
      simpa using hc.2
    · have hge := searchLinesAux_ge r p (c = '\n') (i + 1) pos h
      obtain ⟨h1, h2⟩ := searchLinesAux_found r p (c = '\n') (i + 1) pos h
      constructor
      · have hdrop : (c :: r).drop (pos - i) = r.drop (pos - (i + 1)) := by
          have : pos - i = (pos - (i + 1)) + 1 := by omega
          rw [this]
          rfl
        rw [hdrop]
        exact h1
      · simp only [List.length_cons]
        omega

theorem searchLines_spec {p : Str → Bool} {s : Str} {pos : Nat}
    (h : searchLines p s = some pos) :
    p (s.drop pos) = true ∧ pos ≤ s.length ∧ (p s = false → 1 ≤ pos) := by
  unfold searchLines at h
  obtain ⟨h1, h2⟩ := searchLinesAux_found s p true 0 pos h
  simp only [Nat.sub_zero] at h1 h2
  refine ⟨h1, h2, ?_⟩
  intro hps
  rcases s with _ | ⟨c, r⟩
  · unfold searchLinesAux at h
    rw [if_neg (by simp [hps])] at h
    exact Option.noConfusion h
  · unfold searchLinesAux at h
    rw [if_neg (by simp [hps])] at h
    exact searchLinesAux_ge r p (c = '\n') 1 pos h

theorem kindOfGroup_ul {sp ws : Str} {c : Char} (hb : isBulletChar c = true) :
    kindOfGroup (sp ++ [c] ++ ws) = ListType.ul := by
  unfold kindOfGroup
  rw [if_pos (List.any_eq_true.mpr ⟨c, by simp, hb⟩)]

theorem kindOfGroup_ol {sp ds ws : Str} (hsp : ∀ c ∈ sp, c = ' ')
    (hdig : ∀ c ∈ ds, c.isDigit = true)
    (hws : ∀ c ∈ ws, isSpaceTab c = true) :
    kindOfGroup (sp ++ (ds ++ ['.']) ++ ws) = ListType.ol := by
  unfold kindOfGroup
  rw [if_neg]
  intro hany
  obtain ⟨c, hc, hbc⟩ := List.any_eq_true.mp hany
  rcases List.mem_append.mp hc with hc1 | hcws
  · rcases List.mem_append.mp hc1 with hcsp | hcd
    · rw [hsp c hcsp] at hbc
      exact absurd hbc (by decide)
    · rcases List.mem_append.mp hcd with hcds | hcdot
      · rw [digit_not_bullet (hdig c hcds)] at hbc
        exact Bool.noConfusion hbc
      · rw [List.mem_singleton.mp hcdot] at hbc
        exact absurd hbc (by decide)
  · rw [spaceTab_not_bullet (hws c hcws)] at hbc
    exact Bool.noConfusion hbc

theorem counterAt_block_ul {sp ws tailrest : Str} {c : Char}
    (hsp : ∀ d ∈ sp, d = ' ') (hsp3 : sp.length ≤ 3)
    (hb : isBulletChar c = true) :
    counterAt true false (sp ++ ([c] ++ (ws ++ tailrest))) = false := by
  unfold counterAt
  simp only [Bool.false_eq_true, if_false]
  rw [if_pos trivial]
  rw [takeSpacesUpTo_skip sp 3 ([c] ++ (ws ++ tailrest)) hsp hsp3 (by
    simp only [List.cons_append, List.head?_cons]
    intro hcon
    injection hcon with hcon
    exact bullet_ne_space hb hcon)]
  show olMarkerHere ([c] ++ (ws ++ tailrest)) = false
  unfold olMarkerHere
  rw [show ([c] ++ (ws ++ tailrest)) = c :: (ws ++ tailrest) from rfl,
    List.takeWhile_cons, if_neg (by rw [bullet_not_digit hb]; simp)]
  simp

theorem counterAt_block_ol {sp ds ws tailrest : Str}
    (hsp : ∀ d ∈ sp, d = ' ') (hsp3 : sp.length ≤ 3) (hne : ds ≠ [])
    (hdig : ∀ c ∈ ds, c.isDigit = true) :
    counterAt false false (sp ++ ((ds ++ ['.']) ++ (ws ++ tailrest)))
      = false := by
  rcases ds with _ | ⟨d, ds'⟩
  · exact absurd rfl hne
  · unfold counterAt
    simp only [Bool.false_eq_true, if_false]
    rw [takeSpacesUpTo_skip sp 3 ((d :: ds' ++ ['.']) ++ (ws ++ tailrest))
      hsp hsp3 (by
        simp only [List.cons_append, List.head?_cons]
        intro hcon
        injection hcon with hcon
        exact digit_ne_space (hdig d (by simp)) hcon)]
    show ulMarkerHere ((d :: ds' ++ ['.']) ++ (ws ++ tailrest)) = false
    rcases ds' with _ | ⟨e, ds''⟩
    · show (isBulletChar d && _) = false
      rw [digit_not_bullet (hdig d (by simp))]
      simp
    · show (isBulletChar d && _) = false
      rw [digit_not_bullet (hdig d (by simp))]
      simp

theorem matchMarker_not_marker {c : Char} {r : Str}
    (hb : isBulletChar c = false) (hd : c.isDigit = false) :
    matchMarker (c :: r) = none := by
  unfold matchMarker
  simp only []
  rw [if_neg (by simp [hb]), if_neg (by simp [hd])]

theorem matchBlockHere_cons_none {c : Char} {r : Str} (hsp : c ≠ ' ')
    (hb : isBulletChar c = false) (hd : c.isDigit = false) :
    matchBlockHere (c :: r) = none := by
  unfold matchBlockHere
  simp only []
  rw [takeSpacesUpTo_no_space 3 (by
    simp only [List.head?_cons]
    intro hcon
    injection hcon with hcon
    exact hsp hcon)]
  simp only [matchMarker_not_marker hb hd]

theorem matchBlockHere_zeroSent : matchBlockHere ('0' :: sentinel) = none :=
  rfl

theorem matchBlockHere_zero : matchBlockHere ['0'] = none := rfl

theorem matchBlockHere_nil : matchBlockHere [] = none := rfl

theorem getLast?_all : ∀ {l : Str} {c : Char}, l ≠ [] →
    (∀ d ∈ l, d = c) → l.getLast? = some c
  | [], c, hne, _ => absurd rfl hne
  | [d], c, _, hall => by
    simp only [List.getLast?_singleton, Option.some.injEq]
    exact hall d (by simp)
  | d :: e :: r, c, _, hall => by
    rw [List.getLast?_cons_cons]
    exact getLast?_all (by simp) (fun x hx => hall x (by simp [hx]))

theorem mainAttempt_nonNl {a : Bool} {c : Char} {x : Str} (hc : c ≠ '\n')
    (hbh : matchBlockHere (c :: x) = none) :
    mainAttempt a (c :: x) = none := by
  unfold mainAttempt
  split
  · rename_i r2 heq
    injection heq with h1 _
    exact absurd h1 hc
  · rename_i r1 heq
    injection heq with h1 _
    exact absurd h1 hc
  · rw [hbh]
    simp

/-- Location of a block match inside a main/sub scan string. -/
theorem blockHere_loc {B : Nat} {u tail2 : Str} {bm : BlockMatch}
    (hu : NoSent u) (hb : u.length ≤ B) (hs : tail2 = u ++ sentinel)
    (h : matchBlockHere tail2 = some bm) :
    LOK B bm.list ∧
      counterAt (kindOfGroup bm.markerGroup = ListType.ul) false bm.list
        = false ∧
      ((∃ u2, bm.rest = u2 ++ sentinel ∧ NoSent u2 ∧ u2.length ≤ B) ∨
        bm.rest = []) ∧
      bm.rest.length < tail2.length ∧ 1 ≤ bm.list.length := by
  obtain ⟨hsplit, sp, mk, ws, content, term, hmg, hlist, hsp, hsp3, hmk,
    hwsne, hws, hcont, hterm⟩ := matchBlockHere_decomp h
  have hcounter : counterAt (kindOfGroup bm.markerGroup = ListType.ul) false
      bm.list = false := by
    rw [hmg, hlist]
    rcases hmk with ⟨c, rfl, hbul⟩ | ⟨ds, rfl, hne, hdig⟩
    · rw [kindOfGroup_ul hbul]
      have hcoerce : (decide (ListType.ul = ListType.ul)) = true := rfl
      show counterAt true false (sp ++ ([c] ++ (ws ++ (content ++ term))))
        = false
      exact counterAt_block_ul hsp hsp3 hbul
    · rw [kindOfGroup_ol hsp hdig hws]
      show counterAt false false
        (sp ++ ((ds ++ ['.']) ++ (ws ++ (content ++ term)))) = false
      exact counterAt_block_ol hsp hsp3 hne hdig
  have hlen1 : 1 ≤ bm.list.length := by
    rw [hlist]
    simp only [List.length_append]
    omega
  rcases hterm with rfl | ⟨hterm2, hterm3, hterm4⟩
  · -- sentinel terminator: the block runs to the end of the scan string
    have hx : (sp ++ (mk ++ (ws ++ content))) ++ (sentinel ++ bm.rest) =
        u ++ sentinel := by
      rw [← hs, hsplit, hlist]
      simp [List.append_assoc]
    obtain ⟨hxu, hrest⟩ := sent_unique _ _ _ hu hx
    refine ⟨Or.inr ⟨u, ?_, hu, hb⟩, hcounter, Or.inr hrest, ?_, hlen1⟩
    · rw [hlist, ← hxu]
      simp [List.append_assoc]
    · rw [hrest, hs]
      simp [sentinel]
  · -- newline terminator: the block lies inside `u`
    have hne_of_len : ∀ {l : Str}, 1 ≤ l.length → l ≠ [] := by
      intro l hl hn
      rw [hn] at hl
      simp at hl
    have hlast : bm.list.getLast? = some '\n' := by
      have htermlast : term.getLast? = some '\n' := by
        refine getLast?_all (hne_of_len ?_) hterm3
        omega
      rw [hlist, getLast?_append_right _ (hne_of_len (by
          simp only [List.length_append]
          obtain ⟨c, rfl, _⟩ | ⟨ds, rfl, hne, _⟩ := hmk <;>
            simp only [List.length_append, List.length_cons] <;> omega)),
        getLast?_append_right _ (hne_of_len (by
          simp only [List.length_append]
          rcases ws with _ | ⟨w0, ws'⟩
          · exact absurd rfl hwsne
          · simp only [List.length_cons]
            omega)),
        getLast?_append_right _ (hne_of_len (by
          simp only [List.length_append]
          omega)),
        getLast?_append_right _ (hne_of_len (by omega))]
      exact htermlast
    obtain ⟨l', hl'⟩ := getLast?_decomp hlast
    have hx : l' ++ '\n' :: bm.rest = u ++ sentinel := by
      rw [← hs, hsplit, hl']
      simp [List.append_assoc]
    have hlistle : bm.list.length ≤ u.length := by
      rcases List.append_eq_append_iff.mp hx with ⟨w, hw1, hw2⟩ |
        ⟨w, hw1, hw2⟩
      · rcases w with _ | ⟨w0, w1⟩
        · rw [List.nil_append] at hw2
          injection hw2 with hh _
          exact absurd hh (by decide)
        · have := congrArg List.length hw1
          have hml := congrArg List.length hl'
          simp only [List.length_append, List.length_cons,
            List.length_nil] at this hml
          omega
      · exfalso
        rcases w with _ | ⟨w0, w1⟩
        · rw [List.nil_append] at hw2
          injection hw2 with hh _
          exact absurd hh (by decide)
        · injection hw2 with hh hw2
          rcases w1 with _ | ⟨w2, w3⟩
          · simp only [List.append_eq, List.nil_append] at hw2
            injection hw2 with hh2 _
            exact absurd hh2 (by decide)
          · injection hw2 with hh2 hw2
            have := congrArg List.length hw2
            simp at this
            omega
    have htail : bm.list ++ bm.rest = u ++ sentinel := by
      rw [← hs, hsplit]
    have hlistpre : bm.list = u.take bm.list.length := by
      have h1 : (bm.list ++ bm.rest).take bm.list.length = bm.list :=
        List.take_left _ _
      rw [htail, List.take_append_of_le_length hlistle] at h1
      exact h1.symm
    have hrest : bm.rest = u.drop bm.list.length ++ sentinel := by
      have h1 : (bm.list ++ bm.rest).drop bm.list.length = bm.rest :=
        List.drop_left _ _
      rw [htail, List.drop_append_of_le_length hlistle] at h1
      exact h1.symm
    refine ⟨Or.inl ⟨?_, ?_⟩, hcounter, Or.inl ⟨u.drop bm.list.length,
      hrest, ?_, ?_⟩, ?_, hlen1⟩
    · rw [hlistpre]
      exact hu.within (List.take_prefix _ _).isInfix
    · rw [hlistpre]
      calc (u.take bm.list.length).length ≤ u.length :=
            by simp [List.length_take]
        _ ≤ B := hb
    · exact hu.within (List.drop_suffix _ _).isInfix
    · calc (u.drop bm.list.length).length ≤ u.length :=
          by simp [List.length_drop]
        _ ≤ B := hb
    · have h1 := congrArg List.length htail
      simp only [List.length_append] at h1
      have : tail2.length = u.length + sentinel.length := by
        rw [hs]
        simp
      omega

/-! ## The existence cascade -/

/-- All sentinel-free texts below measure `B` convert successfully at some
fuel. -/
def TotalBelow (B : Nat) : Prop :=
  ∀ t, NoSent t → mu t < B → ∀ g, ∃ fl p, listF defCtx fl t g = some p

theorem ex_loose {B : Nat} (HB : TotalBelow B) {itemD : Str}
    (hns : NoSent itemD) (hmu : mu itemD < B) (g : Globals) :
    ∃ fl p, looseRenderF defCtx fl itemD g = some p := by
  obtain ⟨fl, ⟨r, g'⟩, hl⟩ := HB itemD hns hmu g
  have hcol : defCtx.collab.heading (defCtx.collab.blockquote
      (defCtx.collab.githubCodeBlock itemD)) = itemD := rfl
  exact ⟨fl + 1, _, by rw [looseRenderF_succ, hcol, hl]⟩

theorem ex_tight {B : Nat} (HB : TotalBelow B) {itemD : Str}
    (hns : NoSent itemD) (hmu : mu itemD < B) (isPara : Bool) (g : Globals) :
    ∃ fl p, tightRenderF defCtx fl isPara itemD g = some p := by
  obtain ⟨fl, ⟨r, g'⟩, hl⟩ := HB itemD hns hmu g
  exact ⟨fl + 1, _, by rw [tightRenderF_succ, hl]⟩

/-- The item callback in the default context, with the dead hook branches
reduced away. -/
theorem itemCallbackF_defCtx (fuel : Nat) (isPara : Bool) (im : ItemMatch)
    (g : Globals) :
    itemCallbackF defCtx (fuel + 1) isPara im g =
      (let isTask := im.checkedRaw.isSome && defCtx.opts.tasklists
       let attrs0 : Attrs :=
         if isTask then taskItemAttrs defCtx.opts (checkedOf im.checkedRaw)
         else []
       let itemD := itemGuardsAll defCtx (outdent im.m4)
         (checkedOf im.checkedRaw)
       if im.m1 || hasDoubleNl itemD then
         match looseRenderF defCtx fuel itemD g with
         | none => none
         | some (content, g1) =>
           some (liWrap defCtx isTask attrs0 content, g1)
       else
         match tightRenderF defCtx fuel isPara itemD g with
         | none => none
         | some (content, g1) =>
           some (liWrap defCtx isTask attrs0 content, g1)) := rfl

theorem ex_callback {B : Nat} (HB : TotalBelow B) {im : ItemMatch}
    (hns : NoSent im.m4) (hlen : im.m4.length + 2 ≤ B) (isPara : Bool)
    (g : Globals) :
    ∃ fl p, itemCallbackF defCtx fl isPara im g = some p := by
  have hD := itemGuardsAll_bound (outdent im.m4) (checkedOf im.checkedRaw)
    (outdent_noSent hns)
  have hmu : mu (itemGuardsAll defCtx (outdent im.m4)
      (checkedOf im.checkedRaw)) < B := by
    have h1 := outdent_length im.m4
    have h2 := hD.2
    omega
  by_cases hcond : (im.m1 || hasDoubleNl (itemGuardsAll defCtx
      (outdent im.m4) (checkedOf im.checkedRaw))) = true
  · obtain ⟨fl, ⟨content, g1⟩, hp⟩ := ex_loose HB hD.1 hmu g
    exact ⟨fl + 1, _, by
      rw [itemCallbackF_defCtx]
      simp only []
      rw [if_pos hcond, hp]⟩
  · obtain ⟨fl, ⟨content, g1⟩, hp⟩ := ex_tight HB hD.1 hmu isPara g
    exact ⟨fl + 1, _, by
      rw [itemCallbackF_defCtx]
      simp only []
      rw [if_neg hcond, hp]⟩

theorem itemAttempt_zeroSent (a : Bool) (legacy : Bool) :
    itemAttempt legacy a ('0' :: sentinel) = none := by
  cases a <;> cases legacy <;> rfl

theorem itemAttempt_zero (a : Bool) (legacy : Bool) :
    itemAttempt legacy a ['0'] = none := by
  cases a <;> cases legacy <;> rfl

/-- The invariant of the top-level scan string. -/
def MInv (B : Nat) (s : Str) : Prop :=
  (∃ u, s = u ++ sentinel ∧ NoSent u ∧ u.length ≤ B) ∨ s = ['0'] ∨ s = []

theorem MInv_suffix {B : Nat} {s t : Str} (h : MInv B s) (hsuf : t <:+ s) :
    MInv B t := by
  obtain ⟨w, hw⟩ := hsuf
  rcases h with ⟨u, rfl, hu, hb⟩ | h | h
  · rcases List.append_eq_append_iff.mp hw with ⟨w2, hw1, hw2⟩ |
      ⟨w2, hw1, hw2⟩
    · refine Or.inl ⟨w2, hw2, ?_, ?_⟩
      · exact hu.within ⟨w, [], by rw [List.append_nil, hw1]⟩
      · have := congrArg List.length hw1
        simp only [List.length_append] at this
        omega
    · obtain ⟨k, hk, rfl⟩ := suffix_of_concrete sentinel t w2 hw2.symm
      have hlen : sentinel.length = 2 := rfl
      rw [hlen] at hk
      interval_cases k
      · exact Or.inl ⟨[], by simp, noSent_nil, by simp⟩
      · right; left
        rfl
      · right; right
        rfl
  · subst h
    obtain ⟨k, hk, rfl⟩ := suffix_of_concrete _ t w hw
    simp only [List.length_cons, List.length_nil] at hk
    interval_cases k
    · right; left
      rfl
    · right; right
      rfl
  · subst h
    obtain ⟨h1, h2⟩ := List.append_eq_nil.mp hw
    right; right
    exact h2

theorem ex_items {B : Nat} (HB : TotalBelow B) :
    ∀ (n : Nat) (s : Str), s.length ≤ n → WInv B s →
    ∀ (isPara atStart : Bool) (acc : Str) (g : Globals),
    ∃ fl p, replaceItemsF defCtx fl false isPara s atStart acc g = some p := by
  intro n
  induction n with
  | zero =>
    intro s hlen _ isPara atStart acc g
    have hs : s = [] := List.eq_nil_of_length_eq_zero (by omega)
    subst hs
    exact ⟨1, _, by rw [replaceItemsF_nil]⟩
  | succ n ih =>
    intro s hlen hinv isPara atStart acc g
    rcases s with _ | ⟨c, r⟩
    · exact ⟨1, _, by rw [replaceItemsF_nil]⟩
    · rcases hia : itemAttempt false atStart (c :: r) with _ | im
      · obtain ⟨fl, p, hp⟩ := ih r (by simp at hlen; omega)
          (WInv_suffix hinv ⟨[c], rfl⟩) isPara (c = '\n') (c :: acc) g
        exact ⟨fl + 1, p, by
          rw [replaceItemsF_cons]
          simp only [hia]
          exact hp⟩
      · rcases hinv with ⟨u, zl, hseq, hu, hub, hz⟩ | h0 | h0 | h0
        · obtain ⟨hns, hm4len, q, hsq, hq1⟩ := m4_loc hz hu hseq hia
          obtain ⟨flc, ⟨rep, g1⟩, hc⟩ := ex_callback HB hns (by omega)
            isPara g
          have hrest_le : im.rest.length ≤ n := by
            have h1 := congrArg List.length hsq
            simp only [List.length_append, List.length_cons] at h1 hlen
            omega
          have hrinv : WInv B im.rest :=
            WInv_suffix (Or.inl ⟨u, zl, hseq, hu, hub, hz⟩) ⟨q, hsq.symm⟩
          obtain ⟨flr, p, hr⟩ := ih im.rest hrest_le hrinv isPara
            (im.m4.getLast? = some '\n') (rep.reverse ++ acc) g1
          have hc' := (fuel_mono defCtx flc).2.2.2.2.2.2.2.1 (max flc flr)
            (le_max_left _ _) isPara im g rep g1 hc
          have hr' : replaceItemsF defCtx (max flc flr) false isPara im.rest
              (im.m4.getLast? = some '\n') (rep.reverse ++ acc) g1 =
                some p := by
            rcases p with ⟨pr, pg⟩
            exact (fuel_mono defCtx flr).2.2.2.2.2.2.1 (max flc flr)
              (le_max_right _ _) _ _ _ _ _ _ _ _ hr
          exact ⟨max flc flr + 1, p, by
            rw [replaceItemsF_cons]
            simp only [hia, hc']
            exact hr'⟩
        · rw [h0] at hia
          rw [itemAttempt_zeroSent] at hia
          exact Option.noConfusion hia
        · rw [h0] at hia
          rw [itemAttempt_zero] at hia
          exact Option.noConfusion hia
        · exact absurd h0 (by simp)

theorem legacy_defCtx : defCtx.opts.disableForced4SpacesIndentedSublists
    = false := rfl

theorem ex_pli {B : Nat} (HB : TotalBelow B) {l : Str} (hl : LOK B l)
    (tr : Bool) (g : Globals) :
    ∃ fl p, processListItemsF defCtx fl l tr g = some p := by
  obtain ⟨fl, ⟨ls3, g2⟩, hi⟩ := ex_items HB
    (trimTrailingNewlines l ++ sentinel).length
    (trimTrailingNewlines l ++ sentinel) (le_refl _) (ls2_winv hl)
    (isParagraphedTest (trimTrailingNewlines l ++ sentinel)) true []
    (incLevel g)
  exact ⟨fl + 1, _, by
    rw [processListItemsF_succ]
    simp only []
    rw [legacy_defCtx]
    simp only [hi]
    rfl⟩

theorem ex_cl {B : Nat} (HB : TotalBelow B) :
    ∀ (n : Nat) (txt : Str), txt.length ≤ n → LOK B txt →
    ∀ (lt : ListType), counterAt (lt = ListType.ul) false txt = false →
    ∀ (acc : Str) (attrs : Attrs) (orig : Str) (tr : Bool) (g : Globals),
    ∃ fl p, parseCLF defCtx fl acc attrs lt orig txt tr g = some p := by
  intro n
  induction n with
  | zero =>
    intro txt hlen hLOK lt hhead acc attrs orig tr g
    have htxt : txt = [] := List.eq_nil_of_length_eq_zero (by omega)
    subst htxt
    have hse : searchLines (counterAt (lt = ListType.ul) false) [] =
        none := by
      unfold searchLines searchLinesAux
      rw [Bool.true_and, hhead]
      simp
    obtain ⟨flp, ⟨inner, g1⟩, hp⟩ := ex_pli HB hLOK tr g
    exact ⟨flp + 1, _, by
      rw [parseCLF_succ, legacy_defCtx]
      simp only [hse, hp]
      rfl⟩
  | succ n ih =>
    intro txt hlen hLOK lt hhead acc attrs orig tr g
    rcases hse : searchLines (counterAt (lt = ListType.ul) false) txt with
      _ | pos
    · obtain ⟨flp, ⟨inner, g1⟩, hp⟩ := ex_pli HB hLOK tr g
      exact ⟨flp + 1, _, by
        rw [parseCLF_succ, legacy_defCtx]
        simp only [hse, hp]
        rfl⟩
    · obtain ⟨hfound, hposle, hpos1⟩ := searchLines_spec hse
      have hpos : 1 ≤ pos := hpos1 hhead
      have hslices : LOK B (txt.take pos) ∧ LOK B (txt.drop pos) := by
        rcases hLOK with ⟨hns, hb⟩ | ⟨v, rfl, hv, hvb⟩
        · constructor
          · refine Or.inl ⟨hns.within (List.take_prefix _ _).isInfix, ?_⟩
            simp only [List.length_take]
            omega
          · refine Or.inl ⟨hns.within (List.drop_suffix _ _).isInfix, ?_⟩
            simp only [List.length_drop]
            omega
        · have hposv : pos < v.length := by
            by_contra hge
            push_neg at hge
            have hsl : sentinel.length = 2 := rfl
            have hple : pos ≤ v.length + 2 := by
              have := hposle
              simp only [List.length_append, hsl] at this
              omega
            have hdrop : (v ++ sentinel).drop pos =
                sentinel.drop (pos - v.length) := by
              have hh : pos = v.length + (pos - v.length) := by omega
              conv_lhs => rw [hh]
              rw [drop_len_add_append]
            rw [hdrop] at hfound
            have hj : pos - v.length ≤ 2 := by omega
            have hcs := counterAt_small (lt = ListType.ul)
            interval_cases hjc : (pos - v.length)
            · rw [show sentinel.drop 0 = sentinel from rfl] at hfound
              rw [hcs.1] at hfound
              exact Bool.noConfusion hfound
            · rw [show sentinel.drop 1 = ['0'] from rfl] at hfound
              rw [hcs.2.1] at hfound
              exact Bool.noConfusion hfound
            · rw [show sentinel.drop 2 = [] from rfl] at hfound
              rw [hcs.2.2.1] at hfound
              exact Bool.noConfusion hfound
          constructor
          · rw [List.take_append_of_le_length (by omega)]
            refine Or.inl ⟨hv.within (List.take_prefix _ _).isInfix, ?_⟩
            simp only [List.length_take]
            omega
          · rw [List.drop_append_of_le_length (by omega)]
            refine Or.inr ⟨v.drop pos, rfl,
              hv.within (List.drop_suffix _ _).isInfix, ?_⟩
            simp only [List.length_drop]
            omega
      have hflip : counterAt (flipType lt = ListType.ul) false
          (txt.drop pos) = false := by
        have hd := counterAt_disjoint hfound
        have hco : (!(decide (lt = ListType.ul))) =
            decide (flipType lt = ListType.ul) := by
          cases lt <;> rfl
        rw [← hco]
        exact hd
      obtain ⟨flp, ⟨inner, g1⟩, hp⟩ := ex_pli HB hslices.1 tr g
      obtain ⟨flr, ⟨pr, pg⟩, hr⟩ := ih (txt.drop pos)
        (by simp only [List.length_drop]; omega) hslices.2 (flipType lt)
        hflip
        (acc ++ containerWrap lt (setAttr attrs (lit "start")
          (startAttrVal (styleStartNumber orig lt))) inner)
        (setAttr attrs (lit "start")
          (startAttrVal (styleStartNumber orig lt))) orig tr g1
      have hp' := (fuel_mono defCtx flp).2.2.2.2.2.1 (max flp flr)
        (le_max_left _ _) _ _ _ _ _ hp
      have hr' := (fuel_mono defCtx flr).2.2.2.2.1 (max flp flr)
        (le_max_right _ _) _ _ _ _ _ _ _ _ _ hr
      exact ⟨max flp flr + 1, (pr, pg), by
        rw [parseCLF_succ, legacy_defCtx]
        simp only [hse, hp']
        exact hr'⟩

theorem ex_pcl {B : Nat} (HB : TotalBelow B) {l : Str} (hl : LOK B l)
    {lt : ListType}
    (hhead : counterAt (lt = ListType.ul) false l = false) (tr : Bool)
    (g : Globals) :
    ∃ fl p, parseConsecutiveListsF defCtx fl l lt tr g = some p := by
  have hhook : hookOutputUsed (defCtx.hooks.listOnCapture l).1 = false := rfl
  rcases hse : searchLines (counterAt (lt = ListType.ul) false) l with
    _ | pos
  · obtain ⟨flp, ⟨inner, g1⟩, hp⟩ := ex_pli HB hl tr g
    exact ⟨flp + 1, _, by
      rw [parseConsecutiveListsF_succ]
      simp only []
      rw [if_neg (by rw [hhook]; simp), legacy_defCtx]
      simp only [hse, hp]
      rfl⟩
  · obtain ⟨flc, ⟨pr, pg⟩, hc⟩ := ex_cl HB l.length l (le_refl _) hl lt
      hhead [] (defCtx.hooks.listOnCapture l).2 l tr g
    exact ⟨flc + 1, (pr, pg), by
      rw [parseConsecutiveListsF_succ]
      simp only []
      rw [if_neg (by rw [hhook]; simp), legacy_defCtx]
      simp only [hse]
      exact hc⟩

theorem mainAttempt_cases {atStart : Bool} {s : Str} {bm : BlockMatch}
    (h : mainAttempt atStart s = some bm) :
    ∃ k, matchBlockHere (s.drop k) = some bm := by
  unfold mainAttempt at h
  split at h
  · rename_i r2
    rcases hmb : matchBlockHere r2 with _ | bmi
    · simp only [hmb] at h
      split at h
      · exact ⟨1, h⟩
      · exact Option.noConfusion h
    · simp only [hmb, Option.some.injEq] at h
      exact ⟨2, by
        rw [show (List.drop 2 ('\n' :: '\n' :: r2)) = r2 from rfl, hmb, h]⟩
  · rename_i r1
    split at h
    · exact ⟨1, h⟩
    · exact Option.noConfusion h
  · split at h
    · exact ⟨0, h⟩
    · exact Option.noConfusion h

theorem subAttempt_cases {atStart : Bool} {s : Str} {bm : BlockMatch}
    (h : subAttempt atStart s = some bm) : matchBlockHere s = some bm := by
  unfold subAttempt at h
  split at h
  · exact h
  · exact Option.noConfusion h

theorem attempt_loc {B : Nat} {s : Str} {bm : BlockMatch} {k : Nat}
    (hM : MInv B s) (h : matchBlockHere (s.drop k) = some bm) :
    LOK B bm.list ∧
      counterAt (kindOfGroup bm.markerGroup = ListType.ul) false bm.list
        = false ∧
      MInv B bm.rest ∧ bm.rest.length < s.length := by
  have hMd : MInv B (s.drop k) := MInv_suffix hM (List.drop_suffix k s)
  rcases hMd with ⟨u, hdu, hu, hub⟩ | hd | hd
  · obtain ⟨hlok, hcnt, hrest, hlt, hlist⟩ := blockHere_loc hu hub hdu h
    refine ⟨hlok, hcnt, ?_, ?_⟩
    · rcases hrest with ⟨u2, h1, h2, h3⟩ | h1
      · exact Or.inl ⟨u2, h1, h2, h3⟩
      · exact Or.inr (Or.inr h1)
    · have hle : (s.drop k).length ≤ s.length := by
        rw [List.length_drop]
        omega
      omega
  · rw [hd, matchBlockHere_zero] at h
    exact Option.noConfusion h
  · rw [hd, matchBlockHere_nil] at h
    exact Option.noConfusion h

theorem ex_main {B : Nat} (HB : TotalBelow B) :
    ∀ (n : Nat) (s : Str), s.length ≤ n → MInv B s →
    ∀ (atStart : Bool) (accRev : Str) (g : Globals),
    ∃ fl p, replaceMainF defCtx fl s atStart accRev g = some p := by
  intro n
  induction n with
  | zero =>
    intro s hlen _ atStart accRev g
    have hs : s = [] := List.eq_nil_of_length_eq_zero (by omega)
    subst hs
    exact ⟨1, _, by rw [replaceMainF_nil]⟩
  | succ n ih =>
    intro s hlen hM atStart accRev g
    rcases s with _ | ⟨c, r⟩
    · exact ⟨1, _, by rw [replaceMainF_nil]⟩
    rcases hma : mainAttempt atStart (c :: r) with _ | bm
    · obtain ⟨flr, p, hr⟩ := ih r
        (by simp only [List.length_cons] at hlen; omega)
        (MInv_suffix hM ⟨[c], rfl⟩) (c = '\n') (c :: accRev) g
      exact ⟨flr + 1, p, by
        rw [replaceMainF_cons]
        simp only [hma]
        exact hr⟩
    · obtain ⟨k, hbh⟩ := mainAttempt_cases hma
      obtain ⟨hlok, hcnt, hMr, hlt⟩ := attempt_loc hM hbh
      obtain ⟨flp, ⟨rep, g1⟩, hp⟩ := ex_pcl HB hlok hcnt false g
      obtain ⟨flr, p, hr⟩ := ih bm.rest
        (by simp only [List.length_cons] at hlen hlt; omega) hMr
        (bm.list.getLast? = some '\n') (rep.reverse ++ accRev) g1
      have hp' := (fuel_mono defCtx flp).2.2.2.1 (max flp flr)
        (le_max_left _ _) _ _ _ _ _ _ hp
      rcases p with ⟨pr, pg⟩
      have hr' := (fuel_mono defCtx flr).2.1 (max flp flr)
        (le_max_right _ _) _ _ _ _ _ _ hr
      exact ⟨max flp flr + 1, (pr, pg), by
        rw [replaceMainF_cons]
        simp only [hma, hp']
        exact hr'⟩

theorem ex_sub {B : Nat} (HB : TotalBelow B) :
    ∀ (n : Nat) (s : Str), s.length ≤ n → MInv B s →
    ∀ (atStart : Bool) (accRev : Str) (g : Globals),
    ∃ fl p, replaceSubF defCtx fl s atStart accRev g = some p := by
  intro n
  induction n with
  | zero =>
    intro s hlen _ atStart accRev g
    have hs : s = [] := List.eq_nil_of_length_eq_zero (by omega)
    subst hs
    exact ⟨1, _, by rw [replaceSubF_nil]⟩
  | succ n ih =>
    intro s hlen hM atStart accRev g
    rcases s with _ | ⟨c, r⟩
    · exact ⟨1, _, by rw [replaceSubF_nil]⟩
    rcases hma : subAttempt atStart (c :: r) with _ | bm
    · obtain ⟨flr, p, hr⟩ := ih r
        (by simp only [List.length_cons] at hlen; omega)
        (MInv_suffix hM ⟨[c], rfl⟩) (c = '\n') (c :: accRev) g
      exact ⟨flr + 1, p, by
        rw [replaceSubF_cons]
        simp only [hma]
        exact hr⟩
    · have hbh : matchBlockHere ((c :: r).drop 0) = some bm :=
        subAttempt_cases hma
      obtain ⟨hlok, hcnt, hMr, hlt⟩ := attempt_loc hM hbh
      obtain ⟨flp, ⟨rep, g1⟩, hp⟩ := ex_pcl HB hlok hcnt true g
      obtain ⟨flr, p, hr⟩ := ih bm.rest
        (by simp only [List.length_cons] at hlen hlt; omega) hMr
        (bm.list.getLast? = some '\n') (rep.reverse ++ accRev) g1
      have hp' := (fuel_mono defCtx flp).2.2.2.1 (max flp flr)
        (le_max_left _ _) _ _ _ _ _ _ hp
      rcases p with ⟨pr, pg⟩
      have hr' := (fuel_mono defCtx flr).2.2.1 (max flp flr)
        (le_max_right _ _) _ _ _ _ _ _ hr
      exact ⟨max flp flr + 1, (pr, pg), by
        rw [replaceSubF_cons]
        simp only [hma, hp']
        exact hr'⟩

theorem subAttempt_nonMark {a : Bool} {s : Str}
    (hbh : matchBlockHere s = none) : subAttempt a s = none := by
  unfold subAttempt
  split
  · exact hbh
  · rfl

theorem listF_total : ∀ B : Nat, TotalBelow B := by
  intro B
  induction B with
  | zero =>
    intro t _ hmu g
    omega
  | succ B ih =>
    intro t hns hmu g
    by_cases hesc : escMarker.isPrefixOf t = true
    · obtain ⟨t2, ht⟩ := List.isPrefixOf_iff_prefix.mp hesc
      subst ht
      rw [mu_esc] at hmu
      have hns2 : NoSent t2 := hns.within ⟨escMarker, [], by simp⟩
      have hM : MInv B (t2 ++ sentinel) :=
        Or.inl ⟨t2, rfl, hns2, by omega⟩
      have hshape : defCtx.hooks.onStart (escMarker ++ t2) ++ sentinel =
          '¨' :: ('A' :: (t2 ++ sentinel)) := rfl
      have hbh1 : matchBlockHere ('¨' :: ('A' :: (t2 ++ sentinel)))
          = none :=
        matchBlockHere_cons_none (by decide) (by decide) (by decide)
      have hbh2 : matchBlockHere ('A' :: (t2 ++ sentinel)) = none :=
        matchBlockHere_cons_none (by decide) (by decide) (by decide)
      by_cases hg : g.gListLevel = 0
      · have hma1 : mainAttempt true ('¨' :: ('A' :: (t2 ++ sentinel)))
            = none := mainAttempt_nonNl (by decide) hbh1
        have hma2 : mainAttempt (decide ('¨' = '\n'))
            ('A' :: (t2 ++ sentinel)) = none :=
          mainAttempt_nonNl (by decide) hbh2
        obtain ⟨flm, ⟨t3, g1⟩, hm⟩ := ex_main ih (t2 ++ sentinel).length
          (t2 ++ sentinel) (le_refl _) hM (decide ('A' = '\n'))
          ['A', '¨'] g
        exact ⟨flm + 3, _, by
          rw [listF_succ, if_neg (fun hc => hc hg), hshape,
            replaceMainF_cons]
          simp only [hma1]
          rw [replaceMainF_cons]
          simp only [hma2]
          simp only [hm]
          rfl⟩
      · have hma1 : subAttempt true ('¨' :: ('A' :: (t2 ++ sentinel)))
            = none := subAttempt_nonMark hbh1
        have hma2 : subAttempt (decide ('¨' = '\n'))
            ('A' :: (t2 ++ sentinel)) = none := subAttempt_nonMark hbh2
        obtain ⟨flm, ⟨t3, g1⟩, hm⟩ := ex_sub ih (t2 ++ sentinel).length
          (t2 ++ sentinel) (le_refl _) hM (decide ('A' = '\n'))
          ['A', '¨'] g
        exact ⟨flm + 3, _, by
          rw [listF_succ, if_pos hg, hshape, replaceSubF_cons]
          simp only [hma1]
          rw [replaceSubF_cons]
          simp only [hma2]
          simp only [hm]
          rfl⟩
    · have hlen : t.length < B + 1 := by
        unfold mu at hmu
        rwa [if_neg hesc] at hmu
      have hM : MInv B (t ++ sentinel) := Or.inl ⟨t, rfl, hns, by omega⟩
      have honst : defCtx.hooks.onStart t = t := rfl
      by_cases hg : g.gListLevel = 0
      · obtain ⟨flm, ⟨t3, g1⟩, hm⟩ := ex_main ih (t ++ sentinel).length
          (t ++ sentinel) (le_refl _) hM true [] g
        exact ⟨flm + 1, _, by
          rw [listF_succ, if_neg (fun hc => hc hg), honst]
          simp only [hm]
          rfl⟩
      · obtain ⟨flm, ⟨t3, g1⟩, hm⟩ := ex_sub ih (t ++ sentinel).length
          (t ++ sentinel) (le_refl _) hM true [] g
        exact ⟨flm + 1, _, by
          rw [listF_succ, if_pos hg, honst]
          simp only [hm]
          rfl⟩

/-- C9: under the default configuration (default options, default hooks,
identity collaborators) the list transform is total on every sentinel-free
input text: some fuel bound makes the fuel-indexed embedding return a
result, so the transform runs to completion without signaling failure; and
the self-recursion operates on a strictly smaller fragment: whenever the
item pattern matches inside the item driver's working string (a
sentinel-free prefix followed by the sentinel zone), the guarded outdented
item body handed back to the nested list transform is strictly smaller in
the termination measure than the sentinel-free prefix, and the driver's
remaining string is strictly shorter than the working string, so recursion
depth is bounded by the input's size and hence by its nesting depth. -/
theorem listTransform_total :
    (∀ t : Str, containsSub sentinel t = false → ∀ g : Globals,
      ∃ fl r g', listF defCtx fl t g = some (r, g')) ∧
    (∀ (u z s : Str) (im : ItemMatch) (legacy atStart checked : Bool),
      (z = sentinel ∨ z = sentinel ++ sentinel) →
      containsSub sentinel u = false → s = u ++ z →
      itemAttempt legacy atStart s = some im →
      mu (itemGuardsAll defCtx (outdent im.m4) checked) < u.length ∧
        im.rest.length < s.length) := by
  constructor
  · intro t hns g
    obtain ⟨fl, ⟨r, g'⟩, h⟩ := listF_total (mu t + 1) t hns (by omega) g
    exact ⟨fl, r, g', h⟩
  · intro u z s im legacy atStart checked hz hu hs hia
    obtain ⟨hnm4, hlen, q, hq, hq1⟩ := m4_loc hz hu hs hia
    have hno : NoSent (outdent im.m4) := outdent_noSent hnm4
    have hol := outdent_length im.m4
    obtain ⟨hgns, hgb⟩ := itemGuardsAll_bound (outdent im.m4) checked hno
    refine ⟨by omega, ?_⟩
    have hql := congrArg List.length hq
    simp only [List.length_append] at hql
    omega

theorem listTransform_total_witness :
    (∃ fl r g', listF defCtx fl (lit "- a\n") g0 = some (r, g')) ∧
    mu (itemGuardsAll defCtx
      (outdent (⟨false, [], lit "-", lit " ", none, lit "a\n", sentinel⟩ :
          ItemMatch).m4) false) < (lit "- a\n").length :=
  ⟨listTransform_total.1 (lit "- a\n") (by decide) g0,
   (listTransform_total.2 (lit "- a\n") sentinel (lit "- a\n" ++ sentinel)
      ⟨false, [], lit "-", lit " ", none, lit "a\n", sentinel⟩ false true
      false (Or.inl rfl) (by decide) rfl (by decide)).1⟩

end ShowdownList
